import Mathlib

/-!
# Fixed-capacity node pool, linked list, queue and stack

A shallow embedding of `hp_linked_list.cpp`, `hp_queue.cpp` and `hp_stack.cpp`.

* The template parameter `N` is an explicit argument of every operation.
* The C arrays of a `NodePool<N>` are lists; `NodePool.WF N` says that each of
  them has exactly `N` entries.
* A call returns `none` when the C++ code would have no defined result: an
  array access outside `[0, N)`, a read of a local that no callee has written,
  or (for the `while` loops, which take a fuel argument) more iterations than
  the fuel allows.
* A reference parameter that a callee only writes (`idx`, `val`, `outVal`) is
  returned as an `Option`: `some x` when the callee stored `x` into it, `none`
  when the callee left it untouched.  `status` is returned as an `Int`.
* A `double` is kept as its 64-bit pattern; the only operation the code
  performs on doubles besides copying them is `==`.
-/

namespace HPDS

/-! ## Doubles -/

/-- An IEEE-754 binary64 value, stored as its bit pattern. -/
structure F64 where
  bits : Nat
  bits_lt : bits < 2 ^ 64

instance : DecidableEq F64 := fun a b =>
  match a, b with
  | ⟨x, _⟩, ⟨y, _⟩ =>
    if h : x = y then isTrue (by subst h; rfl)
    else isFalse (fun e => h (congrArg F64.bits e))

/-- Not-a-number: exponent field all ones and a nonzero fraction. -/
def F64.isNaN (x : F64) : Bool :=
  (x.bits / 2 ^ 52) % 2 ^ 11 == 2047 && x.bits % 2 ^ 52 != 0

/-- Positive or negative zero. -/
def F64.isZero (x : F64) : Bool :=
  x.bits % 2 ^ 63 == 0

/-- The operator `==` on doubles: false when either side is a NaN, the two
zeros are equal to each other, otherwise the patterns are compared. -/
def F64.eq (a b : F64) : Bool :=
  !a.isNaN && !b.isNaN && (a.bits == b.bits || (a.isZero && b.isZero))

/-- The double `0.5`. -/
def d0_5 : F64 := ⟨0x3FE0000000000000, by decide⟩

/-- The double `1.1`. -/
def d1_1 : F64 := ⟨0x3FF199999999999A, by decide⟩

/-- The double `2.2`. -/
def d2_2 : F64 := ⟨0x400199999999999A, by decide⟩

/-- The double `3.3`. -/
def d3_3 : F64 := ⟨0x400A666666666666, by decide⟩

/-- The double `10.5`. -/
def d10_5 : F64 := ⟨0x4025000000000000, by decide⟩

/-- The double `20.5`. -/
def d20_5 : F64 := ⟨0x4034800000000000, by decide⟩

/-! ## Arrays of extent `N` -/

/-- The read `a[i]` of an array of extent `N`. -/
def rd {α : Type} (N : Nat) (a : List α) (i : Nat) : Option α :=
  if i < N then a[i]? else none

/-- The write `a[i] = v` on an array of extent `N`. -/
def wr {α : Type} (N : Nat) (a : List α) (i : Nat) (v : α) : Option (List α) :=
  if i < N ∧ i < a.length then some (a.set i v) else none

/-- The value of `static_cast<std::size_t>(-1)`. -/
def SIZE_MAX : Nat := 2 ^ 64 - 1

/-! ## NodePool (the three files define the same operations) -/

/-- The struct `NodePool<N>`. -/
structure NodePool where
  data : List F64
  next : List Nat
  is_free : List Bool
  free_stack : List Nat
  top_free : Nat
deriving DecidableEq

/-- Each array member of a `NodePool<N>` has `N` entries. -/
def NodePool.WF (N : Nat) (p : NodePool) : Prop :=
  p.data.length = N ∧ p.next.length = N ∧ p.is_free.length = N ∧ p.free_stack.length = N

instance (N : Nat) (p : NodePool) : Decidable (p.WF N) := by
  unfold NodePool.WF; infer_instance

/-- The body of the `for` loop of `NodePool_init`, run for `i` in `is`. -/
def NodePool_init_loop (N : Nat) : List Nat → NodePool → Option NodePool
  | [], pool => some pool
  | i :: is, pool =>
    match wr N pool.is_free i true with
    | none => none
    | some flags =>
      match wr N pool.free_stack i (N - i - 1) with
      | none => none
      | some stack =>
        NodePool_init_loop N is { pool with is_free := flags, free_stack := stack }

/-- The function `NodePool_init` of `hp_queue.cpp` and `hp_stack.cpp` (no status). -/
def NodePool_init (N : Nat) (pool : NodePool) : Option NodePool :=
  NodePool_init_loop N (List.range N) { pool with top_free := N }

/-- The function `NodePool_init` of `hp_linked_list.cpp`, which also sets `status = 0`. -/
def NodePool_init_status (N : Nat) (pool : NodePool) : Option (NodePool × Int) :=
  match NodePool_init N pool with
  | none => none
  | some p => some (p, 0)

/-- The function `NodePool_allocate`: the new pool, what was stored in `idx`, and `status`. -/
def NodePool_allocate (N : Nat) (pool : NodePool) : Option (NodePool × Option Nat × Int) :=
  if pool.top_free = 0 then some (pool, none, -1)
  else
    let top := pool.top_free - 1
    match rd N pool.free_stack top with
    | none => none
    | some idx =>
      match wr N pool.is_free idx false with
      | none => none
      | some flags => some ({ pool with top_free := top, is_free := flags }, some idx, 0)

/-- The test `idx >= N || pool.is_free[idx]`. -/
def NodePool_bad (N : Nat) (pool : NodePool) (idx : Nat) : Option Bool :=
  if idx ≥ N then some true else rd N pool.is_free idx

/-- The function `NodePool_deallocate`: the new pool and `status`. -/
def NodePool_deallocate (N : Nat) (pool : NodePool) (idx : Nat) : Option (NodePool × Int) :=
  match NodePool_bad N pool idx with
  | none => none
  | some true => some (pool, -1)
  | some false =>
    match wr N pool.is_free idx true with
    | none => none
    | some flags =>
      match wr N pool.free_stack pool.top_free idx with
      | none => none
      | some stack =>
        some ({ pool with is_free := flags, free_stack := stack,
                          top_free := pool.top_free + 1 }, 0)

/-- The function `NodePool_setData`: the new pool and `status`. -/
def NodePool_setData (N : Nat) (pool : NodePool) (idx : Nat) (val : F64) :
    Option (NodePool × Int) :=
  match NodePool_bad N pool idx with
  | none => none
  | some true => some (pool, -1)
  | some false =>
    match wr N pool.data idx val with
    | none => none
    | some d => some ({ pool with data := d }, 0)

/-- The function `NodePool_setNext`: the new pool and `status`. -/
def NodePool_setNext (N : Nat) (pool : NodePool) (idx : Nat) (nxt : Nat) :
    Option (NodePool × Int) :=
  match NodePool_bad N pool idx with
  | none => none
  | some true => some (pool, -1)
  | some false =>
    match wr N pool.next idx nxt with
    | none => none
    | some nx => some ({ pool with next := nx }, 0)

/-- The function `NodePool_getData`: what was stored in `val`, and `status`. -/
def NodePool_getData (N : Nat) (pool : NodePool) (idx : Nat) : Option (Option F64 × Int) :=
  match NodePool_bad N pool idx with
  | none => none
  | some true => some (none, -1)
  | some false =>
    match rd N pool.data idx with
    | none => none
    | some v => some (some v, 0)

/-- The function `NodePool_getNext`: what was stored in `nxt`, and `status`. -/
def NodePool_getNext (N : Nat) (pool : NodePool) (idx : Nat) : Option (Option Nat × Int) :=
  match NodePool_bad N pool idx with
  | none => none
  | some true => some (none, -1)
  | some false =>
    match rd N pool.next idx with
    | none => none
    | some v => some (some v, 0)

/-! ## LinkedList (`hp_linked_list.cpp`); `npos` is `N` -/

/-- The struct `LinkedList<N>`. -/
structure LinkedList where
  head : Nat
  tail : Nat
  pool : NodePool
deriving DecidableEq

/-- The function `LinkedList_init`: the new list and `status`. -/
def LinkedList_init (N : Nat) (list : LinkedList) : Option (LinkedList × Int) :=
  match NodePool_init_status N list.pool with
  | none => none
  | some (p, st) => some ({ head := N, tail := N, pool := p }, st)

/-- The function `LinkedList_pushFront`: the new list and `status`. -/
def LinkedList_pushFront (N : Nat) (list : LinkedList) (value : F64) :
    Option (LinkedList × Int) :=
  match NodePool_allocate N list.pool with
  | none => none
  | some (p1, oidx, st1) =>
    if st1 ≠ 0 then some ({ list with pool := p1 }, st1)
    else
      match oidx with
      | none => none
      | some idx =>
        match NodePool_setData N p1 idx value with
        | none => none
        | some (p2, _) =>
          match NodePool_setNext N p2 idx list.head with
          | none => none
          | some (p3, st3) =>
            some ({ head := idx, tail := if list.tail = N then idx else list.tail,
                    pool := p3 }, st3)

/-- The function `LinkedList_pushBack`: the new list and `status`. -/
def LinkedList_pushBack (N : Nat) (list : LinkedList) (value : F64) :
    Option (LinkedList × Int) :=
  match NodePool_allocate N list.pool with
  | none => none
  | some (p1, oidx, st1) =>
    if st1 ≠ 0 then some ({ list with pool := p1 }, st1)
    else
      match oidx with
      | none => none
      | some idx =>
        match NodePool_setData N p1 idx value with
        | none => none
        | some (p2, _) =>
          match NodePool_setNext N p2 idx N with
          | none => none
          | some (p3, st3) =>
            if list.head = N then
              some ({ head := idx, tail := idx, pool := p3 }, st3)
            else
              match NodePool_setNext N p3 list.tail idx with
              | none => none
              | some (p4, st4) => some ({ head := list.head, tail := idx, pool := p4 }, st4)

/-- The function `LinkedList_popFront`: the new list, what was stored in `outVal`, and `status`. -/
def LinkedList_popFront (N : Nat) (list : LinkedList) :
    Option (LinkedList × Option F64 × Int) :=
  if list.head = N then some (list, none, -1)
  else
    let oldHead := list.head
    match NodePool_getData N list.pool oldHead with
    | none => none
    | some (oval, st1) =>
      if st1 ≠ 0 then some (list, oval, st1)
      else
        match NodePool_getNext N list.pool oldHead with
        | none => none
        | some (none, _) => none
        | some (some nxt, _) =>
          match NodePool_deallocate N list.pool oldHead with
          | none => none
          | some (p, st3) =>
            some ({ head := nxt, tail := if nxt = N then N else list.tail, pool := p },
                  oval, st3)

/-- How the `while` loop of `LinkedList_removeValue` ends. -/
inductive Scan where
  /-- The `return` inside the loop, with the status then in `status`. -/
  | returned (status : Int)
  /-- The loop was left (condition false, or `break`) with these `curr`, `prev`. -/
  | exited (curr prev : Nat)
deriving DecidableEq

/-- The `while` loop of `LinkedList_removeValue`; the first argument bounds the
number of evaluations of the loop condition. -/
def LinkedList_removeValue_loop (N : Nat) (pool : NodePool) (value : F64) :
    Nat → Nat → Nat → Option Scan
  | 0, _, _ => none
  | fuel + 1, curr, prev =>
    if curr = N then some (Scan.exited curr prev)
    else
      match NodePool_getData N pool curr with
      | none => none
      | some (oval, st) =>
        if st ≠ 0 then some (Scan.returned st)
        else
          match oval with
          | none => none
          | some currVal =>
            if F64.eq currVal value then some (Scan.exited curr prev)
            else
              match NodePool_getNext N pool curr with
              | none => none
              | some (onxt, _) =>
                LinkedList_removeValue_loop N pool value fuel (onxt.getD curr) curr

/-- The function `LinkedList_removeValue`: the new list and `status`. -/
def LinkedList_removeValue (N : Nat) (fuel : Nat) (list : LinkedList) (value : F64) :
    Option (LinkedList × Int) :=
  if list.head = N then some (list, -1)
  else
    match LinkedList_removeValue_loop N list.pool value fuel list.head N with
    | none => none
    | some (Scan.returned st) => some (list, st)
    | some (Scan.exited curr prev) =>
      if curr = N then some (list, -1)
      else
        match NodePool_getNext N list.pool curr with
        | none => none
        | some (none, _) => none
        | some (some nxt, _) =>
          let spliced : Option LinkedList :=
            if prev = N then some { list with head := nxt }
            else
              match NodePool_setNext N list.pool prev nxt with
              | none => none
              | some (p, _) => some { list with pool := p }
          match spliced with
          | none => none
          | some l1 =>
            let l2 : LinkedList := if nxt = N then { l1 with tail := prev } else l1
            match NodePool_deallocate N l2.pool curr with
            | none => none
            | some (p, st) => some ({ l2 with pool := p }, st)

/-- The `while` loop of `LinkedList_findValue`, started with `idx`: the final
`idx` and `status`. -/
def LinkedList_findValue_loop (N : Nat) (pool : NodePool) (value : F64) :
    Nat → Nat → Option (Nat × Int)
  | 0, _ => none
  | fuel + 1, idx =>
    if idx = N then some (idx, -1)
    else
      match NodePool_getData N pool idx with
      | none => none
      | some (oval, st) =>
        if st ≠ 0 then some (idx, st)
        else
          match oval with
          | none => none
          | some currVal =>
            if F64.eq currVal value then some (idx, 0)
            else
              match NodePool_getNext N pool idx with
              | none => none
              | some (onxt, _) => LinkedList_findValue_loop N pool value fuel (onxt.getD idx)

/-- The function `LinkedList_findValue`: the final `idx` and `status` (the list is a `const`
reference). -/
def LinkedList_findValue (N : Nat) (fuel : Nat) (list : LinkedList) (value : F64) :
    Option (Nat × Int) :=
  LinkedList_findValue_loop N list.pool value fuel list.head

/-- The `while` loop of `LinkedList_printList`, given the current `curr` and
what `val` holds (`none`: never written): for each iteration, the handle `curr`
it visits and the double it sends to `std::cout`. -/
def LinkedList_printList_loop (N : Nat) (pool : NodePool) :
    Nat → Nat → Option F64 → Option (List (Nat × F64))
  | 0, _, _ => none
  | fuel + 1, curr, val =>
    if curr = N then some []
    else
      match NodePool_getData N pool curr with
      | none => none
      | some (oval, _) =>
        match oval.orElse (fun _ => val) with
        | none => none
        | some v =>
          match NodePool_getNext N pool curr with
          | none => none
          | some (onxt, _) =>
            match LinkedList_printList_loop N pool fuel (onxt.getD curr) (some v) with
            | none => none
            | some rest => some ((curr, v) :: rest)

/-- The slots `LinkedList_printList` visits, in order, each with the double
printed for it. -/
def LinkedList_cells (N : Nat) (fuel : Nat) (list : LinkedList) : Option (List (Nat × F64)) :=
  LinkedList_printList_loop N list.pool fuel list.head none

/-- The function `LinkedList_printList`: the doubles printed, in order (head to tail). -/
def LinkedList_printList (N : Nat) (fuel : Nat) (list : LinkedList) : Option (List F64) :=
  match LinkedList_cells N fuel list with
  | none => none
  | some cs => some (cs.map Prod.snd)

/-! ## Queue (`hp_queue.cpp`); the empty link is `SIZE_MAX` -/

/-- The struct `Queue<N>`. -/
structure Queue where
  head : Nat
  tail : Nat
  pool : NodePool
deriving DecidableEq

/-- The function `Queue_init`. -/
def Queue_init (N : Nat) (queue : Queue) : Option Queue :=
  match NodePool_init N queue.pool with
  | none => none
  | some p => some { head := SIZE_MAX, tail := SIZE_MAX, pool := p }

/-- The function `Queue_enqueue`: the new queue and `status`. -/
def Queue_enqueue (N : Nat) (queue : Queue) (val : F64) : Option (Queue × Int) :=
  match NodePool_allocate N queue.pool with
  | none => none
  | some (p1, oidx, st1) =>
    if st1 ≠ 0 then some ({ queue with pool := p1 }, st1)
    else
      match oidx with
      | none => none
      | some new_idx =>
        match NodePool_setData N p1 new_idx val with
        | none => none
        | some (p2, st2) =>
          if st2 ≠ 0 then some ({ queue with pool := p2 }, st2)
          else
            match NodePool_setNext N p2 new_idx SIZE_MAX with
            | none => none
            | some (p3, st3) =>
              if st3 ≠ 0 then some ({ queue with pool := p3 }, st3)
              else
                let linked : Option (NodePool × Int) :=
                  if queue.tail ≠ SIZE_MAX then NodePool_setNext N p3 queue.tail new_idx
                  else some (p3, st3)
                match linked with
                | none => none
                | some (p4, st4) =>
                  if st4 ≠ 0 then some ({ queue with pool := p4 }, st4)
                  else
                    some ({ head := if queue.head = SIZE_MAX then new_idx else queue.head,
                            tail := new_idx, pool := p4 }, st4)

/-- The function `Queue_dequeue`: the new queue, what was stored in `val`, and `status`. -/
def Queue_dequeue (N : Nat) (queue : Queue) : Option (Queue × Option F64 × Int) :=
  if queue.head = SIZE_MAX then some (queue, none, -1)
  else
    let old_head := queue.head
    match NodePool_getData N queue.pool old_head with
    | none => none
    | some (oval, st1) =>
      if st1 ≠ 0 then some (queue, oval, st1)
      else
        match NodePool_getNext N queue.pool old_head with
        | none => none
        | some (ohead, st2) =>
          let q1 : Queue := { queue with head := ohead.getD queue.head }
          if st2 ≠ 0 then some (q1, oval, st2)
          else
            let q2 : Queue := if q1.head = SIZE_MAX then { q1 with tail := SIZE_MAX } else q1
            match NodePool_deallocate N q2.pool old_head with
            | none => none
            | some (p, st3) => some ({ q2 with pool := p }, oval, st3)

/-- The function `Queue_peek`: the queue, what was stored in `val`, and `status`. -/
def Queue_peek (N : Nat) (queue : Queue) : Option (Queue × Option F64 × Int) :=
  if queue.head = SIZE_MAX then some (queue, none, -1)
  else
    match NodePool_getData N queue.pool queue.head with
    | none => none
    | some (oval, st) => some (queue, oval, st)

/-! ## Stack (`hp_stack.cpp`); the empty link is `SIZE_MAX` -/

/-- The struct `Stack<N>`. -/
structure Stack where
  top : Nat
  pool : NodePool
deriving DecidableEq

/-- The function `Stack_init`. -/
def Stack_init (N : Nat) (stack : Stack) : Option Stack :=
  match NodePool_init N stack.pool with
  | none => none
  | some p => some { top := SIZE_MAX, pool := p }

/-- The function `Stack_push`: the new stack and `status`. -/
def Stack_push (N : Nat) (stack : Stack) (val : F64) : Option (Stack × Int) :=
  match NodePool_allocate N stack.pool with
  | none => none
  | some (p1, oidx, st1) =>
    if st1 ≠ 0 then some ({ stack with pool := p1 }, st1)
    else
      match oidx with
      | none => none
      | some new_idx =>
        match NodePool_setData N p1 new_idx val with
        | none => none
        | some (p2, st2) =>
          if st2 ≠ 0 then some ({ stack with pool := p2 }, st2)
          else
            match NodePool_setNext N p2 new_idx stack.top with
            | none => none
            | some (p3, st3) =>
              if st3 ≠ 0 then some ({ stack with pool := p3 }, st3)
              else some ({ top := new_idx, pool := p3 }, st3)

/-- The function `Stack_pop`: the new stack, what was stored in `val`, and `status`. -/
def Stack_pop (N : Nat) (stack : Stack) : Option (Stack × Option F64 × Int) :=
  if stack.top = SIZE_MAX then some (stack, none, -1)
  else
    let curr_top := stack.top
    match NodePool_getData N stack.pool curr_top with
    | none => none
    | some (oval, st1) =>
      if st1 ≠ 0 then some (stack, oval, st1)
      else
        match NodePool_getNext N stack.pool curr_top with
        | none => none
        | some (otop, st2) =>
          let s1 : Stack := { stack with top := otop.getD stack.top }
          if st2 ≠ 0 then some (s1, oval, st2)
          else
            match NodePool_deallocate N s1.pool curr_top with
            | none => none
            | some (p, st3) => some ({ s1 with pool := p }, oval, st3)

/-- The function `Stack_peek`: the stack, what was stored in `val`, and `status`. -/
def Stack_peek (N : Nat) (stack : Stack) : Option (Stack × Option F64 × Int) :=
  if stack.top = SIZE_MAX then some (stack, none, -1)
  else
    match NodePool_getData N stack.pool stack.top with
    | none => none
    | some (oval, st) => some (stack, oval, st)

/-! ## Sequences of calls -/

/-- The calls `Stack_push(stack, v, status)` for the `v` of `vs`, in order: the
final stack and the status of each call. -/
def Stack_pushAll (N : Nat) : Stack → List F64 → Option (Stack × List Int)
  | s, [] => some (s, [])
  | s, v :: vs =>
    match Stack_push N s v with
    | none => none
    | some (s1, st) =>
      match Stack_pushAll N s1 vs with
      | none => none
      | some (s2, sts) => some (s2, st :: sts)

/-- A run of `k` calls `Stack_pop(stack, val, status)`: the final stack and,
for each call, what it stored in `val` and its status. -/
def Stack_popN (N : Nat) : Stack → Nat → Option (Stack × List (Option F64 × Int))
  | s, 0 => some (s, [])
  | s, k + 1 =>
    match Stack_pop N s with
    | none => none
    | some (s1, o, st) =>
      match Stack_popN N s1 k with
      | none => none
      | some (s2, rs) => some (s2, (o, st) :: rs)

/-- The calls `Queue_enqueue(queue, v, status)` for the `v` of `vs`, in order:
the final queue and the status of each call. -/
def Queue_enqueueAll (N : Nat) : Queue → List F64 → Option (Queue × List Int)
  | q, [] => some (q, [])
  | q, v :: vs =>
    match Queue_enqueue N q v with
    | none => none
    | some (q1, st) =>
      match Queue_enqueueAll N q1 vs with
      | none => none
      | some (q2, sts) => some (q2, st :: sts)

/-- A run of `k` calls `Queue_dequeue(queue, val, status)`: the final queue and,
for each call, what it stored in `val` and its status. -/
def Queue_dequeueN (N : Nat) : Queue → Nat → Option (Queue × List (Option F64 × Int))
  | q, 0 => some (q, [])
  | q, k + 1 =>
    match Queue_dequeue N q with
    | none => none
    | some (q1, o, st) =>
      match Queue_dequeueN N q1 k with
      | none => none
      | some (q2, rs) => some (q2, (o, st) :: rs)

/-- The calls `LinkedList_pushBack(list, v, status)` for the `v` of `vs`, in
order: the final list and the status of each call. -/
def LinkedList_pushBackAll (N : Nat) : LinkedList → List F64 → Option (LinkedList × List Int)
  | l, [] => some (l, [])
  | l, v :: vs =>
    match LinkedList_pushBack N l v with
    | none => none
    | some (l1, st) =>
      match LinkedList_pushBackAll N l1 vs with
      | none => none
      | some (l2, sts) => some (l2, st :: sts)

/-- A run of `k` calls `LinkedList_popFront(list, outVal, status)`: the final
list and, for each call, what it stored in `outVal` and its status. -/
def LinkedList_popFrontN (N : Nat) :
    LinkedList → Nat → Option (LinkedList × List (Option F64 × Int))
  | l, 0 => some (l, [])
  | l, k + 1 =>
    match LinkedList_popFront N l with
    | none => none
    | some (l1, o, st) =>
      match LinkedList_popFrontN N l1 k with
      | none => none
      | some (l2, rs) => some (l2, (o, st) :: rs)

/-- A run of `k` calls `NodePool_allocate(pool, idx, status)`: the final pool
and, for each call, what it stored in `idx` and its status. -/
def NodePool_allocateN (N : Nat) : NodePool → Nat → Option (NodePool × List (Option Nat × Int))
  | p, 0 => some (p, [])
  | p, k + 1 =>
    match NodePool_allocate N p with
    | none => none
    | some (p1, o, st) =>
      match NodePool_allocateN N p1 k with
      | none => none
      | some (p2, rs) => some (p2, (o, st) :: rs)

/-! ## Reachable structures -/

/-- The lists a program can get to: `LinkedList_init` on a list object, then
any calls of the operations that change the list, whatever their status. -/
inductive LinkedList.Reach (N : Nat) : LinkedList → Prop
  | init {l0 l : LinkedList} {st : Int} :
      l0.pool.WF N → LinkedList_init N l0 = some (l, st) → LinkedList.Reach N l
  | pushFront {l l' : LinkedList} {v : F64} {st : Int} :
      LinkedList.Reach N l → LinkedList_pushFront N l v = some (l', st) → LinkedList.Reach N l'
  | pushBack {l l' : LinkedList} {v : F64} {st : Int} :
      LinkedList.Reach N l → LinkedList_pushBack N l v = some (l', st) → LinkedList.Reach N l'
  | popFront {l l' : LinkedList} {o : Option F64} {st : Int} :
      LinkedList.Reach N l → LinkedList_popFront N l = some (l', o, st) → LinkedList.Reach N l'
  | removeValue {fuel : Nat} {l l' : LinkedList} {v : F64} {st : Int} :
      LinkedList.Reach N l → LinkedList_removeValue N fuel l v = some (l', st) →
      LinkedList.Reach N l'

/-- The queues a program can get to, with the number of elements they hold:
`Queue_init` gives a queue holding none; a call of `Queue_enqueue` with status
`0` adds one, a call of `Queue_dequeue` with status `0` takes one away, and
every other call leaves the number as it is. -/
inductive Queue.Reach (N : Nat) : Queue → Nat → Prop
  | init {q0 q : Queue} : q0.pool.WF N → Queue_init N q0 = some q → Queue.Reach N q 0
  | enqueue {q q' : Queue} {n : Nat} {v : F64} {st : Int} :
      Queue.Reach N q n → Queue_enqueue N q v = some (q', st) →
      Queue.Reach N q' (if st = 0 then n + 1 else n)
  | dequeue {q q' : Queue} {n : Nat} {o : Option F64} {st : Int} :
      Queue.Reach N q n → Queue_dequeue N q = some (q', o, st) →
      Queue.Reach N q' (if st = 0 then n - 1 else n)
  | peek {q q' : Queue} {n : Nat} {o : Option F64} {st : Int} :
      Queue.Reach N q n → Queue_peek N q = some (q', o, st) → Queue.Reach N q' n

/-- The stacks a program can get to, with the number of elements they hold:
`Stack_init` gives a stack holding none; a call of `Stack_push` with status `0`
adds one, a call of `Stack_pop` with status `0` takes one away, and every other
call leaves the number as it is. -/
inductive Stack.Reach (N : Nat) : Stack → Nat → Prop
  | init {s0 s : Stack} : s0.pool.WF N → Stack_init N s0 = some s → Stack.Reach N s 0
  | push {s s' : Stack} {n : Nat} {v : F64} {st : Int} :
      Stack.Reach N s n → Stack_push N s v = some (s', st) →
      Stack.Reach N s' (if st = 0 then n + 1 else n)
  | pop {s s' : Stack} {n : Nat} {o : Option F64} {st : Int} :
      Stack.Reach N s n → Stack_pop N s = some (s', o, st) →
      Stack.Reach N s' (if st = 0 then n - 1 else n)
  | peek {s s' : Stack} {n : Nat} {o : Option F64} {st : Int} :
      Stack.Reach N s n → Stack_peek N s = some (s', o, st) → Stack.Reach N s' n

/-- The predicate `Traversal N l xs`: `LinkedList_printList`, given enough fuel for its loop
to end, prints `xs`. -/
def Traversal (N : Nat) (l : LinkedList) (xs : List F64) : Prop :=
  ∃ fuel, LinkedList_printList N fuel l = some xs

/-! ## Invariants -/

/-- The pool invariant: the first `top_free` entries of `free_stack` list the
free slots, each once. -/
structure PoolInv (N : Nat) (p : NodePool) : Prop where
  wf : p.WF N
  top_le : p.top_free ≤ N
  nodup : (p.free_stack.take p.top_free).Nodup
  mem_iff : ∀ h, h ∈ p.free_stack.take p.top_free ↔ (h < N ∧ p.is_free[h]? = some true)

/-- The predicate `Chain p a cs b`: starting at handle `a` and following `next`, the slots met
are the handles of `cs`, holding the values of `cs`, and the link after the last
one is `b`. -/
def Chain (p : NodePool) : Nat → List (Nat × F64) → Nat → Prop
  | a, [], b => a = b
  | a, c :: cs, b =>
    a = c.1 ∧ p.data[c.1]? = some c.2 ∧ ∃ n, p.next[c.1]? = some n ∧ Chain p n cs b

/-- The handle of the last cell, or `nil` for the empty chain. -/
def lastHandle (nil : Nat) (cs : List (Nat × F64)) : Nat :=
  ((cs.map Prod.fst).getLast?).getD nil

/-- The handle of the first cell, or `nil` for the empty chain. -/
def firstHandle (nil : Nat) (cs : List (Nat × F64)) : Nat :=
  match cs with
  | [] => nil
  | c :: _ => c.1

/-- The invariant shared by the three structures: the pool invariant holds, and
the slots in use are exactly the cells of the chain that starts at `head` and
ends with the link `nil`. -/
structure Inv (N nil : Nat) (p : NodePool) (head : Nat) (cs : List (Nat × F64)) : Prop where
  pool : PoolInv N p
  nodup : (cs.map Prod.fst).Nodup
  used : ∀ h, h ∈ cs.map Prod.fst ↔ (h < N ∧ p.is_free[h]? = some false)
  chain : Chain p head cs nil

/-- The slots of `cs` are in range and in use. -/
def Valid (N : Nat) (p : NodePool) (cs : List (Nat × F64)) : Prop :=
  ∀ h ∈ cs.map Prod.fst, h < N ∧ p.is_free[h]? = some false

/-- The invariant of a queue holding the cells `cs`, front first. -/
def QueueInv (N : Nat) (q : Queue) (cs : List (Nat × F64)) : Prop :=
  Inv N SIZE_MAX q.pool q.head cs ∧ q.tail = lastHandle SIZE_MAX cs

/-- The invariant of a list holding the cells `cs`, head first. -/
def ListInv (N : Nat) (l : LinkedList) (cs : List (Nat × F64)) : Prop :=
  Inv N N l.pool l.head cs ∧ l.tail = lastHandle N cs

/-! ## The structures of the three `main` programs, and full ones of capacity 2 -/

/-- The stack object of `main` before `Stack_init`: every member zero. -/
def Stack.zero (N : Nat) : Stack :=
  { top := 0,
    pool := { data := List.replicate N ⟨0, by decide⟩, next := List.replicate N 0,
              is_free := List.replicate N false, free_stack := List.replicate N 0,
              top_free := 0 } }

/-- The queue object of `main` before `Queue_init`: every member zero. -/
def Queue.zero (N : Nat) : Queue :=
  { head := 0, tail := 0,
    pool := { data := List.replicate N ⟨0, by decide⟩, next := List.replicate N 0,
              is_free := List.replicate N false, free_stack := List.replicate N 0,
              top_free := 0 } }

/-- A list object of capacity 10 before `LinkedList_init` (its members are not
initialised by the program; here they are zero). -/
def main_list_raw : LinkedList :=
  { head := 0, tail := 0,
    pool := { data := List.replicate 10 ⟨0, by decide⟩, next := List.replicate 10 0,
              is_free := List.replicate 10 false, free_stack := List.replicate 10 0,
              top_free := 0 } }

/-- The list of `main` after `LinkedList_init`. -/
def main_list_init : LinkedList :=
  { head := 10, tail := 10,
    pool := { data := List.replicate 10 ⟨0, by decide⟩, next := List.replicate 10 0,
              is_free := List.replicate 10 true, free_stack := [9, 8, 7, 6, 5, 4, 3, 2, 1, 0],
              top_free := 10 } }

/-- The list of `main` after `pushBack(1.1)`. -/
def main_list_1 : LinkedList :=
  { head := 0, tail := 0,
    pool := { data := d1_1 :: List.replicate 9 ⟨0, by decide⟩,
              next := 10 :: List.replicate 9 0,
              is_free := false :: List.replicate 9 true,
              free_stack := [9, 8, 7, 6, 5, 4, 3, 2, 1, 0], top_free := 9 } }

/-- The list of `main` after `pushBack(1.1)`, `pushFront(0.5)`. -/
def main_list_2 : LinkedList :=
  { head := 1, tail := 0,
    pool := { data := d1_1 :: d0_5 :: List.replicate 8 ⟨0, by decide⟩,
              next := 10 :: 0 :: List.replicate 8 0,
              is_free := false :: false :: List.replicate 8 true,
              free_stack := [9, 8, 7, 6, 5, 4, 3, 2, 1, 0], top_free := 8 } }

/-- The list of `main` after `pushBack(1.1)`, `pushFront(0.5)`, `pushBack(2.2)`:
it prints 0.5, 1.1, 2.2. -/
def main_list_3 : LinkedList :=
  { head := 1, tail := 2,
    pool := { data := d1_1 :: d0_5 :: d2_2 :: List.replicate 7 ⟨0, by decide⟩,
              next := 2 :: 0 :: 10 :: List.replicate 7 0,
              is_free := false :: false :: false :: List.replicate 7 true,
              free_stack := [9, 8, 7, 6, 5, 4, 3, 2, 1, 0], top_free := 7 } }

/-- The list of `main` after the `popFront`: it prints 1.1, 2.2. -/
def main_list_4 : LinkedList :=
  { head := 0, tail := 2,
    pool := { data := d1_1 :: d0_5 :: d2_2 :: List.replicate 7 ⟨0, by decide⟩,
              next := 2 :: 0 :: 10 :: List.replicate 7 0,
              is_free := false :: true :: false :: List.replicate 7 true,
              free_stack := [9, 8, 7, 6, 5, 4, 3, 1, 1, 0], top_free := 8 } }

/-- The list of `main` after `removeValue(1.1)`: it prints 2.2. -/
def main_list_5 : LinkedList :=
  { head := 2, tail := 2,
    pool := { data := d1_1 :: d0_5 :: d2_2 :: List.replicate 7 ⟨0, by decide⟩,
              next := 2 :: 0 :: 10 :: List.replicate 7 0,
              is_free := true :: true :: false :: List.replicate 7 true,
              free_stack := [9, 8, 7, 6, 5, 4, 3, 1, 0, 0], top_free := 9 } }

/-- The queue of `main` after `Queue_init`. -/
def main_queue_init : Queue :=
  { head := SIZE_MAX, tail := SIZE_MAX,
    pool := { data := List.replicate 10 ⟨0, by decide⟩, next := List.replicate 10 0,
              is_free := List.replicate 10 true, free_stack := [9, 8, 7, 6, 5, 4, 3, 2, 1, 0],
              top_free := 10 } }

/-- The queue of `main` after `enqueue(1.1)`. -/
def main_queue_1 : Queue :=
  { head := 0, tail := 0,
    pool := { data := d1_1 :: List.replicate 9 ⟨0, by decide⟩,
              next := SIZE_MAX :: List.replicate 9 0,
              is_free := false :: List.replicate 9 true,
              free_stack := [9, 8, 7, 6, 5, 4, 3, 2, 1, 0], top_free := 9 } }

/-- The queue of `main` after `enqueue(1.1)`, `enqueue(2.2)`. -/
def main_queue_2 : Queue :=
  { head := 0, tail := 1,
    pool := { data := d1_1 :: d2_2 :: List.replicate 8 ⟨0, by decide⟩,
              next := 1 :: SIZE_MAX :: List.replicate 8 0,
              is_free := false :: false :: List.replicate 8 true,
              free_stack := [9, 8, 7, 6, 5, 4, 3, 2, 1, 0], top_free := 8 } }

/-- The queue of `main` after `enqueue(1.1)`, `enqueue(2.2)`, `enqueue(3.3)`. -/
def main_queue_3 : Queue :=
  { head := 0, tail := 2,
    pool := { data := d1_1 :: d2_2 :: d3_3 :: List.replicate 7 ⟨0, by decide⟩,
              next := 1 :: 2 :: SIZE_MAX :: List.replicate 7 0,
              is_free := false :: false :: false :: List.replicate 7 true,
              free_stack := [9, 8, 7, 6, 5, 4, 3, 2, 1, 0], top_free := 7 } }

/-- The stack of `main` after `Stack_init`. -/
def main_stack_init : Stack :=
  { top := SIZE_MAX,
    pool := { data := List.replicate 10 ⟨0, by decide⟩, next := List.replicate 10 0,
              is_free := List.replicate 10 true, free_stack := [9, 8, 7, 6, 5, 4, 3, 2, 1, 0],
              top_free := 10 } }

/-- The stack of `main` after `push(10.5)`. -/
def main_stack_1 : Stack :=
  { top := 0,
    pool := { data := d10_5 :: List.replicate 9 ⟨0, by decide⟩,
              next := SIZE_MAX :: List.replicate 9 0,
              is_free := false :: List.replicate 9 true,
              free_stack := [9, 8, 7, 6, 5, 4, 3, 2, 1, 0], top_free := 9 } }

/-- The stack of `main` after `push(10.5)`, `push(20.5)`. -/
def main_stack_2 : Stack :=
  { top := 1,
    pool := { data := d10_5 :: d20_5 :: List.replicate 8 ⟨0, by decide⟩,
              next := SIZE_MAX :: 0 :: List.replicate 8 0,
              is_free := false :: false :: List.replicate 8 true,
              free_stack := [9, 8, 7, 6, 5, 4, 3, 2, 1, 0], top_free := 8 } }

/-- A list object of capacity 2 before `LinkedList_init`. -/
def full_list_raw : LinkedList :=
  { head := 0, tail := 0,
    pool := { data := List.replicate 2 ⟨0, by decide⟩, next := [0, 0],
              is_free := [false, false], free_stack := [0, 0], top_free := 0 } }

/-- The list of capacity 2 after `LinkedList_init`. -/
def full_list_0 : LinkedList :=
  { head := 2, tail := 2,
    pool := { data := List.replicate 2 ⟨0, by decide⟩, next := [0, 0],
              is_free := [true, true], free_stack := [1, 0], top_free := 2 } }

/-- The list of capacity 2 after `pushBack(1.1)`. -/
def full_list_1 : LinkedList :=
  { head := 0, tail := 0,
    pool := { data := [d1_1, ⟨0, by decide⟩], next := [2, 0],
              is_free := [false, true], free_stack := [1, 0], top_free := 1 } }

/-- The list of capacity 2 after `pushBack(1.1)`, `pushBack(2.2)`: it is full. -/
def full_list_2 : LinkedList :=
  { head := 0, tail := 1,
    pool := { data := [d1_1, d2_2], next := [1, 2],
              is_free := [false, false], free_stack := [1, 0], top_free := 0 } }

/-- The queue of capacity 2 after `Queue_init`. -/
def full_queue_0 : Queue :=
  { head := SIZE_MAX, tail := SIZE_MAX,
    pool := { data := List.replicate 2 ⟨0, by decide⟩, next := [0, 0],
              is_free := [true, true], free_stack := [1, 0], top_free := 2 } }

/-- The queue of capacity 2 after `enqueue(1.1)`. -/
def full_queue_1 : Queue :=
  { head := 0, tail := 0,
    pool := { data := [d1_1, ⟨0, by decide⟩], next := [SIZE_MAX, 0],
              is_free := [false, true], free_stack := [1, 0], top_free := 1 } }

/-- The queue of capacity 2 after `enqueue(1.1)`, `enqueue(2.2)`: it is full. -/
def full_queue_2 : Queue :=
  { head := 0, tail := 1,
    pool := { data := [d1_1, d2_2], next := [1, SIZE_MAX],
              is_free := [false, false], free_stack := [1, 0], top_free := 0 } }

/-- The stack of capacity 2 after `Stack_init`. -/
def full_stack_0 : Stack :=
  { top := SIZE_MAX,
    pool := { data := List.replicate 2 ⟨0, by decide⟩, next := [0, 0],
              is_free := [true, true], free_stack := [1, 0], top_free := 2 } }

/-- The stack of capacity 2 after `push(10.5)`. -/
def full_stack_1 : Stack :=
  { top := 0,
    pool := { data := [d10_5, ⟨0, by decide⟩], next := [SIZE_MAX, 0],
              is_free := [false, true], free_stack := [1, 0], top_free := 1 } }

/-- The stack of capacity 2 after `push(10.5)`, `push(20.5)`: it is full. -/
def full_stack_2 : Stack :=
  { top := 1,
    pool := { data := [d10_5, d20_5], next := [SIZE_MAX, 0],
              is_free := [false, false], free_stack := [1, 0], top_free := 0 } }

/-! ## Reachable pools -/

/-- The pools a program can get to: `NodePool_init` on a pool object, then any
calls of `NodePool_allocate`, `NodePool_deallocate`, `NodePool_setData` and
`NodePool_setNext`, with any arguments and whatever their status. -/
inductive NodePool.Reach (N : Nat) : NodePool → Prop
  | init {p0 p : NodePool} : p0.WF N → NodePool_init N p0 = some p → NodePool.Reach N p
  | allocate {p p' : NodePool} {o : Option Nat} {st : Int} :
      NodePool.Reach N p → NodePool_allocate N p = some (p', o, st) → NodePool.Reach N p'
  | deallocate {p p' : NodePool} {idx : Nat} {st : Int} :
      NodePool.Reach N p → NodePool_deallocate N p idx = some (p', st) → NodePool.Reach N p'
  | setData {p p' : NodePool} {idx : Nat} {v : F64} {st : Int} :
      NodePool.Reach N p → NodePool_setData N p idx v = some (p', st) → NodePool.Reach N p'
  | setNext {p p' : NodePool} {idx nx : Nat} {st : Int} :
      NodePool.Reach N p → NodePool_setNext N p idx nx = some (p', st) → NodePool.Reach N p'

/-- The pool of capacity 3 after `NodePool_init`. -/
def pool3_init : NodePool :=
  { data := List.replicate 3 ⟨0, by decide⟩, next := [0, 0, 0],
    is_free := [true, true, true], free_stack := [2, 1, 0], top_free := 3 }

/-- The pool of capacity 3 after `NodePool_init` and one `NodePool_allocate`
(which hands out slot 0). -/
def pool3_one : NodePool :=
  { data := List.replicate 3 ⟨0, by decide⟩, next := [0, 0, 0],
    is_free := [false, true, true], free_stack := [2, 1, 0], top_free := 2 }

/-! ## The pool operations -/

theorem rd_of_lt {α : Type} {N i : Nat} (a : List α) (h : i < N) : rd N a i = a[i]? := by
  simp [rd, h]

theorem wr_of_lt {α : Type} {N i : Nat} {a : List α} (v : α) (h : i < N) (hl : a.length = N) :
    wr N a i v = some (a.set i v) := by
  simp [wr, h, hl]

theorem getElem?_some_of_lt {α : Type} {N i : Nat} {a : List α} (h : i < N) (hl : a.length = N) :
    ∃ x, a[i]? = some x := by
  have : i < a.length := by omega
  exact ⟨a[i], List.getElem?_eq_getElem this⟩

theorem NodePool_bad_of_ge {N : Nat} (p : NodePool) {idx : Nat} (h : N ≤ idx) :
    NodePool_bad N p idx = some true := by
  simp [NodePool_bad, h]

theorem NodePool_bad_of_lt {N : Nat} (p : NodePool) {idx : Nat} (h : idx < N) :
    NodePool_bad N p idx = p.is_free[idx]? := by
  simp [NodePool_bad, rd, h, Nat.not_le.mpr h]

/-- What the loop of `NodePool_init` leaves behind. -/
theorem NodePool_init_loop_spec (N : Nat) (is : List Nat) :
    ∀ p : NodePool, p.WF N → (∀ i ∈ is, i < N) →
      ∃ q, NodePool_init_loop N is p = some q ∧ q.WF N ∧ q.data = p.data ∧ q.next = p.next ∧
        q.top_free = p.top_free ∧
        (∀ j, j < N → q.is_free[j]? = if j ∈ is then some true else p.is_free[j]?) ∧
        (∀ j, j < N → q.free_stack[j]? = if j ∈ is then some (N - j - 1) else p.free_stack[j]?) := by
  induction is with
  | nil => intro p hp _; exact ⟨p, rfl, hp, rfl, rfl, rfl, by simp, by simp⟩
  | cons i is ih =>
    intro p hp hlt
    obtain ⟨h1, h2, h3, h4⟩ := hp
    have hi : i < N := hlt i (List.mem_cons_self _ _)
    have hp' : NodePool.WF N
        { p with is_free := p.is_free.set i true, free_stack := p.free_stack.set i (N - i - 1) } := by
      refine ⟨h1, h2, ?_, ?_⟩ <;> simp [h3, h4]
    obtain ⟨q, hq, hwf, hd, hn, ht, hf, hs⟩ := ih _ hp' (fun j hj => hlt j (List.mem_cons_of_mem _ hj))
    refine ⟨q, ?_, hwf, hd, hn, ht, ?_, ?_⟩
    · simp only [NodePool_init_loop, wr_of_lt _ hi h3, wr_of_lt _ hi h4]
      exact hq
    · intro j hj
      rw [hf j hj]
      by_cases hm : j ∈ is
      · simp [hm]
      · by_cases hji : j = i
        · subst hji
          simp [hm, List.getElem?_set, h3, hj]
        · have : i ≠ j := fun e => hji e.symm
          simp [hm, hji, List.getElem?_set, this]
    · intro j hj
      rw [hs j hj]
      by_cases hm : j ∈ is
      · simp [hm]
      · by_cases hji : j = i
        · subst hji
          simp [hm, List.getElem?_set, h4, hj]
        · have : i ≠ j := fun e => hji e.symm
          simp [hm, hji, List.getElem?_set, this]

/-- The function `NodePool_init` succeeds on a pool of extent `N` and establishes the invariant;
`data` and `next` keep their contents, and every slot is free. -/
theorem NodePool_init_spec (N : Nat) (p : NodePool) (hp : p.WF N) :
    ∃ q, NodePool_init N p = some q ∧ PoolInv N q ∧ q.top_free = N ∧
      q.data = p.data ∧ q.next = p.next ∧ (∀ j, j < N → q.is_free[j]? = some true) ∧
      (∀ j, j < N → q.free_stack[j]? = some (N - j - 1)) := by
  have hp' : NodePool.WF N { p with top_free := N } := hp
  obtain ⟨q, hq, hwf, hd, hn, ht, hf, hs⟩ :=
    NodePool_init_loop_spec N (List.range N) _ hp' (fun i hi => List.mem_range.mp hi)
  have hf' : ∀ j, j < N → q.is_free[j]? = some true := by
    intro j hj; rw [hf j hj]; simp [hj]
  have hs' : ∀ j, j < N → q.free_stack[j]? = some (N - j - 1) := by
    intro j hj; rw [hs j hj]; simp [hj]
  have hlen : q.free_stack.length = N := hwf.2.2.2
  have htake : q.free_stack.take q.top_free = q.free_stack := by
    rw [ht]; exact List.take_of_length_le (by simp [hlen])
  refine ⟨q, hq, ⟨hwf, by simp [ht], ?_, ?_⟩, ht, hd, hn, hf', hs'⟩
  · rw [htake, List.nodup_iff_getElem?_ne_getElem?]
    intro i j hij hj
    rw [hlen] at hj
    rw [hs' i (by omega), hs' j hj]
    intro e
    have := Option.some.inj e
    omega
  · intro h
    rw [htake, List.mem_iff_getElem?]
    constructor
    · rintro ⟨i, hi⟩
      have hiN : i < N := by
        by_contra hc
        rw [List.getElem?_eq_none (by omega)] at hi
        exact Option.noConfusion hi
      rw [hs' i hiN] at hi
      have := Option.some.inj hi
      have hh : h < N := by omega
      exact ⟨hh, hf' h hh⟩
    · rintro ⟨hh, _⟩
      exact ⟨N - h - 1, by rw [hs' _ (by omega)]; congr 1; omega⟩

/-- The function `NodePool_allocate` on a full pool: status `-1`, nothing stored, pool untouched. -/
theorem NodePool_allocate_full (N : Nat) (p : NodePool) (h : p.top_free = 0) :
    NodePool_allocate N p = some (p, none, -1) := by
  simp [NodePool_allocate, h]

/-- The function `NodePool_allocate` on a pool that has a free slot. -/
theorem NodePool_allocate_spec {N : Nat} {p : NodePool} (hp : PoolInv N p) (h : p.top_free ≠ 0) :
    ∃ idx, idx < N ∧ p.is_free[idx]? = some true ∧
      p.free_stack[p.top_free - 1]? = some idx ∧
      NodePool_allocate N p =
        some ({ p with top_free := p.top_free - 1, is_free := p.is_free.set idx false },
              some idx, 0) ∧
      PoolInv N { p with top_free := p.top_free - 1, is_free := p.is_free.set idx false } := by
  obtain ⟨⟨h1, h2, h3, h4⟩, hle, hnd, hmem⟩ := hp
  have htop : p.top_free - 1 < N := by omega
  obtain ⟨idx, hidx⟩ := getElem?_some_of_lt htop h4
  have hsplit : p.free_stack.take p.top_free = p.free_stack.take (p.top_free - 1) ++ [idx] := by
    have : p.top_free = (p.top_free - 1) + 1 := by omega
    conv_lhs => rw [this]
    rw [List.take_succ, hidx]; rfl
  have hin : idx ∈ p.free_stack.take p.top_free := by rw [hsplit]; simp
  obtain ⟨hlt, hfree⟩ := (hmem idx).1 hin
  rw [hsplit] at hnd hmem
  have hnd' := List.nodup_append.1 hnd
  have hnot : idx ∉ p.free_stack.take (p.top_free - 1) := by
    intro hc
    exact hnd'.2.2 hc (List.mem_singleton_self idx)
  refine ⟨idx, hlt, hfree, hidx, ?_, ⟨⟨h1, h2, by simp [h3], h4⟩, by simp; omega, hnd'.1, ?_⟩⟩
  · simp [NodePool_allocate, h, rd_of_lt _ htop, hidx, wr_of_lt _ hlt h3]
  · intro x
    simp only
    by_cases hx : x = idx
    · subst hx
      simp [hnot, List.getElem?_set, h3, hlt]
    · have hx' : idx ≠ x := fun e => hx e.symm
      have := hmem x
      simp only [List.mem_append, List.mem_singleton, hx, or_false] at this
      rw [this, List.getElem?_set_ne hx']

theorem take_set_self {α : Type} (l : List α) (n : Nat) (a : α) :
    (l.set n a).take n = l.take n := by
  rw [List.set_take]
  exact List.set_eq_of_length_le (by simp)

/-- A free list without repetition, inside `[0, N)` and missing `h < N`, is shorter than `N`. -/
theorem length_lt_of_nodup_of_missing {N h : Nat} {l : List Nat} (hnd : l.Nodup)
    (hlt : ∀ x ∈ l, x < N) (hh : h < N) (hmiss : h ∉ l) : l.length < N := by
  have hsub : (h :: l) ⊆ List.range N := by
    intro x hx
    rcases List.mem_cons.1 hx with rfl | hx
    · exact List.mem_range.2 hh
    · exact List.mem_range.2 (hlt x hx)
  have hnd' : (h :: l).Nodup := List.nodup_cons.2 ⟨hmiss, hnd⟩
  have := (List.subperm_of_subset hnd' hsub).length_le
  simp at this
  omega

/-- The function `NodePool_deallocate` on a handle outside the pool or on a free slot: status
`-1`, pool untouched. -/
theorem NodePool_deallocate_bad {N : Nat} {p : NodePool} {idx : Nat}
    (h : NodePool_bad N p idx = some true) : NodePool_deallocate N p idx = some (p, -1) := by
  simp [NodePool_deallocate, h]

/-- The function `NodePool_deallocate` on a slot in use. -/
theorem NodePool_deallocate_spec {N : Nat} {p : NodePool} (hp : PoolInv N p) {idx : Nat}
    (hlt : idx < N) (hused : p.is_free[idx]? = some false) :
    p.top_free < N ∧
    NodePool_deallocate N p idx =
      some ({ p with is_free := p.is_free.set idx true,
                     free_stack := p.free_stack.set p.top_free idx,
                     top_free := p.top_free + 1 }, 0) ∧
    PoolInv N { p with is_free := p.is_free.set idx true,
                       free_stack := p.free_stack.set p.top_free idx,
                       top_free := p.top_free + 1 } := by
  obtain ⟨⟨h1, h2, h3, h4⟩, hle, hnd, hmem⟩ := hp
  have hmiss : idx ∉ p.free_stack.take p.top_free := by
    intro hc
    have := ((hmem idx).1 hc).2
    rw [hused] at this
    exact Bool.noConfusion (Option.some.inj this)
  have hlen : (p.free_stack.take p.top_free).length < N :=
    length_lt_of_nodup_of_missing hnd (fun x hx => ((hmem x).1 hx).1) hlt hmiss
  have htop : p.top_free < N := by
    rw [List.length_take, h4] at hlen
    omega
  have hsplit : (p.free_stack.set p.top_free idx).take (p.top_free + 1)
      = p.free_stack.take p.top_free ++ [idx] := by
    rw [List.take_succ, take_set_self]
    simp [List.getElem?_set, h4, htop]
  refine ⟨htop, ?_, ⟨⟨h1, h2, by simp [h3], by simp [h4]⟩, by simp; omega, ?_, ?_⟩⟩
  · simp [NodePool_deallocate, NodePool_bad_of_lt p hlt, hused, wr_of_lt _ hlt h3,
      wr_of_lt _ htop h4]
  · simp only
    rw [hsplit]
    exact List.nodup_append.2 ⟨hnd, List.nodup_singleton _, by
      intro a ha hb
      rw [List.mem_singleton] at hb
      subst hb
      exact hmiss ha⟩
  · intro x
    simp only
    rw [hsplit]
    by_cases hx : x = idx
    · subst hx
      simp [List.getElem?_set, h3, hlt]
    · have hx' : idx ≠ x := fun e => hx e.symm
      simp only [List.mem_append, List.mem_singleton, hx, or_false]
      rw [hmem x, List.getElem?_set_ne hx']

theorem PoolInv.of_same {N : Nat} {p q : NodePool} (hp : PoolInv N p) (hwf : q.WF N)
    (h1 : q.is_free = p.is_free) (h2 : q.free_stack = p.free_stack)
    (h3 : q.top_free = p.top_free) : PoolInv N q := by
  obtain ⟨_, hle, hnd, hmem⟩ := hp
  exact ⟨hwf, by rw [h3]; exact hle, by rw [h2, h3]; exact hnd, by rw [h1, h2, h3]; exact hmem⟩

theorem NodePool_setData_used {N : Nat} {p : NodePool} {idx : Nat} (hwf : p.WF N)
    (hlt : idx < N) (hu : p.is_free[idx]? = some false) (v : F64) :
    NodePool_setData N p idx v = some ({ p with data := p.data.set idx v }, 0) := by
  simp [NodePool_setData, NodePool_bad_of_lt p hlt, hu, wr_of_lt _ hlt hwf.1]

theorem NodePool_setNext_used {N : Nat} {p : NodePool} {idx : Nat} (hwf : p.WF N)
    (hlt : idx < N) (hu : p.is_free[idx]? = some false) (nx : Nat) :
    NodePool_setNext N p idx nx = some ({ p with next := p.next.set idx nx }, 0) := by
  simp [NodePool_setNext, NodePool_bad_of_lt p hlt, hu, wr_of_lt _ hlt hwf.2.1]

theorem NodePool_getData_used {N : Nat} {p : NodePool} {idx : Nat} {v : F64}
    (hlt : idx < N) (hu : p.is_free[idx]? = some false) (hv : p.data[idx]? = some v) :
    NodePool_getData N p idx = some (some v, 0) := by
  simp [NodePool_getData, NodePool_bad_of_lt p hlt, hu, rd_of_lt _ hlt, hv]

theorem NodePool_getNext_used {N : Nat} {p : NodePool} {idx : Nat} {n : Nat}
    (hlt : idx < N) (hu : p.is_free[idx]? = some false) (hv : p.next[idx]? = some n) :
    NodePool_getNext N p idx = some (some n, 0) := by
  simp [NodePool_getNext, NodePool_bad_of_lt p hlt, hu, rd_of_lt _ hlt, hv]

/-! ## Chains of slots -/

theorem Chain_nil (p : NodePool) (a b : Nat) : Chain p a [] b ↔ a = b := Iff.rfl

theorem Chain_cons (p : NodePool) (a b : Nat) (c : Nat × F64) (cs : List (Nat × F64)) :
    Chain p a (c :: cs) b ↔
      (a = c.1 ∧ p.data[c.1]? = some c.2 ∧ ∃ n, p.next[c.1]? = some n ∧ Chain p n cs b) :=
  Iff.rfl

theorem Chain.append {p : NodePool} {b : Nat} (xs ys : List (Nat × F64)) :
    ∀ a, Chain p a (xs ++ ys) b ↔ ∃ m, Chain p a xs m ∧ Chain p m ys b := by
  induction xs with
  | nil => intro a; simp [Chain_nil]
  | cons x xs ih =>
    intro a
    simp only [List.cons_append, Chain_cons, ih]
    constructor
    · rintro ⟨h1, h2, n, h3, m, h4, h5⟩
      exact ⟨m, ⟨h1, h2, n, h3, h4⟩, h5⟩
    · rintro ⟨m, ⟨h1, h2, n, h3, h4⟩, h5⟩
      exact ⟨h1, h2, n, h3, m, h4, h5⟩

/-- A chain only depends on the `data` and `next` entries of its own slots. -/
theorem Chain.frame {p q : NodePool} {b : Nat} (cs : List (Nat × F64)) :
    ∀ a, (∀ h ∈ cs.map Prod.fst, q.data[h]? = p.data[h]? ∧ q.next[h]? = p.next[h]?) →
      Chain p a cs b → Chain q a cs b := by
  induction cs with
  | nil => intro a _ h; exact h
  | cons c cs ih =>
    intro a hq h
    obtain ⟨h1, h2, n, h3, h4⟩ := h
    have hc := hq c.1 (by simp)
    refine ⟨h1, by rw [hc.1]; exact h2, n, by rw [hc.2]; exact h3, ?_⟩
    exact ih n (fun h hh => hq h (by simp at hh ⊢; exact Or.inr hh)) h4

theorem lastHandle_nil (nil : Nat) : lastHandle nil [] = nil := rfl

theorem lastHandle_snoc (nil : Nat) (cs : List (Nat × F64)) (c : Nat × F64) :
    lastHandle nil (cs ++ [c]) = c.1 := by
  simp [lastHandle]

theorem lastHandle_cons_cons (nil : Nat) (c d : Nat × F64) (cs : List (Nat × F64)) :
    lastHandle nil (c :: d :: cs) = lastHandle nil (d :: cs) := by
  simp [lastHandle, List.getLast?_cons_cons]

/-- Free slots plus chained slots make up the pool. -/
theorem Inv.count {N nil : Nat} {p : NodePool} {head : Nat} {cs : List (Nat × F64)}
    (hI : Inv N nil p head cs) : p.top_free + cs.length = N := by
  obtain ⟨⟨⟨h1, h2, h3, h4⟩, hle, hnd, hmem⟩, hnd2, hused, _⟩ := hI
  have hdis : ∀ a, a ∈ p.free_stack.take p.top_free → a ∈ cs.map Prod.fst → False := by
    intro a ha hb
    have h1 := ((hmem a).1 ha).2
    rw [((hused a).1 hb).2] at h1
    exact Bool.noConfusion (Option.some.inj h1)
  have hnd3 : (p.free_stack.take p.top_free ++ cs.map Prod.fst).Nodup :=
    List.nodup_append.2 ⟨hnd, hnd2, fun a ha hb => hdis a ha hb⟩
  have hperm : (p.free_stack.take p.top_free ++ cs.map Prod.fst).Perm (List.range N) := by
    refine (List.perm_ext_iff_of_nodup hnd3 (List.nodup_range N)).2 (fun a => ?_)
    rw [List.mem_append, List.mem_range, hmem, hused]
    constructor
    · rintro (h | h) <;> exact h.1
    · intro ha
      obtain ⟨b, hb⟩ := getElem?_some_of_lt ha h3
      cases b
      · exact Or.inr ⟨ha, hb⟩
      · exact Or.inl ⟨ha, hb⟩
  have := hperm.length_eq
  simp only [List.length_append, List.length_take, List.length_map, List.length_range, h4] at this
  omega

theorem Chain.start {p : NodePool} {a b : Nat} {cs : List (Nat × F64)} (h : Chain p a cs b) :
    a = firstHandle b cs := by
  cases cs with
  | nil => exact h
  | cons c cs => exact h.1

theorem Inv.handle_lt {N nil : Nat} {p : NodePool} {head : Nat} {cs : List (Nat × F64)}
    (hI : Inv N nil p head cs) {h : Nat} (hh : h ∈ cs.map Prod.fst) : h < N :=
  ((hI.used h).1 hh).1

theorem Inv.handle_used {N nil : Nat} {p : NodePool} {head : Nat} {cs : List (Nat × F64)}
    (hI : Inv N nil p head cs) {h : Nat} (hh : h ∈ cs.map Prod.fst) :
    p.is_free[h]? = some false :=
  ((hI.used h).1 hh).2

theorem firstHandle_eq_nil_iff {N nil : Nat} {cs : List (Nat × F64)} (hN : N ≤ nil)
    (hlt : ∀ h ∈ cs.map Prod.fst, h < N) : firstHandle nil cs = nil ↔ cs = [] := by
  cases cs with
  | nil => simp [firstHandle]
  | cons c cs =>
    have := hlt c.1 (by simp)
    simp only [firstHandle, reduceCtorEq, iff_false]
    omega

theorem lastHandle_eq_nil_iff {N nil : Nat} {cs : List (Nat × F64)} (hN : N ≤ nil)
    (hlt : ∀ h ∈ cs.map Prod.fst, h < N) : lastHandle nil cs = nil ↔ cs = [] := by
  rcases List.eq_nil_or_concat cs with rfl | ⟨cs, c, rfl⟩
  · simp [lastHandle]
  · have := hlt c.1 (by simp)
    rw [List.concat_eq_append, lastHandle_snoc]
    simp only [List.append_eq_nil, List.cons_ne_self, and_false, iff_false, reduceCtorEq]
    omega

/-- Taking a slot from the pool and filling it in: `allocate`, `setData`, `setNext`
all report status `0`; the new slot is none of the chain's. -/
theorem Inv.fresh {N nil : Nat} {p : NodePool} {head : Nat} {cs : List (Nat × F64)}
    (hI : Inv N nil p head cs) (hlen : cs.length < N) (v : F64) (nx : Nat) :
    ∃ idx p1 p2 p3, NodePool_allocate N p = some (p1, some idx, 0) ∧
      NodePool_setData N p1 idx v = some (p2, 0) ∧
      NodePool_setNext N p2 idx nx = some (p3, 0) ∧
      idx < N ∧ idx ∉ cs.map Prod.fst ∧ PoolInv N p3 ∧
      (∀ h, h ∈ idx :: cs.map Prod.fst ↔ (h < N ∧ p3.is_free[h]? = some false)) ∧
      p3.data[idx]? = some v ∧ p3.next[idx]? = some nx ∧
      (∀ h, h ≠ idx → p3.data[h]? = p.data[h]? ∧ p3.next[h]? = p.next[h]?) ∧
      p3.top_free + 1 = p.top_free := by
  have hcount := hI.count
  have htop : p.top_free ≠ 0 := by omega
  obtain ⟨idx, hlt, hfree, _, halloc, hinv1⟩ := NodePool_allocate_spec hI.pool htop
  have hwf := hI.pool.wf
  obtain ⟨h1, h2, h3, h4⟩ := hwf
  have hnot : idx ∉ cs.map Prod.fst := by
    intro hc
    have := hI.handle_used hc
    rw [hfree] at this
    exact Bool.noConfusion (Option.some.inj this)
  have hu1 : (p.is_free.set idx false)[idx]? = some false := by
    simp [List.getElem?_set, h3, hlt]
  refine ⟨idx, _, _, _, halloc, NodePool_setData_used hinv1.wf hlt hu1 v,
    NodePool_setNext_used ?_ hlt hu1 nx, hlt, hnot, ?_, ?_, ?_, ?_, ?_, ?_⟩
  · exact ⟨by simp [h1], h2, by simp [h3], h4⟩
  · exact hinv1.of_same ⟨by simp [h1], by simp [h2], by simp [h3], h4⟩ rfl rfl rfl
  · intro h
    simp only [List.mem_cons]
    by_cases hx : h = idx
    · subst hx
      simp [hu1, hlt]
    · have hx' : idx ≠ h := fun e => hx e.symm
      simp only [hx, false_or]
      rw [hI.used h, List.getElem?_set_ne hx']
  · simp [List.getElem?_set, h1, hlt]
  · simp [List.getElem?_set, h2, hlt]
  · intro h hx
    have hx' : idx ≠ h := fun e => hx e.symm
    simp [List.getElem?_set_ne hx']
  · simp only
    omega

/-- Insertion at the front of the chain. -/
theorem Inv.insert_front {N nil : Nat} {p : NodePool} {head : Nat} {cs : List (Nat × F64)}
    (hI : Inv N nil p head cs) (hlen : cs.length < N) (v : F64) :
    ∃ idx p1 p2 p3, NodePool_allocate N p = some (p1, some idx, 0) ∧
      NodePool_setData N p1 idx v = some (p2, 0) ∧
      NodePool_setNext N p2 idx head = some (p3, 0) ∧
      idx < N ∧ Inv N nil p3 idx ((idx, v) :: cs) := by
  obtain ⟨idx, p1, p2, p3, ha, hd, hn, hlt, hnot, hpool, hused, hdat, hnx, hframe, _⟩ :=
    hI.fresh hlen v head
  refine ⟨idx, p1, p2, p3, ha, hd, hn, hlt, hpool, ?_, ?_, ?_⟩
  · simpa using And.intro (by simpa using hnot) hI.nodup
  · simpa using hused
  · refine ⟨rfl, hdat, head, hnx, ?_⟩
    refine Chain.frame cs head (fun h hh => hframe h ?_) hI.chain
    rintro rfl
    exact hnot hh

/-- Insertion at the back of the chain: the new slot is filled with link `nil`;
on an empty chain it becomes the chain, otherwise the last cell is linked to it. -/
theorem Inv.insert_back {N nil : Nat} {p : NodePool} {head : Nat} {cs : List (Nat × F64)}
    (hI : Inv N nil p head cs) (hlen : cs.length < N) (v : F64) :
    ∃ idx p1 p2 p3, NodePool_allocate N p = some (p1, some idx, 0) ∧
      NodePool_setData N p1 idx v = some (p2, 0) ∧
      NodePool_setNext N p2 idx nil = some (p3, 0) ∧
      idx < N ∧
      (cs = [] → Inv N nil p3 idx [(idx, v)]) ∧
      (cs ≠ [] → ∃ p4, NodePool_setNext N p3 (lastHandle nil cs) idx = some (p4, 0) ∧
        Inv N nil p4 head (cs ++ [(idx, v)])) := by
  obtain ⟨idx, p1, p2, p3, ha, hd, hn, hlt, hnot, hpool, hused, hdat, hnx, hframe, _⟩ :=
    hI.fresh hlen v nil
  refine ⟨idx, p1, p2, p3, ha, hd, hn, hlt, ?_, ?_⟩
  · rintro rfl
    exact ⟨hpool, by simp, by simpa using hused, rfl, hdat, nil, hnx, rfl⟩
  · intro hne
    rcases List.eq_nil_or_concat cs with rfl | ⟨pre, t, rfl⟩
    · exact absurd rfl hne
    rw [List.concat_eq_append] at *
    rw [lastHandle_snoc]
    have htmem : t.1 ∈ idx :: (pre ++ [t]).map Prod.fst := by simp
    obtain ⟨htlt, htused⟩ := (hused t.1).1 htmem
    have htne : t.1 ≠ idx := by
      rintro e
      exact hnot (by rw [← e]; simp)
    have hnd := hI.nodup
    simp only [List.map_append, List.map_cons, List.map_nil] at hnd hnot
    have hnd' := List.nodup_append.1 hnd
    have htpre : t.1 ∉ pre.map Prod.fst := fun hc => hnd'.2.2 hc (List.mem_singleton_self _)
    obtain ⟨m, hc1, hc2⟩ := (Chain.append pre [t] head).1 hI.chain
    obtain ⟨hm, htdat, n, _, hnil⟩ := hc2
    have hwf3 := hpool.wf
    refine ⟨_, NodePool_setNext_used hwf3 htlt htused idx, ?_, ?_, ?_, ?_⟩
    · exact hpool.of_same ⟨hwf3.1, by simp [hwf3.2.1], hwf3.2.2.1, hwf3.2.2.2⟩ rfl rfl rfl
    · simp only [List.map_append, List.map_cons, List.map_nil]
      refine List.nodup_append.2 ⟨hnd, List.nodup_singleton _, ?_⟩
      intro a hmem hb
      rw [List.mem_singleton] at hb
      rw [hb] at hmem
      exact hnot hmem
    · intro h
      rw [← hused h]
      simp only [List.map_append, List.map_cons, List.map_nil, List.mem_append, List.mem_cons,
        List.mem_singleton, List.not_mem_nil, or_false]
      tauto
    · rw [List.append_assoc]
      refine (Chain.append pre _ head).2 ⟨t.1, ?_, ?_⟩
      · refine Chain.frame pre head (fun h hh => ?_) (hm ▸ hc1)
        have h1 : h ≠ idx := by
          rintro rfl
          exact hnot (by simp [hh])
        have h2 : t.1 ≠ h := by
          rintro rfl
          exact htpre hh
        simp only [List.getElem?_set_ne h2]
        exact hframe h h1
      · refine ⟨rfl, ?_, idx, ?_, rfl, ?_, nil, ?_, rfl⟩
        · simp only
          rw [(hframe t.1 htne).1]
          exact htdat
        · simp [List.getElem?_set, hwf3.2.1, htlt]
        · exact hdat
        · simp only
          rw [List.getElem?_set_ne htne]
          exact hnx

/-- Returning the slot of one cell to the pool, once the rest is chained up. -/
theorem Inv.release {N nil : Nat} {q : NodePool} {head : Nat} {pre post : List (Nat × F64)}
    {c : Nat × F64} (hpool : PoolInv N q)
    (hnd : ((pre ++ c :: post).map Prod.fst).Nodup)
    (hused : ∀ h, h ∈ (pre ++ c :: post).map Prod.fst ↔ (h < N ∧ q.is_free[h]? = some false))
    (hchain : Chain q head (pre ++ post) nil) :
    ∃ p', NodePool_deallocate N q c.1 = some (p', 0) ∧ Inv N nil p' head (pre ++ post) ∧
      p'.is_free[c.1]? = some true ∧ p'.top_free = q.top_free + 1 := by
  obtain ⟨hlt, hu⟩ := (hused c.1).1 (by simp)
  obtain ⟨_, hde, hinv⟩ := NodePool_deallocate_spec hpool hlt hu
  have hlen := hpool.wf.2.2.1
  simp only [List.map_append, List.map_cons] at hnd hused
  have hc1 : c.1 ∉ pre.map Prod.fst := by
    intro hc
    have := (List.nodup_append.1 hnd).2.2 hc
    exact this (List.mem_cons_self _ _)
  have hc2 : c.1 ∉ post.map Prod.fst := by
    intro hc
    have := (List.nodup_cons.1 (List.nodup_append.1 hnd).2.1).1
    exact this hc
  refine ⟨_, hde, ⟨hinv, ?_, ?_, ?_⟩, ?_, rfl⟩
  · simp only [List.map_append]
    refine hnd.sublist ?_
    exact List.Sublist.append (List.Sublist.refl _) (List.sublist_cons_self _ _)
  · intro h
    simp only [List.map_append, List.mem_append]
    by_cases hx : h = c.1
    · subst hx
      simp [hc1, hc2, List.getElem?_set, hlen, hlt]
    · have hx' : c.1 ≠ h := fun e => hx e.symm
      rw [List.getElem?_set_ne hx', ← hused h]
      simp [hx]
  · exact Chain.frame (p := q) _ head (fun h _ => ⟨rfl, rfl⟩) hchain
  · simp [List.getElem?_set, hlen, hlt]

/-- Unlinking one cell of the chain, as `popFront`, `dequeue`, `pop` (empty `pre`)
and `removeValue` do it. -/
theorem Inv.remove {N nil : Nat} {p : NodePool} {head : Nat} {pre post : List (Nat × F64)}
    {c : Nat × F64} (hI : Inv N nil p head (pre ++ c :: post)) :
    c.1 < N ∧ p.is_free[c.1]? = some false ∧
    NodePool_getData N p c.1 = some (some c.2, 0) ∧
    NodePool_getNext N p c.1 = some (some (firstHandle nil post), 0) ∧
    (pre = [] → head = c.1 ∧ ∃ p', NodePool_deallocate N p c.1 = some (p', 0) ∧
        Inv N nil p' (firstHandle nil post) post ∧ p'.is_free[c.1]? = some true ∧
        p'.top_free = p.top_free + 1) ∧
    (pre ≠ [] → ∃ p1 p', NodePool_setNext N p (lastHandle nil pre) (firstHandle nil post)
          = some (p1, 0) ∧
        NodePool_deallocate N p1 c.1 = some (p', 0) ∧ Inv N nil p' head (pre ++ post) ∧
        p'.is_free[c.1]? = some true ∧ p'.top_free = p.top_free + 1) := by
  obtain ⟨hlt, hu⟩ := (hI.used c.1).1 (by simp)
  obtain ⟨m, hc1, hc2⟩ := (Chain.append pre (c :: post) head).1 hI.chain
  obtain ⟨hm, hdat, n, hnx, hc3⟩ := hc2
  have hn : n = firstHandle nil post := hc3.start
  subst hn
  refine ⟨hlt, hu, NodePool_getData_used hlt hu hdat, NodePool_getNext_used hlt hu hnx, ?_, ?_⟩
  · rintro rfl
    refine ⟨hc1.trans hm, ?_⟩
    exact @Inv.release N nil p _ [] post c hI.pool hI.nodup hI.used hc3
  · intro hne
    rcases List.eq_nil_or_concat pre with rfl | ⟨pre', t, rfl⟩
    · exact absurd rfl hne
    rw [List.concat_eq_append] at *
    rw [lastHandle_snoc]
    obtain ⟨htlt, htu⟩ := (hI.used t.1).1 (by simp)
    have hwf := hI.pool.wf
    have hnd := hI.nodup
    simp only [List.map_append, List.map_cons, List.map_nil, List.append_assoc,
      List.singleton_append] at hnd
    have hnd1 := List.nodup_append.1 hnd
    have hnd2 := List.nodup_cons.1 hnd1.2.1
    have htpre : t.1 ∉ pre'.map Prod.fst := fun hc => hnd1.2.2 hc (List.mem_cons_self _ _)
    have htpost : t.1 ∉ post.map Prod.fst := fun hc => hnd2.1 (List.mem_cons_of_mem _ hc)
    obtain ⟨m', hc4, hc5⟩ := (Chain.append pre' [t] head).1 hc1
    obtain ⟨hm', htdat, _, _, _⟩ := hc5
    have hpool1 : PoolInv N { p with next := p.next.set t.1 (firstHandle nil post) } :=
      hI.pool.of_same ⟨hwf.1, by simp [hwf.2.1], hwf.2.2.1, hwf.2.2.2⟩ rfl rfl rfl
    have hchain' : Chain { p with next := p.next.set t.1 (firstHandle nil post) } head
        (pre' ++ ([t] ++ post)) nil := by
      refine (Chain.append pre' _ head).2 ⟨t.1, ?_, rfl, htdat, firstHandle nil post, ?_, ?_⟩
      · refine Chain.frame (p := p) pre' head (fun h hh => ⟨rfl, ?_⟩) (hm' ▸ hc4)
        have : t.1 ≠ h := by
          rintro rfl
          exact htpre hh
        simp [List.getElem?_set_ne this]
      · simp [List.getElem?_set, hwf.2.1, htlt]
      · refine Chain.frame (p := p) post _ (fun h hh => ⟨rfl, ?_⟩) hc3
        have : t.1 ≠ h := by
          rintro rfl
          exact htpost hh
        simp [List.getElem?_set_ne this]
    have hrel : ∃ p', NodePool_deallocate N
        { p with next := p.next.set t.1 (firstHandle nil post) } c.1 = some (p', 0) ∧
        Inv N nil p' head ((pre' ++ [t]) ++ post) ∧ p'.is_free[c.1]? = some true ∧
        p'.top_free = p.top_free + 1 := by
      refine Inv.release hpool1 hI.nodup hI.used ?_
      rw [List.append_assoc]
      exact hchain'
    obtain ⟨p', h1, h2, h3, h4⟩ := hrel
    exact ⟨_, p', NodePool_setNext_used hwf htlt htu _, h1, h2, h3, h4⟩

/-! ## Stack: effect of the operations -/

/-- After `NodePool_init` the empty chain satisfies the invariant. -/
theorem Inv.init {N : Nat} (nil : Nat) {p : NodePool} (hp : p.WF N) :
    ∃ q, NodePool_init N p = some q ∧ Inv N nil q nil [] ∧ q.top_free = N := by
  obtain ⟨q, hq, hinv, htop, _, _, hfree, _⟩ := NodePool_init_spec N p hp
  refine ⟨q, hq, ⟨hinv, by simp, ?_, rfl⟩, htop⟩
  intro h
  simp only [List.map_nil, List.not_mem_nil, false_iff, not_and]
  intro hh
  rw [hfree h hh]
  simp

theorem Inv.empty_iff {N nil : Nat} {p : NodePool} {head : Nat} {cs : List (Nat × F64)}
    (hN : N ≤ nil) (hI : Inv N nil p head cs) : head = nil ↔ cs = [] := by
  rw [hI.chain.start]
  exact firstHandle_eq_nil_iff hN (fun h hh => hI.handle_lt hh)

theorem Inv.full_iff {N nil : Nat} {p : NodePool} {head : Nat} {cs : List (Nat × F64)}
    (hI : Inv N nil p head cs) : p.top_free = 0 ↔ cs.length = N := by
  have := hI.count
  omega

theorem Stack_init_spec {N : Nat} (s0 : Stack) (hwf : s0.pool.WF N) :
    ∃ s, Stack_init N s0 = some s ∧ Inv N SIZE_MAX s.pool s.top [] := by
  obtain ⟨q, hq, hinv, _⟩ := Inv.init SIZE_MAX hwf
  exact ⟨{ top := SIZE_MAX, pool := q }, by simp [Stack_init, hq], hinv⟩

theorem Stack_push_full (N : Nat) (s : Stack) (v : F64) (h : s.pool.top_free = 0) :
    Stack_push N s v = some (s, -1) := by
  simp [Stack_push, NodePool_allocate_full N s.pool h]

theorem Stack_push_spec {N : Nat} {s : Stack} {cs : List (Nat × F64)}
    (hI : Inv N SIZE_MAX s.pool s.top cs) (hlen : cs.length < N) (v : F64) :
    ∃ idx s', Stack_push N s v = some (s', 0) ∧
      Inv N SIZE_MAX s'.pool s'.top ((idx, v) :: cs) := by
  obtain ⟨idx, p1, p2, p3, ha, hd, hn, _, hinv⟩ := hI.insert_front hlen v
  exact ⟨idx, { top := idx, pool := p3 }, by simp [Stack_push, ha, hd, hn], hinv⟩

theorem Stack_pop_empty {N : Nat} {s : Stack} (hI : Inv N SIZE_MAX s.pool s.top []) :
    Stack_pop N s = some (s, none, -1) := by
  have : s.top = SIZE_MAX := hI.chain
  simp [Stack_pop, this]

theorem Stack_pop_spec {N : Nat} (hN : N ≤ SIZE_MAX) {s : Stack} {c : Nat × F64}
    {cs : List (Nat × F64)} (hI : Inv N SIZE_MAX s.pool s.top (c :: cs)) :
    ∃ s', Stack_pop N s = some (s', some c.2, 0) ∧ Inv N SIZE_MAX s'.pool s'.top cs ∧
      s'.pool.top_free = s.pool.top_free + 1 := by
  have hne : s.top ≠ SIZE_MAX := fun e => by
    have := (hI.empty_iff hN).1 e
    exact List.cons_ne_nil _ _ this
  obtain ⟨_, _, hgd, hgn, hpop, _⟩ := @Inv.remove N SIZE_MAX s.pool s.top [] cs c hI
  obtain ⟨htop, p', hde, hinv, _, hcnt⟩ := hpop rfl
  rw [← htop] at hgd hgn hde
  exact ⟨{ top := firstHandle SIZE_MAX cs, pool := p' },
    by simp [Stack_pop, hne, hgd, hgn, hde], hinv, hcnt⟩

theorem Stack_peek_empty {N : Nat} {s : Stack} (hI : Inv N SIZE_MAX s.pool s.top []) :
    Stack_peek N s = some (s, none, -1) := by
  have : s.top = SIZE_MAX := hI.chain
  simp [Stack_peek, this]

theorem Stack_peek_spec {N : Nat} (hN : N ≤ SIZE_MAX) {s : Stack} {c : Nat × F64}
    {cs : List (Nat × F64)} (hI : Inv N SIZE_MAX s.pool s.top (c :: cs)) :
    Stack_peek N s = some (s, some c.2, 0) := by
  have hne : s.top ≠ SIZE_MAX := fun e => by
    have := (hI.empty_iff hN).1 e
    exact List.cons_ne_nil _ _ this
  obtain ⟨_, _, hgd, _, hpop, _⟩ := @Inv.remove N SIZE_MAX s.pool s.top [] cs c hI
  obtain ⟨htop, _⟩ := hpop rfl
  rw [← htop] at hgd
  simp [Stack_peek, hne, hgd]

theorem Stack_pushAll_spec {N : Nat} (vs : List F64) :
    ∀ (s : Stack) (cs : List (Nat × F64)), Inv N SIZE_MAX s.pool s.top cs →
      cs.length + vs.length ≤ N →
      ∃ s' cs', Stack_pushAll N s vs = some (s', List.replicate vs.length 0) ∧
        Inv N SIZE_MAX s'.pool s'.top cs' ∧
        cs'.map Prod.snd = vs.reverse ++ cs.map Prod.snd := by
  induction vs with
  | nil => intro s cs hI _; exact ⟨s, cs, rfl, hI, by simp⟩
  | cons v vs ih =>
    intro s cs hI hlen
    simp only [List.length_cons] at hlen
    obtain ⟨idx, s1, hpush, hI1⟩ := Stack_push_spec hI (by omega) v
    obtain ⟨s2, cs2, hall, hI2, hvals⟩ := ih s1 _ hI1 (by simp only [List.length_cons]; omega)
    refine ⟨s2, cs2, ?_, hI2, ?_⟩
    · simp [Stack_pushAll, hpush, hall, List.replicate_succ]
    · rw [hvals]; simp

theorem Stack_popN_spec {N : Nat} (hN : N ≤ SIZE_MAX) (cs : List (Nat × F64)) :
    ∀ s : Stack, Inv N SIZE_MAX s.pool s.top cs →
      ∃ s', Stack_popN N s cs.length = some (s', cs.map (fun c => (some c.2, 0))) ∧
        Inv N SIZE_MAX s'.pool s'.top [] := by
  induction cs with
  | nil => intro s hI; exact ⟨s, rfl, hI⟩
  | cons c cs ih =>
    intro s hI
    obtain ⟨s1, hpop, hI1, _⟩ := Stack_pop_spec hN hI
    obtain ⟨s2, hrest, hI2⟩ := ih s1 hI1
    exact ⟨s2, by simp [Stack_popN, hpop, hrest], hI2⟩

/-- C1 (Stack LIFO law).  For a stack of capacity `N` (a `size_t`, so at most
`SIZE_MAX`) set up by `Stack_init`, pushing the `k ≤ N` values `vs` succeeds
each time (status `0`), the following `k` pops succeed and return the values in
reverse order of pushing, and one more pop reports status `-1`, stores nothing
and leaves the stack as it is. -/
theorem C1_stack_lifo (N : Nat) (hN : N ≤ SIZE_MAX) (s0 : Stack) (hwf : s0.pool.WF N)
    (vs : List F64) (hk : vs.length ≤ N) :
    ∃ s1 s2 s3, Stack_init N s0 = some s1 ∧
      Stack_pushAll N s1 vs = some (s2, List.replicate vs.length 0) ∧
      Stack_popN N s2 vs.length = some (s3, vs.reverse.map (fun v => (some v, 0))) ∧
      Stack_pop N s3 = some (s3, none, -1) := by
  obtain ⟨s1, hinit, hI1⟩ := Stack_init_spec s0 hwf
  obtain ⟨s2, cs2, hpush, hI2, hvals⟩ := Stack_pushAll_spec vs s1 [] hI1 (by simpa using hk)
  obtain ⟨s3, hpop, hI3⟩ := Stack_popN_spec hN cs2 s2 hI2
  simp only [List.map_nil, List.append_nil] at hvals
  have hlen : cs2.length = vs.length := by
    have := congrArg List.length hvals
    simpa using this
  refine ⟨s1, s2, s3, hinit, hpush, ?_, Stack_pop_empty hI3⟩
  rw [← hlen, hpop, ← hvals]
  simp [List.map_map, Function.comp_def]

/-- C1 on the run of `main` in `hp_stack.cpp`: capacity 10, push 10.5 and 20.5. -/
theorem C1_stack_lifo_witness :
    ∃ s1 s2 s3, Stack_init 10 (Stack.zero 10) = some s1 ∧
      Stack_pushAll 10 s1 [d10_5, d20_5] = some (s2, [0, 0]) ∧
      Stack_popN 10 s2 2 = some (s3, [(some d20_5, 0), (some d10_5, 0)]) ∧
      Stack_pop 10 s3 = some (s3, none, -1) :=
  C1_stack_lifo 10 (by decide) (Stack.zero 10) (by decide) [d10_5, d20_5] (by decide)

/-! ## Queue: effect of the operations -/

theorem lastHandle_cons_of_ne (nil : Nat) (c : Nat × F64) {cs : List (Nat × F64)}
    (h : cs ≠ []) : lastHandle nil (c :: cs) = lastHandle nil cs := by
  cases cs with
  | nil => exact absurd rfl h
  | cons d cs => exact lastHandle_cons_cons nil c d cs

theorem Queue_init_spec {N : Nat} (q0 : Queue) (hwf : q0.pool.WF N) :
    ∃ q, Queue_init N q0 = some q ∧ QueueInv N q [] := by
  obtain ⟨p, hp, hinv, _⟩ := Inv.init SIZE_MAX hwf
  exact ⟨{ head := SIZE_MAX, tail := SIZE_MAX, pool := p }, by simp [Queue_init, hp], hinv, rfl⟩

theorem Queue_enqueue_full (N : Nat) (q : Queue) (v : F64) (h : q.pool.top_free = 0) :
    Queue_enqueue N q v = some (q, -1) := by
  simp [Queue_enqueue, NodePool_allocate_full N q.pool h]

theorem Queue_enqueue_spec {N : Nat} (hN : N ≤ SIZE_MAX) {q : Queue} {cs : List (Nat × F64)}
    (hI : QueueInv N q cs) (hlen : cs.length < N) (v : F64) :
    ∃ idx q', Queue_enqueue N q v = some (q', 0) ∧ QueueInv N q' (cs ++ [(idx, v)]) := by
  obtain ⟨hI, htail⟩ := hI
  obtain ⟨idx, p1, p2, p3, ha, hd, hn, _, hemp, hne⟩ := hI.insert_back hlen v
  by_cases hcs : cs = []
  · subst hcs
    have hh : q.head = SIZE_MAX := hI.chain
    have ht : q.tail = SIZE_MAX := htail
    refine ⟨idx, { head := idx, tail := idx, pool := p3 }, ?_, hemp rfl, ?_⟩
    · simp [Queue_enqueue, ha, hd, hn, hh, ht]
    · simp [lastHandle]
  · obtain ⟨p4, hl, hinv⟩ := hne hcs
    have hh : q.head ≠ SIZE_MAX := fun e => hcs ((hI.empty_iff hN).1 e)
    have ht : q.tail ≠ SIZE_MAX := by
      rw [htail]
      exact fun e => hcs ((lastHandle_eq_nil_iff hN (fun h hh => hI.handle_lt hh)).1 e)
    rw [← htail] at hl
    refine ⟨idx, { head := q.head, tail := idx, pool := p4 }, ?_, hinv, ?_⟩
    · simp [Queue_enqueue, ha, hd, hn, hh, ht, hl]
    · exact (lastHandle_snoc _ cs (idx, v)).symm

theorem Queue_dequeue_empty {N : Nat} {q : Queue} (hI : QueueInv N q []) :
    Queue_dequeue N q = some (q, none, -1) := by
  have : q.head = SIZE_MAX := hI.1.chain
  simp [Queue_dequeue, this]

theorem Queue_dequeue_spec {N : Nat} (hN : N ≤ SIZE_MAX) {q : Queue} {c : Nat × F64}
    {cs : List (Nat × F64)} (hI : QueueInv N q (c :: cs)) :
    ∃ q', Queue_dequeue N q = some (q', some c.2, 0) ∧ QueueInv N q' cs ∧
      q'.pool.top_free = q.pool.top_free + 1 := by
  obtain ⟨hI, htail⟩ := hI
  have hne : q.head ≠ SIZE_MAX := fun e => List.cons_ne_nil _ _ ((hI.empty_iff hN).1 e)
  obtain ⟨_, _, hgd, hgn, hpop, _⟩ := @Inv.remove N SIZE_MAX q.pool q.head [] cs c hI
  obtain ⟨hhead, p', hde, hinv, _, hcnt⟩ := hpop rfl
  rw [← hhead] at hgd hgn hde
  have hiff : firstHandle SIZE_MAX cs = SIZE_MAX ↔ cs = [] :=
    firstHandle_eq_nil_iff hN (fun h hh => hinv.handle_lt hh)
  by_cases hcs : cs = []
  · have hf := hiff.2 hcs
    refine ⟨{ head := firstHandle SIZE_MAX cs, tail := SIZE_MAX, pool := p' }, ?_, ⟨hinv, ?_⟩, hcnt⟩
    · simp [Queue_dequeue, hne, hgd, hgn, hde, hf]
    · subst hcs; rfl
  · have hf : firstHandle SIZE_MAX cs ≠ SIZE_MAX := fun e => hcs (hiff.1 e)
    refine ⟨{ head := firstHandle SIZE_MAX cs, tail := q.tail, pool := p' }, ?_, ⟨hinv, ?_⟩, hcnt⟩
    · simp [Queue_dequeue, hne, hgd, hgn, hde, hf]
    · show q.tail = _
      rw [htail, lastHandle_cons_of_ne _ c hcs]

theorem Queue_peek_empty {N : Nat} {q : Queue} (hI : QueueInv N q []) :
    Queue_peek N q = some (q, none, -1) := by
  have : q.head = SIZE_MAX := hI.1.chain
  simp [Queue_peek, this]

theorem Queue_peek_spec {N : Nat} (hN : N ≤ SIZE_MAX) {q : Queue} {c : Nat × F64}
    {cs : List (Nat × F64)} (hI : QueueInv N q (c :: cs)) :
    Queue_peek N q = some (q, some c.2, 0) := by
  obtain ⟨hI, _⟩ := hI
  have hne : q.head ≠ SIZE_MAX := fun e => List.cons_ne_nil _ _ ((hI.empty_iff hN).1 e)
  obtain ⟨_, _, hgd, _, hpop, _⟩ := @Inv.remove N SIZE_MAX q.pool q.head [] cs c hI
  obtain ⟨hhead, _⟩ := hpop rfl
  rw [← hhead] at hgd
  simp [Queue_peek, hne, hgd]

theorem Queue_enqueueAll_spec {N : Nat} (hN : N ≤ SIZE_MAX) (vs : List F64) :
    ∀ (q : Queue) (cs : List (Nat × F64)), QueueInv N q cs →
      cs.length + vs.length ≤ N →
      ∃ q' cs', Queue_enqueueAll N q vs = some (q', List.replicate vs.length 0) ∧
        QueueInv N q' cs' ∧ cs'.map Prod.snd = cs.map Prod.snd ++ vs := by
  induction vs with
  | nil => intro q cs hI _; exact ⟨q, cs, rfl, hI, by simp⟩
  | cons v vs ih =>
    intro q cs hI hlen
    simp only [List.length_cons] at hlen
    obtain ⟨idx, q1, henq, hI1⟩ := Queue_enqueue_spec hN hI (by omega) v
    obtain ⟨q2, cs2, hall, hI2, hvals⟩ :=
      ih q1 _ hI1 (by simp only [List.length_append, List.length_cons, List.length_nil]; omega)
    refine ⟨q2, cs2, ?_, hI2, ?_⟩
    · simp [Queue_enqueueAll, henq, hall, List.replicate_succ]
    · rw [hvals]; simp

theorem Queue_dequeueN_spec {N : Nat} (hN : N ≤ SIZE_MAX) (cs : List (Nat × F64)) :
    ∀ q : Queue, QueueInv N q cs →
      ∃ q', Queue_dequeueN N q cs.length = some (q', cs.map (fun c => (some c.2, 0))) ∧
        QueueInv N q' [] := by
  induction cs with
  | nil => intro q hI; exact ⟨q, rfl, hI⟩
  | cons c cs ih =>
    intro q hI
    obtain ⟨q1, hdeq, hI1, _⟩ := Queue_dequeue_spec hN hI
    obtain ⟨q2, hrest, hI2⟩ := ih q1 hI1
    exact ⟨q2, by simp [Queue_dequeueN, hdeq, hrest], hI2⟩

/-- C2 (Queue FIFO law).  For a queue of capacity `N` (a `size_t`, so at most
`SIZE_MAX`) set up by `Queue_init`, enqueueing the `k ≤ N` values `vs` succeeds
each time (status `0`), the following `k` dequeues succeed and return the values
in the order of enqueueing, and one more dequeue reports status `-1`, stores
nothing and leaves the queue as it is. -/
theorem C2_queue_fifo (N : Nat) (hN : N ≤ SIZE_MAX) (q0 : Queue) (hwf : q0.pool.WF N)
    (vs : List F64) (hk : vs.length ≤ N) :
    ∃ q1 q2 q3, Queue_init N q0 = some q1 ∧
      Queue_enqueueAll N q1 vs = some (q2, List.replicate vs.length 0) ∧
      Queue_dequeueN N q2 vs.length = some (q3, vs.map (fun v => (some v, 0))) ∧
      Queue_dequeue N q3 = some (q3, none, -1) := by
  obtain ⟨q1, hinit, hI1⟩ := Queue_init_spec q0 hwf
  obtain ⟨q2, cs2, henq, hI2, hvals⟩ := Queue_enqueueAll_spec hN vs q1 [] hI1 (by simpa using hk)
  obtain ⟨q3, hdeq, hI3⟩ := Queue_dequeueN_spec hN cs2 q2 hI2
  simp only [List.map_nil, List.nil_append] at hvals
  have hlen : cs2.length = vs.length := by
    have := congrArg List.length hvals
    simpa using this
  refine ⟨q1, q2, q3, hinit, henq, ?_, Queue_dequeue_empty hI3⟩
  rw [← hlen, hdeq, ← hvals]
  simp [List.map_map, Function.comp_def]

/-- C2 on the run of `main` in `hp_queue.cpp`: capacity 10, enqueue 1.1, 2.2, 3.3. -/
theorem C2_queue_fifo_witness :
    ∃ q1 q2 q3, Queue_init 10 (Queue.zero 10) = some q1 ∧
      Queue_enqueueAll 10 q1 [d1_1, d2_2, d3_3] = some (q2, [0, 0, 0]) ∧
      Queue_dequeueN 10 q2 3 = some (q3, [(some d1_1, 0), (some d2_2, 0), (some d3_3, 0)]) ∧
      Queue_dequeue 10 q3 = some (q3, none, -1) :=
  C2_queue_fifo 10 (by decide) (Queue.zero 10) (by decide) [d1_1, d2_2, d3_3] (by decide)

/-! ## LinkedList: effect of the operations -/

theorem lastHandle_append_of_ne (nil : Nat) (xs : List (Nat × F64)) {ys : List (Nat × F64)}
    (h : ys ≠ []) : lastHandle nil (xs ++ ys) = lastHandle nil ys := by
  unfold lastHandle
  rw [List.map_append, List.getLast?_append_of_ne_nil _ (by simpa using h)]

theorem LinkedList_init_spec {N : Nat} (l0 : LinkedList) (hwf : l0.pool.WF N) :
    ∃ l, LinkedList_init N l0 = some (l, 0) ∧ ListInv N l [] := by
  obtain ⟨p, hp, hinv, _⟩ := Inv.init N hwf
  exact ⟨{ head := N, tail := N, pool := p },
    by simp [LinkedList_init, NodePool_init_status, hp], hinv, rfl⟩

theorem LinkedList_pushFront_full (N : Nat) (l : LinkedList) (v : F64)
    (h : l.pool.top_free = 0) : LinkedList_pushFront N l v = some (l, -1) := by
  simp [LinkedList_pushFront, NodePool_allocate_full N l.pool h]

theorem LinkedList_pushBack_full (N : Nat) (l : LinkedList) (v : F64)
    (h : l.pool.top_free = 0) : LinkedList_pushBack N l v = some (l, -1) := by
  simp [LinkedList_pushBack, NodePool_allocate_full N l.pool h]

theorem LinkedList_pushFront_spec {N : Nat} {l : LinkedList} {cs : List (Nat × F64)}
    (hI : ListInv N l cs) (hlen : cs.length < N) (v : F64) :
    ∃ idx l', LinkedList_pushFront N l v = some (l', 0) ∧ ListInv N l' ((idx, v) :: cs) := by
  obtain ⟨hI, htail⟩ := hI
  obtain ⟨idx, p1, p2, p3, ha, hd, hn, _, hinv⟩ := hI.insert_front hlen v
  refine ⟨idx, { head := idx, tail := if l.tail = N then idx else l.tail, pool := p3 },
    by simp [LinkedList_pushFront, ha, hd, hn], hinv, ?_⟩
  show (if l.tail = N then idx else l.tail) = _
  have hiff := lastHandle_eq_nil_iff (Nat.le_refl N) (fun h hh => hI.handle_lt hh)
  by_cases hcs : cs = []
  · subst hcs
    simp [htail, lastHandle]
  · have : l.tail ≠ N := by
      rw [htail]
      exact fun e => hcs (hiff.1 e)
    rw [if_neg this, htail, lastHandle_cons_of_ne _ _ hcs]

theorem LinkedList_pushBack_spec {N : Nat} {l : LinkedList} {cs : List (Nat × F64)}
    (hI : ListInv N l cs) (hlen : cs.length < N) (v : F64) :
    ∃ idx l', LinkedList_pushBack N l v = some (l', 0) ∧ ListInv N l' (cs ++ [(idx, v)]) := by
  obtain ⟨hI, htail⟩ := hI
  obtain ⟨idx, p1, p2, p3, ha, hd, hn, _, hemp, hne⟩ := hI.insert_back hlen v
  by_cases hcs : cs = []
  · subst hcs
    have hh : l.head = N := hI.chain
    refine ⟨idx, { head := idx, tail := idx, pool := p3 }, ?_, hemp rfl, ?_⟩
    · simp [LinkedList_pushBack, ha, hd, hn, hh]
    · simp [lastHandle]
  · obtain ⟨p4, hl, hinv⟩ := hne hcs
    have hh : l.head ≠ N := fun e => hcs ((hI.empty_iff (Nat.le_refl N)).1 e)
    rw [← htail] at hl
    refine ⟨idx, { head := l.head, tail := idx, pool := p4 }, ?_, hinv, ?_⟩
    · simp [LinkedList_pushBack, ha, hd, hn, hh, hl]
    · exact (lastHandle_snoc _ cs (idx, v)).symm

theorem LinkedList_popFront_empty {N : Nat} {l : LinkedList} (hI : ListInv N l []) :
    LinkedList_popFront N l = some (l, none, -1) := by
  have : l.head = N := hI.1.chain
  simp [LinkedList_popFront, this]

theorem LinkedList_popFront_spec {N : Nat} {l : LinkedList} {c : Nat × F64}
    {cs : List (Nat × F64)} (hI : ListInv N l (c :: cs)) :
    ∃ l', LinkedList_popFront N l = some (l', some c.2, 0) ∧ ListInv N l' cs ∧
      l.head = c.1 ∧ c.1 < N ∧ l'.pool.is_free[c.1]? = some true ∧
      l'.pool.top_free = l.pool.top_free + 1 := by
  obtain ⟨hI, htail⟩ := hI
  have hne : l.head ≠ N := fun e => List.cons_ne_nil _ _ ((hI.empty_iff (Nat.le_refl N)).1 e)
  obtain ⟨hlt, _, hgd, hgn, hpop, _⟩ := @Inv.remove N N l.pool l.head [] cs c hI
  obtain ⟨hhead, p', hde, hinv, hfree, hcnt⟩ := hpop rfl
  rw [← hhead] at hgd hgn hde
  have hiff : firstHandle N cs = N ↔ cs = [] :=
    firstHandle_eq_nil_iff (Nat.le_refl N) (fun h hh => hinv.handle_lt hh)
  refine ⟨{ head := firstHandle N cs, tail := if firstHandle N cs = N then N else l.tail,
            pool := p' }, by simp [LinkedList_popFront, hne, hgd, hgn, hde], ⟨hinv, ?_⟩,
    hhead, hlt, hfree, hcnt⟩
  show (if firstHandle N cs = N then N else l.tail) = _
  by_cases hcs : cs = []
  · rw [if_pos (hiff.2 hcs)]; subst hcs; rfl
  · rw [if_neg (fun e => hcs (hiff.1 e)), htail, lastHandle_cons_of_ne _ c hcs]

/-! ## The loops of LinkedList: fuel, and their effect on a chain -/

theorem LinkedList_printList_loop_mono (N : Nat) (pool : NodePool) :
    ∀ (f a : Nat) (val : Option F64) (r : List (Nat × F64)),
      LinkedList_printList_loop N pool f a val = some r →
      LinkedList_printList_loop N pool (f + 1) a val = some r := by
  intro f
  induction f with
  | zero => intro a val r h; simp [LinkedList_printList_loop] at h
  | succ f ih =>
    intro a val r h
    rw [LinkedList_printList_loop] at h ⊢
    by_cases ha : a = N
    · simpa [ha] using h
    · simp only [ha, if_false] at h ⊢
      cases hg : NodePool_getData N pool a with
      | none => simp [hg] at h
      | some gd =>
        simp only [hg] at h ⊢
        cases hv : gd.1.orElse (fun _ => val) with
        | none => simp [hv] at h
        | some v =>
          simp only [hv] at h ⊢
          cases hn : NodePool_getNext N pool a with
          | none => simp [hn] at h
          | some gn =>
            simp only [hn] at h ⊢
            cases hr : LinkedList_printList_loop N pool f (gn.1.getD a) (some v) with
            | none => simp [hr] at h
            | some rest =>
              rw [ih _ _ _ hr]
              simpa [hr] using h

theorem LinkedList_removeValue_loop_mono (N : Nat) (pool : NodePool) (value : F64) :
    ∀ (f curr prev : Nat) (r : Scan),
      LinkedList_removeValue_loop N pool value f curr prev = some r →
      LinkedList_removeValue_loop N pool value (f + 1) curr prev = some r := by
  intro f
  induction f with
  | zero => intro a b r h; simp [LinkedList_removeValue_loop] at h
  | succ f ih =>
    intro a b r h
    rw [LinkedList_removeValue_loop] at h ⊢
    by_cases ha : a = N
    · simpa [ha] using h
    · simp only [ha, if_false] at h ⊢
      cases hg : NodePool_getData N pool a with
      | none => simp [hg] at h
      | some gd =>
        simp only [hg] at h ⊢
        by_cases hst : gd.2 ≠ 0
        · simpa [hst] using h
        · simp only [hst, if_false] at h ⊢
          cases hv : gd.1 with
          | none => simp [hv] at h
          | some v =>
            simp only [hv] at h ⊢
            by_cases he : F64.eq v value = true
            · simpa [he] using h
            · simp only [he, if_false] at h ⊢
              cases hn : NodePool_getNext N pool a with
              | none => simp [hn] at h
              | some gn =>
                simp only [hn] at h ⊢
                exact ih _ _ _ h

theorem LinkedList_findValue_loop_mono (N : Nat) (pool : NodePool) (value : F64) :
    ∀ (f idx : Nat) (r : Nat × Int),
      LinkedList_findValue_loop N pool value f idx = some r →
      LinkedList_findValue_loop N pool value (f + 1) idx = some r := by
  intro f
  induction f with
  | zero => intro a r h; simp [LinkedList_findValue_loop] at h
  | succ f ih =>
    intro a r h
    rw [LinkedList_findValue_loop] at h ⊢
    by_cases ha : a = N
    · simpa [ha] using h
    · simp only [ha, if_false] at h ⊢
      cases hg : NodePool_getData N pool a with
      | none => simp [hg] at h
      | some gd =>
        simp only [hg] at h ⊢
        by_cases hst : gd.2 ≠ 0
        · simpa [hst] using h
        · simp only [hst, if_false] at h ⊢
          cases hv : gd.1 with
          | none => simp [hv] at h
          | some v =>
            simp only [hv] at h ⊢
            by_cases he : F64.eq v value = true
            · simpa [he] using h
            · simp only [he, if_false] at h ⊢
              cases hn : NodePool_getNext N pool a with
              | none => simp [hn] at h
              | some gn =>
                simp only [hn] at h ⊢
                exact ih _ _ h

theorem LinkedList_printList_loop_mono_le {N : Nat} {pool : NodePool} {f f' a : Nat}
    {val : Option F64} {r : List (Nat × F64)} (hle : f ≤ f')
    (h : LinkedList_printList_loop N pool f a val = some r) :
    LinkedList_printList_loop N pool f' a val = some r := by
  induction hle with
  | refl => exact h
  | step _ ih => exact LinkedList_printList_loop_mono N pool _ a val r ih

theorem LinkedList_removeValue_loop_mono_le {N : Nat} {pool : NodePool} {value : F64}
    {f f' curr prev : Nat} {r : Scan} (hle : f ≤ f')
    (h : LinkedList_removeValue_loop N pool value f curr prev = some r) :
    LinkedList_removeValue_loop N pool value f' curr prev = some r := by
  induction hle with
  | refl => exact h
  | step _ ih => exact LinkedList_removeValue_loop_mono N pool value _ curr prev r ih

theorem LinkedList_findValue_loop_mono_le {N : Nat} {pool : NodePool} {value : F64}
    {f f' idx : Nat} {r : Nat × Int} (hle : f ≤ f')
    (h : LinkedList_findValue_loop N pool value f idx = some r) :
    LinkedList_findValue_loop N pool value f' idx = some r := by
  induction hle with
  | refl => exact h
  | step _ ih => exact LinkedList_findValue_loop_mono N pool value _ idx r ih

/-- A result of `LinkedList_removeValue` stays the result with more fuel. -/
theorem LinkedList_removeValue_mono {N : Nat} {f f' : Nat} {l : LinkedList} {v : F64}
    {r : LinkedList × Int} (hle : f ≤ f') (h : LinkedList_removeValue N f l v = some r) :
    LinkedList_removeValue N f' l v = some r := by
  unfold LinkedList_removeValue at h ⊢
  by_cases hh : l.head = N
  · simpa [hh] using h
  · simp only [hh, if_false] at h ⊢
    cases hl : LinkedList_removeValue_loop N l.pool v f l.head N with
    | none => simp [hl] at h
    | some sc =>
      rw [LinkedList_removeValue_loop_mono_le hle hl]
      simpa [hl] using h

theorem lastHandle_of_ne (a b : Nat) {cs : List (Nat × F64)} (h : cs ≠ []) :
    lastHandle a cs = lastHandle b cs := by
  rcases List.eq_nil_or_concat cs with rfl | ⟨pre, t, rfl⟩
  · exact absurd rfl h
  · rw [List.concat_eq_append, lastHandle_snoc, lastHandle_snoc]

theorem lastHandle_cons (nil : Nat) (c : Nat × F64) (cs : List (Nat × F64)) :
    lastHandle nil (c :: cs) = lastHandle c.1 cs := by
  cases cs with
  | nil => simp [lastHandle]
  | cons d cs =>
    rw [lastHandle_cons_cons]
    exact lastHandle_of_ne _ _ (List.cons_ne_nil _ _)

theorem Valid.tail {N : Nat} {p : NodePool} {c : Nat × F64} {cs : List (Nat × F64)}
    (h : Valid N p (c :: cs)) : Valid N p cs :=
  fun x hx => h x (by simp only [List.map_cons, List.mem_cons]; exact Or.inr hx)

theorem Inv.valid {N nil : Nat} {p : NodePool} {head : Nat} {cs : List (Nat × F64)}
    (hI : Inv N nil p head cs) : Valid N p cs :=
  fun h hh => (hI.used h).1 hh

theorem LinkedList_printList_loop_spec {N : Nat} {p : NodePool} (cs : List (Nat × F64)) :
    ∀ (a : Nat) (val : Option F64) (fuel : Nat), Chain p a cs N → Valid N p cs →
      cs.length < fuel → LinkedList_printList_loop N p fuel a val = some cs := by
  induction cs with
  | nil =>
    intro a val fuel hc _ hf
    obtain ⟨f, rfl⟩ : ∃ f, fuel = f + 1 := ⟨fuel - 1, by simp at hf; omega⟩
    have : a = N := hc
    simp [LinkedList_printList_loop, this]
  | cons c cs ih =>
    intro a val fuel hc hv hf
    obtain ⟨f, rfl⟩ : ∃ f, fuel = f + 1 := ⟨fuel - 1, by omega⟩
    obtain ⟨ha, hd, n, hn, hrest⟩ := hc
    obtain ⟨hlt, hu⟩ := hv c.1 (by simp)
    have hne : c.1 ≠ N := by omega
    have hf' : cs.length < f := by simp only [List.length_cons] at hf; omega
    rw [LinkedList_printList_loop]
    simp only [hne, if_false, ha, NodePool_getData_used hlt hu hd,
      NodePool_getNext_used hlt hu hn, Option.orElse, Option.getD_some]
    simp [ih n (some c.2) f hrest hv.tail hf']

theorem LinkedList_removeValue_loop_none {N : Nat} {p : NodePool} {value : F64}
    (cs : List (Nat × F64)) :
    ∀ (curr prev fuel : Nat), Chain p curr cs N → Valid N p cs → cs.length < fuel →
      (∀ c ∈ cs, F64.eq c.2 value = false) →
      LinkedList_removeValue_loop N p value fuel curr prev
        = some (Scan.exited N (lastHandle prev cs)) := by
  induction cs with
  | nil =>
    intro a b fuel hc _ hf _
    obtain ⟨f, rfl⟩ : ∃ f, fuel = f + 1 := ⟨fuel - 1, by simp at hf; omega⟩
    have : a = N := hc
    simp [LinkedList_removeValue_loop, this, lastHandle]
  | cons c cs ih =>
    intro a b fuel hc hv hf hno
    obtain ⟨f, rfl⟩ : ∃ f, fuel = f + 1 := ⟨fuel - 1, by omega⟩
    obtain ⟨ha, hd, n, hn, hrest⟩ := hc
    obtain ⟨hlt, hu⟩ := hv c.1 (by simp)
    have hne : c.1 ≠ N := by omega
    have hf' : cs.length < f := by simp only [List.length_cons] at hf; omega
    have he : F64.eq c.2 value = false := hno c (List.mem_cons_self _ _)
    rw [LinkedList_removeValue_loop]
    simp only [ha, hne, if_false, NodePool_getData_used hlt hu hd,
      NodePool_getNext_used hlt hu hn, Option.getD_some, he, ne_eq, not_true_eq_false,
      Bool.false_eq_true]
    rw [ih n c.1 f hrest hv.tail hf' (fun x hx => hno x (List.mem_cons_of_mem _ hx)),
      lastHandle_cons]

theorem LinkedList_removeValue_loop_found {N : Nat} {p : NodePool} {value : F64}
    (pre : List (Nat × F64)) (c : Nat × F64) (post : List (Nat × F64)) :
    ∀ (curr prev fuel : Nat), Chain p curr (pre ++ c :: post) N →
      Valid N p (pre ++ c :: post) → pre.length < fuel →
      (∀ x ∈ pre, F64.eq x.2 value = false) → F64.eq c.2 value = true →
      LinkedList_removeValue_loop N p value fuel curr prev
        = some (Scan.exited c.1 (lastHandle prev pre)) := by
  induction pre with
  | nil =>
    intro a b fuel hc hv hf _ hyes
    obtain ⟨f, rfl⟩ : ∃ f, fuel = f + 1 := ⟨fuel - 1, by simp at hf; omega⟩
    obtain ⟨ha, hd, n, hn, hrest⟩ := hc
    obtain ⟨hlt, hu⟩ := hv c.1 (by simp)
    have hne : c.1 ≠ N := by omega
    rw [LinkedList_removeValue_loop]
    simp [ha, hne, NodePool_getData_used hlt hu hd, hyes, lastHandle]
  | cons x pre ih =>
    intro a b fuel hc hv hf hno hyes
    obtain ⟨f, rfl⟩ : ∃ f, fuel = f + 1 := ⟨fuel - 1, by omega⟩
    obtain ⟨ha, hd, n, hn, hrest⟩ := hc
    obtain ⟨hlt, hu⟩ := hv x.1 (by simp)
    have hne : x.1 ≠ N := by omega
    have hf' : pre.length < f := by simp only [List.length_cons] at hf; omega
    have he : F64.eq x.2 value = false := hno x (List.mem_cons_self _ _)
    rw [LinkedList_removeValue_loop]
    simp only [ha, hne, if_false, NodePool_getData_used hlt hu hd,
      NodePool_getNext_used hlt hu hn, Option.getD_some, he, ne_eq, not_true_eq_false,
      Bool.false_eq_true]
    rw [ih n x.1 f hrest (Valid.tail hv) hf' (fun y hy => hno y (List.mem_cons_of_mem _ hy)) hyes,
      lastHandle_cons]

theorem LinkedList_findValue_loop_none {N : Nat} {p : NodePool} {value : F64}
    (cs : List (Nat × F64)) :
    ∀ (idx fuel : Nat), Chain p idx cs N → Valid N p cs → cs.length < fuel →
      (∀ c ∈ cs, F64.eq c.2 value = false) →
      LinkedList_findValue_loop N p value fuel idx = some (N, -1) := by
  induction cs with
  | nil =>
    intro a fuel hc _ hf _
    obtain ⟨f, rfl⟩ : ∃ f, fuel = f + 1 := ⟨fuel - 1, by simp at hf; omega⟩
    have : a = N := hc
    simp [LinkedList_findValue_loop, this]
  | cons c cs ih =>
    intro a fuel hc hv hf hno
    obtain ⟨f, rfl⟩ : ∃ f, fuel = f + 1 := ⟨fuel - 1, by omega⟩
    obtain ⟨ha, hd, n, hn, hrest⟩ := hc
    obtain ⟨hlt, hu⟩ := hv c.1 (by simp)
    have hne : c.1 ≠ N := by omega
    have hf' : cs.length < f := by simp only [List.length_cons] at hf; omega
    have he : F64.eq c.2 value = false := hno c (List.mem_cons_self _ _)
    rw [LinkedList_findValue_loop]
    simp only [ha, hne, if_false, NodePool_getData_used hlt hu hd,
      NodePool_getNext_used hlt hu hn, Option.getD_some, he, ne_eq, not_true_eq_false,
      Bool.false_eq_true]
    exact ih n f hrest hv.tail hf' (fun x hx => hno x (List.mem_cons_of_mem _ hx))

theorem LinkedList_findValue_loop_found {N : Nat} {p : NodePool} {value : F64}
    (pre : List (Nat × F64)) (c : Nat × F64) (post : List (Nat × F64)) :
    ∀ (idx fuel : Nat), Chain p idx (pre ++ c :: post) N →
      Valid N p (pre ++ c :: post) → pre.length < fuel →
      (∀ x ∈ pre, F64.eq x.2 value = false) → F64.eq c.2 value = true →
      LinkedList_findValue_loop N p value fuel idx = some (c.1, 0) := by
  induction pre with
  | nil =>
    intro a fuel hc hv hf _ hyes
    obtain ⟨f, rfl⟩ : ∃ f, fuel = f + 1 := ⟨fuel - 1, by simp at hf; omega⟩
    obtain ⟨ha, hd, n, hn, hrest⟩ := hc
    obtain ⟨hlt, hu⟩ := hv c.1 (by simp)
    have hne : c.1 ≠ N := by omega
    rw [LinkedList_findValue_loop]
    simp [ha, hne, NodePool_getData_used hlt hu hd, hyes]
  | cons x pre ih =>
    intro a fuel hc hv hf hno hyes
    obtain ⟨f, rfl⟩ : ∃ f, fuel = f + 1 := ⟨fuel - 1, by omega⟩
    obtain ⟨ha, hd, n, hn, hrest⟩ := hc
    obtain ⟨hlt, hu⟩ := hv x.1 (by simp)
    have hne : x.1 ≠ N := by omega
    have hf' : pre.length < f := by simp only [List.length_cons] at hf; omega
    have he : F64.eq x.2 value = false := hno x (List.mem_cons_self _ _)
    rw [LinkedList_findValue_loop]
    simp only [ha, hne, if_false, NodePool_getData_used hlt hu hd,
      NodePool_getNext_used hlt hu hn, Option.getD_some, he, ne_eq, not_true_eq_false,
      Bool.false_eq_true]
    exact ih n f hrest (Valid.tail hv) hf' (fun y hy => hno y (List.mem_cons_of_mem _ hy)) hyes

theorem LinkedList_cells_spec {N : Nat} {l : LinkedList} {cs : List (Nat × F64)}
    (hI : ListInv N l cs) {fuel : Nat} (hf : cs.length < fuel) :
    LinkedList_cells N fuel l = some cs :=
  LinkedList_printList_loop_spec cs l.head none fuel hI.1.chain hI.1.valid hf

theorem LinkedList_cells_unique {N : Nat} {l : LinkedList} {cs cs' : List (Nat × F64)}
    (hI : ListInv N l cs) {fuel : Nat} (h : LinkedList_cells N fuel l = some cs') : cs' = cs := by
  have h1 : LinkedList_cells N (max fuel (cs.length + 1)) l = some cs' :=
    LinkedList_printList_loop_mono_le (Nat.le_max_left _ _) h
  have h2 := LinkedList_cells_spec hI
    (show cs.length < max fuel (cs.length + 1) from by omega)
  rw [h1] at h2
  exact Option.some.inj h2

theorem LinkedList_printList_spec {N : Nat} {l : LinkedList} {cs : List (Nat × F64)}
    (hI : ListInv N l cs) {fuel : Nat} (hf : cs.length < fuel) :
    LinkedList_printList N fuel l = some (cs.map Prod.snd) := by
  simp [LinkedList_printList, LinkedList_cells_spec hI hf]

theorem LinkedList_printList_unique {N : Nat} {l : LinkedList} {cs : List (Nat × F64)}
    (hI : ListInv N l cs) {fuel : Nat} {xs : List F64}
    (h : LinkedList_printList N fuel l = some xs) : xs = cs.map Prod.snd := by
  unfold LinkedList_printList at h
  cases hc : LinkedList_cells N fuel l with
  | none => simp [hc] at h
  | some cs' =>
    have := LinkedList_cells_unique hI hc
    subst this
    simpa [hc] using h.symm

theorem LinkedList_removeValue_none {N : Nat} {l : LinkedList} {cs : List (Nat × F64)}
    (hI : ListInv N l cs) {fuel : Nat} (hf : cs.length < fuel) {v : F64}
    (hno : ∀ c ∈ cs, F64.eq c.2 v = false) :
    LinkedList_removeValue N fuel l v = some (l, -1) := by
  unfold LinkedList_removeValue
  by_cases hh : l.head = N
  · simp [hh]
  · simp [hh, LinkedList_removeValue_loop_none cs l.head N fuel hI.1.chain hI.1.valid hf hno]

theorem LinkedList_removeValue_found {N : Nat} {l : LinkedList} {pre post : List (Nat × F64)}
    {c : Nat × F64} (hI : ListInv N l (pre ++ c :: post)) {fuel : Nat} (hf : pre.length < fuel)
    {v : F64} (hno : ∀ x ∈ pre, F64.eq x.2 v = false) (hyes : F64.eq c.2 v = true) :
    ∃ l', LinkedList_removeValue N fuel l v = some (l', 0) ∧ ListInv N l' (pre ++ post) ∧
      l'.pool.top_free = l.pool.top_free + 1 := by
  obtain ⟨hI, htail⟩ := hI
  have hh : l.head ≠ N := fun e => by
    have := (hI.empty_iff (Nat.le_refl N)).1 e
    simp at this
  have hloop := LinkedList_removeValue_loop_found pre c post l.head N fuel hI.chain hI.valid
    hf hno hyes
  obtain ⟨hlt, _, _, hgn, hfirst, hmid⟩ := hI.remove
  have hc : c.1 ≠ N := by omega
  have hvalid := hI.valid
  have hpost : firstHandle N post = N ↔ post = [] :=
    firstHandle_eq_nil_iff (Nat.le_refl N) (fun h hh => (hvalid h (by
      simp only [List.map_append, List.map_cons, List.mem_append, List.mem_cons]
      exact Or.inr (Or.inr hh))).1)
  have hpre : lastHandle N pre = N ↔ pre = [] :=
    lastHandle_eq_nil_iff (Nat.le_refl N) (fun h hh => (hvalid h (by
      simp only [List.map_append, List.map_cons, List.mem_append, List.mem_cons]
      exact Or.inl hh)).1)
  unfold LinkedList_removeValue
  simp only [hh, if_false, hloop, hc, hgn]
  by_cases hp : pre = []
  · obtain ⟨_, p', hde, hinv, _, hcnt⟩ := hfirst hp
    subst hp
    refine ⟨{ head := firstHandle N post,
              tail := if firstHandle N post = N then N else l.tail, pool := p' }, ?_, ⟨?_, ?_⟩, ?_⟩
    · by_cases hn : firstHandle N post = N <;> simp [lastHandle, hn, hde]
    · exact hinv
    · show (if firstHandle N post = N then N else l.tail) = _
      by_cases hq : post = []
      · rw [if_pos (hpost.2 hq)]; subst hq; rfl
      · rw [if_neg (fun e => hq (hpost.1 e)), htail]
        exact lastHandle_append_of_ne N [] (List.cons_ne_nil c post) ▸
          (lastHandle_cons_of_ne N c hq)
    · exact hcnt
  · obtain ⟨p1, p', hsn, hde, hinv, _, hcnt⟩ := hmid hp
    have hprev : lastHandle N pre ≠ N := fun e => hp (hpre.1 e)
    refine ⟨{ head := l.head,
              tail := if firstHandle N post = N then lastHandle N pre else l.tail,
              pool := p' }, ?_, ⟨?_, ?_⟩, ?_⟩
    · by_cases hn : firstHandle N post = N
      · have hsn' := hsn
        rw [hn] at hsn'
        simp [hprev, hsn', hn, hde]
      · simp [hprev, hsn, hn, hde]
    · exact hinv
    · show (if firstHandle N post = N then lastHandle N pre else l.tail) = _
      by_cases hq : post = []
      · rw [if_pos (hpost.2 hq)]; subst hq; simp
      · rw [if_neg (fun e => hq (hpost.1 e)), htail,
          lastHandle_append_of_ne N pre (List.cons_ne_nil c post),
          lastHandle_append_of_ne N pre hq, lastHandle_cons_of_ne N c hq]
    · exact hcnt

theorem LinkedList_findValue_none {N : Nat} {l : LinkedList} {cs : List (Nat × F64)}
    (hI : ListInv N l cs) {fuel : Nat} (hf : cs.length < fuel) {v : F64}
    (hno : ∀ c ∈ cs, F64.eq c.2 v = false) :
    LinkedList_findValue N fuel l v = some (N, -1) :=
  LinkedList_findValue_loop_none cs l.head fuel hI.1.chain hI.1.valid hf hno

theorem LinkedList_findValue_found {N : Nat} {l : LinkedList} {pre post : List (Nat × F64)}
    {c : Nat × F64} (hI : ListInv N l (pre ++ c :: post)) {fuel : Nat} (hf : pre.length < fuel)
    {v : F64} (hno : ∀ x ∈ pre, F64.eq x.2 v = false) (hyes : F64.eq c.2 v = true) :
    LinkedList_findValue N fuel l v = some (c.1, 0) :=
  LinkedList_findValue_loop_found pre c post l.head fuel hI.1.chain hI.1.valid hf hno hyes

/-! ## Reachable lists; the list claims -/

/-- Either no cell holds a value equal to `v`, or there is a first one. -/
theorem split_first (v : F64) (cs : List (Nat × F64)) :
    (∀ c ∈ cs, F64.eq c.2 v = false) ∨
    ∃ pre c post, cs = pre ++ c :: post ∧ (∀ x ∈ pre, F64.eq x.2 v = false) ∧
      F64.eq c.2 v = true := by
  induction cs with
  | nil => left; simp
  | cons c cs ih =>
    by_cases hc : F64.eq c.2 v = true
    · right; exact ⟨[], c, cs, rfl, by simp, hc⟩
    · have hc' : F64.eq c.2 v = false := by simpa using hc
      rcases ih with h | ⟨pre, d, post, h1, h2, h3⟩
      · left
        intro x hx
        rcases List.mem_cons.1 hx with rfl | hx
        · exact hc'
        · exact h x hx
      · right
        refine ⟨c :: pre, d, post, by rw [h1]; rfl, ?_, h3⟩
        intro x hx
        rcases List.mem_cons.1 hx with rfl | hx
        · exact hc'
        · exact h2 x hx

theorem ListInv.cells_le {N : Nat} {l : LinkedList} {cs : List (Nat × F64)}
    (hI : ListInv N l cs) : cs.length ≤ N := by
  have := hI.1.count
  omega

theorem ListInv.pushFront {N : Nat} {l l' : LinkedList} {cs : List (Nat × F64)} {v : F64}
    {st : Int} (hI : ListInv N l cs) (h : LinkedList_pushFront N l v = some (l', st)) :
    ∃ cs', ListInv N l' cs' := by
  by_cases hlen : cs.length < N
  · obtain ⟨idx, l'', h', hI'⟩ := LinkedList_pushFront_spec hI hlen v
    rw [h] at h'
    obtain ⟨rfl, _⟩ := Prod.mk.inj (Option.some.inj h')
    exact ⟨_, hI'⟩
  · have hfull : l.pool.top_free = 0 := hI.1.full_iff.2 (by have := hI.cells_le; omega)
    rw [LinkedList_pushFront_full N l v hfull] at h
    obtain ⟨rfl, _⟩ := Prod.mk.inj (Option.some.inj h)
    exact ⟨cs, hI⟩

theorem ListInv.pushBack {N : Nat} {l l' : LinkedList} {cs : List (Nat × F64)} {v : F64}
    {st : Int} (hI : ListInv N l cs) (h : LinkedList_pushBack N l v = some (l', st)) :
    ∃ cs', ListInv N l' cs' := by
  by_cases hlen : cs.length < N
  · obtain ⟨idx, l'', h', hI'⟩ := LinkedList_pushBack_spec hI hlen v
    rw [h] at h'
    obtain ⟨rfl, _⟩ := Prod.mk.inj (Option.some.inj h')
    exact ⟨_, hI'⟩
  · have hfull : l.pool.top_free = 0 := hI.1.full_iff.2 (by have := hI.cells_le; omega)
    rw [LinkedList_pushBack_full N l v hfull] at h
    obtain ⟨rfl, _⟩ := Prod.mk.inj (Option.some.inj h)
    exact ⟨cs, hI⟩

theorem ListInv.popFront {N : Nat} {l l' : LinkedList} {cs : List (Nat × F64)}
    {o : Option F64} {st : Int} (hI : ListInv N l cs)
    (h : LinkedList_popFront N l = some (l', o, st)) : ∃ cs', ListInv N l' cs' := by
  cases cs with
  | nil =>
    rw [LinkedList_popFront_empty hI] at h
    obtain ⟨rfl, _⟩ := Prod.mk.inj (Option.some.inj h)
    exact ⟨[], hI⟩
  | cons c cs =>
    obtain ⟨l'', h', hI', _⟩ := LinkedList_popFront_spec hI
    rw [h] at h'
    obtain ⟨rfl, _⟩ := Prod.mk.inj (Option.some.inj h')
    exact ⟨cs, hI'⟩

theorem ListInv.removeValue {N : Nat} {l l' : LinkedList} {cs : List (Nat × F64)} {v : F64}
    {fuel : Nat} {st : Int} (hI : ListInv N l cs)
    (h : LinkedList_removeValue N fuel l v = some (l', st)) : ∃ cs', ListInv N l' cs' := by
  have hbig := LinkedList_removeValue_mono (Nat.le_max_left fuel (cs.length + 1)) h
  have hf : cs.length < max fuel (cs.length + 1) := by omega
  rcases split_first v cs with hno | ⟨pre, c, post, rfl, hno, hyes⟩
  · rw [LinkedList_removeValue_none hI hf hno] at hbig
    obtain ⟨rfl, _⟩ := Prod.mk.inj (Option.some.inj hbig)
    exact ⟨cs, hI⟩
  · have hf' : pre.length < max fuel ((pre ++ c :: post).length + 1) := by
      simp only [List.length_append, List.length_cons] at hf ⊢
      omega
    obtain ⟨l'', h', hI', _⟩ := LinkedList_removeValue_found hI hf' hno hyes
    rw [hbig] at h'
    obtain ⟨rfl, _⟩ := Prod.mk.inj (Option.some.inj h')
    exact ⟨_, hI'⟩

/-- Every reachable list satisfies the invariant, for some chain of cells. -/
theorem LinkedList.Reach.listInv {N : Nat} {l : LinkedList} (h : LinkedList.Reach N l) :
    ∃ cs, ListInv N l cs := by
  induction h with
  | init hwf hinit =>
    obtain ⟨l1, h1, hI⟩ := LinkedList_init_spec _ hwf
    rw [hinit] at h1
    obtain ⟨rfl, _⟩ := Prod.mk.inj (Option.some.inj h1)
    exact ⟨[], hI⟩
  | pushFront _ hop ih => obtain ⟨cs, hI⟩ := ih; exact hI.pushFront hop
  | pushBack _ hop ih => obtain ⟨cs, hI⟩ := ih; exact hI.pushBack hop
  | popFront _ hop ih => obtain ⟨cs, hI⟩ := ih; exact hI.popFront hop
  | removeValue _ hop ih => obtain ⟨cs, hI⟩ := ih; exact hI.removeValue hop

/-- A reachable list with traversal `xs` satisfies the invariant for cells whose
values are `xs`. -/
theorem LinkedList.Reach.inv_of_traversal {N : Nat} {l : LinkedList} {xs : List F64}
    (h : LinkedList.Reach N l) (ht : Traversal N l xs) :
    ∃ cs, ListInv N l cs ∧ cs.map Prod.snd = xs := by
  obtain ⟨cs, hI⟩ := h.listInv
  obtain ⟨fuel, hp⟩ := ht
  exact ⟨cs, hI, (LinkedList_printList_unique hI hp).symm⟩

theorem main_list_init_reach : LinkedList.Reach 10 main_list_init :=
  @LinkedList.Reach.init 10 main_list_raw main_list_init 0 (by decide) (by decide)

theorem main_list_1_reach : LinkedList.Reach 10 main_list_1 :=
  @LinkedList.Reach.pushBack 10 main_list_init main_list_1 d1_1 0 main_list_init_reach
    (by decide)

theorem main_list_2_reach : LinkedList.Reach 10 main_list_2 :=
  @LinkedList.Reach.pushFront 10 main_list_1 main_list_2 d0_5 0 main_list_1_reach (by decide)

theorem main_list_3_reach : LinkedList.Reach 10 main_list_3 :=
  @LinkedList.Reach.pushBack 10 main_list_2 main_list_3 d2_2 0 main_list_2_reach (by decide)

theorem main_list_4_reach : LinkedList.Reach 10 main_list_4 :=
  @LinkedList.Reach.popFront 10 main_list_3 main_list_4 (some d0_5) 0 main_list_3_reach
    (by decide)

theorem main_list_5_reach : LinkedList.Reach 10 main_list_5 :=
  @LinkedList.Reach.removeValue 10 11 main_list_4 main_list_5 d1_1 0 main_list_4_reach
    (by decide)

/-- C3 (List order law).  On a reachable list whose traversal is `xs`, with
fewer than `N` elements, `LinkedList_pushFront(v)` reports status `0` and the
traversal becomes `v :: xs`; likewise `LinkedList_pushBack(v)` reports status
`0` and the traversal becomes `xs ++ [v]`. -/
theorem C3_list_order (N : Nat) (l : LinkedList) (xs : List F64) (v : F64)
    (hr : LinkedList.Reach N l) (ht : Traversal N l xs) (hlen : xs.length < N) :
    (∃ l', LinkedList_pushFront N l v = some (l', 0) ∧
      ∀ fuel, xs.length + 1 < fuel → LinkedList_printList N fuel l' = some (v :: xs)) ∧
    (∃ l', LinkedList_pushBack N l v = some (l', 0) ∧
      ∀ fuel, xs.length + 1 < fuel → LinkedList_printList N fuel l' = some (xs ++ [v])) := by
  obtain ⟨cs, hI, rfl⟩ := hr.inv_of_traversal ht
  rw [List.length_map] at hlen
  constructor
  · obtain ⟨idx, l', hp, hI'⟩ := LinkedList_pushFront_spec hI hlen v
    refine ⟨l', hp, fun fuel hf => ?_⟩
    rw [LinkedList_printList_spec hI' (by simpa using hf)]
    rfl
  · obtain ⟨idx, l', hp, hI'⟩ := LinkedList_pushBack_spec hI hlen v
    refine ⟨l', hp, fun fuel hf => ?_⟩
    rw [LinkedList_printList_spec hI' (by simpa using hf)]
    simp

/-- C3 on the list of `main` holding 1.1: `pushFront(0.5)` gives 0.5, 1.1 and
`pushBack(0.5)` gives 1.1, 0.5. -/
theorem C3_list_order_witness :
    (∃ l', LinkedList_pushFront 10 main_list_1 d0_5 = some (l', 0) ∧
      ∀ fuel, [d1_1].length + 1 < fuel →
        LinkedList_printList 10 fuel l' = some (d0_5 :: [d1_1])) ∧
    (∃ l', LinkedList_pushBack 10 main_list_1 d0_5 = some (l', 0) ∧
      ∀ fuel, [d1_1].length + 1 < fuel →
        LinkedList_printList 10 fuel l' = some ([d1_1] ++ [d0_5])) :=
  C3_list_order 10 main_list_1 [d1_1] d0_5 main_list_1_reach ⟨2, by decide⟩ (by decide)

/-- The order law on a fresh list: `pushFront(a)`, `pushBack(b)`, `pushFront(c)`
prints `c, a, b`. -/
theorem list_order_front_back_front (N : Nat) (hN : 3 ≤ N) (l0 : LinkedList)
    (hwf : l0.pool.WF N) (a b c : F64) :
    ∃ l1 l2 l3 l4, LinkedList_init N l0 = some (l1, 0) ∧
      LinkedList_pushFront N l1 a = some (l2, 0) ∧
      LinkedList_pushBack N l2 b = some (l3, 0) ∧
      LinkedList_pushFront N l3 c = some (l4, 0) ∧
      ∀ fuel, 3 < fuel → LinkedList_printList N fuel l4 = some [c, a, b] := by
  obtain ⟨l1, h1, hI1⟩ := LinkedList_init_spec l0 hwf
  obtain ⟨i2, l2, h2, hI2⟩ := LinkedList_pushFront_spec hI1 (by simp; omega) a
  obtain ⟨i3, l3, h3, hI3⟩ := LinkedList_pushBack_spec hI2 (by simp; omega) b
  obtain ⟨i4, l4, h4, hI4⟩ := LinkedList_pushFront_spec hI3 (by simp; omega) c
  refine ⟨l1, l2, l3, l4, h1, h2, h3, h4, fun fuel hf => ?_⟩
  rw [LinkedList_printList_spec hI4 (by simpa using hf)]
  rfl

/-- The run of `main`: `pushBack(1.1)`, `pushFront(0.5)`, `pushBack(2.2)` prints
0.5, 1.1, 2.2. -/
theorem list_order_main :
    LinkedList_init 10 main_list_raw = some (main_list_init, 0) ∧
    LinkedList_pushBack 10 main_list_init d1_1 = some (main_list_1, 0) ∧
    LinkedList_pushFront 10 main_list_1 d0_5 = some (main_list_2, 0) ∧
    LinkedList_pushBack 10 main_list_2 d2_2 = some (main_list_3, 0) ∧
    LinkedList_printList 10 11 main_list_3 = some [d0_5, d1_1, d2_2] := by
  decide

/-- C4 (Removal correctness).  On a reachable list with traversal `xs`,
`LinkedList_removeValue(v)` (its loop given more fuel than there are elements)
reports status `0` exactly when some element of `xs` is `==` to `v`; the
traversal is then `xs` without the first such element, all others staying in
order; otherwise the status is `-1` and the list is untouched. -/
theorem C4_removeValue (N : Nat) (l : LinkedList) (xs : List F64) (v : F64) (fuel : Nat)
    (hr : LinkedList.Reach N l) (ht : Traversal N l xs) (hf : xs.length < fuel) :
    ∃ l' st, LinkedList_removeValue N fuel l v = some (l', st) ∧
      (st = 0 ↔ ∃ x ∈ xs, F64.eq x v = true) ∧
      (st = 0 → ∀ f, xs.length ≤ f →
        LinkedList_printList N f l' = some (xs.eraseP (fun x => F64.eq x v))) ∧
      (st ≠ 0 → st = -1 ∧ l' = l) := by
  obtain ⟨cs, hI, rfl⟩ := hr.inv_of_traversal ht
  rw [List.length_map] at hf
  rcases split_first v cs with hno | ⟨pre, c, post, rfl, hno, hyes⟩
  · refine ⟨l, -1, LinkedList_removeValue_none hI hf hno, ?_, ?_, ?_⟩
    · constructor
      · intro h; exact absurd h (by decide)
      · rintro ⟨x, hx, hxv⟩
        obtain ⟨c, hc, rfl⟩ := List.mem_map.1 hx
        rw [hno c hc] at hxv
        exact Bool.noConfusion hxv
    · intro h; exact absurd h (by decide)
    · intro _; exact ⟨rfl, rfl⟩
  · have hf' : pre.length < fuel := by
      simp only [List.length_append, List.length_cons] at hf
      omega
    obtain ⟨l', hrem, hI', _⟩ := LinkedList_removeValue_found hI hf' hno hyes
    have herase : ((pre ++ c :: post).map Prod.snd).eraseP (fun x => F64.eq x v)
        = (pre ++ post).map Prod.snd := by
      rw [List.map_append, List.map_cons, List.eraseP_append_right, List.eraseP_cons_of_pos,
        List.map_append]
      · exact hyes
      · intro b hb
        obtain ⟨x, hx, rfl⟩ := List.mem_map.1 hb
        rw [hno x hx]
        exact Bool.false_ne_true
    refine ⟨l', 0, hrem, ?_, ?_, ?_⟩
    · constructor
      · intro _
        exact ⟨c.2, List.mem_map.2 ⟨c, by simp, rfl⟩, hyes⟩
      · intro _; rfl
    · intro _ f hlen
      rw [herase]
      refine LinkedList_printList_spec hI' ?_
      simp only [List.length_map, List.length_append, List.length_cons] at hlen ⊢
      omega
    · intro h; exact absurd rfl h

/-- C4 on the list of `main` holding 1.1, 2.2: `removeValue(1.1)` leaves 2.2. -/
theorem C4_removeValue_witness :
    ∃ l' st, LinkedList_removeValue 10 11 main_list_4 d1_1 = some (l', st) ∧
      (st = 0 ↔ ∃ x ∈ [d1_1, d2_2], F64.eq x d1_1 = true) ∧
      (st = 0 → ∀ f, [d1_1, d2_2].length ≤ f →
        LinkedList_printList 10 f l' = some ([d1_1, d2_2].eraseP (fun x => F64.eq x d1_1))) ∧
      (st ≠ 0 → st = -1 ∧ l' = main_list_4) :=
  C4_removeValue 10 main_list_4 [d1_1, d2_2] d1_1 11 main_list_4_reach ⟨3, by decide⟩
    (by decide)

/-- C5 (popFront contract).  On a reachable list with traversal `xs`:
if `xs` is empty, `LinkedList_popFront` reports status `-1`, stores nothing and
leaves the list as it is; if `xs = x :: rest` it reports status `0`, stores `x`,
the traversal becomes `rest`, and the slot of the old head is free afterwards
(flagged free, and listed among the free slots of the pool). -/
theorem C5_popFront (N : Nat) (l : LinkedList) (xs : List F64)
    (hr : LinkedList.Reach N l) (ht : Traversal N l xs) :
    (xs = [] → LinkedList_popFront N l = some (l, none, -1)) ∧
    (∀ x rest, xs = x :: rest →
      ∃ l', LinkedList_popFront N l = some (l', some x, 0) ∧
        (∀ fuel, rest.length < fuel → LinkedList_printList N fuel l' = some rest) ∧
        l.head < N ∧ l'.pool.is_free[l.head]? = some true ∧
        l.head ∈ l'.pool.free_stack.take l'.pool.top_free) := by
  obtain ⟨cs, hI, rfl⟩ := hr.inv_of_traversal ht
  constructor
  · intro h
    have : cs = [] := by simpa using h
    subst this
    exact LinkedList_popFront_empty hI
  · intro x rest h
    cases cs with
    | nil => simp at h
    | cons c cs =>
      simp only [List.map_cons, List.cons.injEq] at h
      obtain ⟨rfl, rfl⟩ := h
      obtain ⟨l', hp, hI', hhead, hlt, hfree, _⟩ := LinkedList_popFront_spec hI
      refine ⟨l', hp, fun fuel hf => ?_, hhead ▸ hlt, hhead ▸ hfree, ?_⟩
      · exact LinkedList_printList_spec hI' (by simpa using hf)
      · rw [hhead]
        exact (hI'.1.pool.mem_iff c.1).2 ⟨hlt, hfree⟩

/-- C5 on the list of `main` holding 0.5, 1.1, 2.2: `popFront` returns 0.5 and
leaves 1.1, 2.2. -/
theorem C5_popFront_witness :
    ([d0_5, d1_1, d2_2] = [] → LinkedList_popFront 10 main_list_3 = some (main_list_3, none, -1)) ∧
    (∀ x rest, [d0_5, d1_1, d2_2] = x :: rest →
      ∃ l', LinkedList_popFront 10 main_list_3 = some (l', some x, 0) ∧
        (∀ fuel, rest.length < fuel → LinkedList_printList 10 fuel l' = some rest) ∧
        main_list_3.head < 10 ∧ l'.pool.is_free[main_list_3.head]? = some true ∧
        main_list_3.head ∈ l'.pool.free_stack.take l'.pool.top_free) :=
  C5_popFront 10 main_list_3 [d0_5, d1_1, d2_2] main_list_3_reach ⟨4, by decide⟩

/-- The `popFront` of `main`. -/
theorem popFront_main :
    LinkedList_popFront 10 main_list_3 = some (main_list_4, some d0_5, 0) ∧
    LinkedList_printList 10 11 main_list_4 = some [d1_1, d2_2] := by
  decide

/-- C6 (findValue contract).  On a reachable list whose chain of cells (slot
handle and value, head first) is `cs`, `LinkedList_findValue(v)` (its loop given
more fuel than there are cells) reports a nonzero status exactly when no value
in the chain is `==` to `v`; with status `0` the handle it stores is below `N`,
is the handle of the first cell whose value is `==` to `v`, and
`NodePool_getData` on it reads a value `==` to `v`.  The list is a `const`
reference, so the call has no list to change. -/
theorem C6_findValue (N : Nat) (l : LinkedList) (cs : List (Nat × F64)) (v : F64)
    (fuel fuel0 : Nat) (hr : LinkedList.Reach N l)
    (hc : LinkedList_cells N fuel0 l = some cs) (hf : cs.length < fuel) :
    ∃ idx st, LinkedList_findValue N fuel l v = some (idx, st) ∧
      (st ≠ 0 ↔ ∀ x ∈ cs.map Prod.snd, F64.eq x v = false) ∧
      (st ≠ 0 → st = -1) ∧
      (st = 0 → idx < N ∧
        (cs.map Prod.fst)[(cs.map Prod.snd).findIdx (fun x => F64.eq x v)]? = some idx ∧
        ∃ x, NodePool_getData N l.pool idx = some (some x, 0) ∧ F64.eq x v = true) := by
  obtain ⟨cs', hI⟩ := hr.listInv
  have := LinkedList_cells_unique hI hc
  subst this
  rcases split_first v cs with hno | ⟨pre, c, post, rfl, hno, hyes⟩
  · refine ⟨N, -1, LinkedList_findValue_none hI hf hno, ?_, fun _ => rfl, ?_⟩
    · constructor
      · intro _ x hx
        obtain ⟨c, hc, rfl⟩ := List.mem_map.1 hx
        exact hno c hc
      · intro _; decide
    · intro h; exact absurd h (by decide)
  · have hf' : pre.length < fuel := by
      simp only [List.length_append, List.length_cons] at hf
      omega
    obtain ⟨hlt, _, hgd, _⟩ := hI.1.remove
    refine ⟨c.1, 0, LinkedList_findValue_found hI hf' hno hyes, ?_, ?_, ?_⟩
    · constructor
      · intro h; exact absurd rfl h
      · intro h
        have := h c.2 (List.mem_map.2 ⟨c, by simp, rfl⟩)
        rw [hyes] at this
        exact Bool.noConfusion this
    · intro h; exact absurd rfl h
    · intro _
      refine ⟨hlt, ?_, c.2, hgd, hyes⟩
      have hidx : (List.map Prod.snd (pre ++ c :: post)).findIdx (fun x => F64.eq x v)
          = pre.length := by
        rw [List.map_append, List.map_cons, List.findIdx_append]
        have hpre : (List.map Prod.snd pre).findIdx (fun x => F64.eq x v)
            = (List.map Prod.snd pre).length := by
          apply List.findIdx_eq_length_of_false
          intro x hx
          obtain ⟨y, hy, rfl⟩ := List.mem_map.1 hx
          exact hno y hy
        rw [hpre]
        simp [List.findIdx_cons, hyes]
      rw [hidx, List.map_append, List.map_cons, List.getElem?_append_right (by simp)]
      simp

/-- C6 on the list of `main` holding 2.2: `findValue(2.2)` succeeds. -/
theorem C6_findValue_witness :
    ∃ idx st, LinkedList_findValue 10 11 main_list_5 d2_2 = some (idx, st) ∧
      (st ≠ 0 ↔ ∀ x ∈ [((2 : Nat), d2_2)].map Prod.snd, F64.eq x d2_2 = false) ∧
      (st ≠ 0 → st = -1) ∧
      (st = 0 → idx < 10 ∧
        ([((2 : Nat), d2_2)].map Prod.fst)[([((2 : Nat), d2_2)].map Prod.snd).findIdx
          (fun x => F64.eq x d2_2)]? = some idx ∧
        ∃ x, NodePool_getData 10 main_list_5.pool idx = some (some x, 0) ∧
          F64.eq x d2_2 = true) :=
  C6_findValue 10 main_list_5 [(2, d2_2)] d2_2 11 11 main_list_5_reach (by decide) (by decide)

/-- The `removeValue` and `findValue` of `main`. -/
theorem removeValue_findValue_main :
    LinkedList_removeValue 10 11 main_list_4 d1_1 = some (main_list_5, 0) ∧
    LinkedList_printList 10 11 main_list_5 = some [d2_2] ∧
    LinkedList_findValue 10 11 main_list_5 d2_2 = some (2, 0) := by
  decide

/-! ## Reachable queues and stacks; peek, full structures, capacity, emptiness -/

theorem QueueInv.size_le {N : Nat} {q : Queue} {cs : List (Nat × F64)}
    (hI : QueueInv N q cs) : cs.length ≤ N := by
  have := hI.1.count
  omega

theorem Inv.length_le {N nil : Nat} {p : NodePool} {head : Nat} {cs : List (Nat × F64)}
    (hI : Inv N nil p head cs) : cs.length ≤ N := by
  have := hI.count
  omega

/-- Every reachable queue satisfies the invariant, for a chain with as many
cells as the queue holds elements. -/
theorem Queue.Reach.queueInv {N : Nat} (hN : N ≤ SIZE_MAX) {q : Queue} {n : Nat}
    (h : Queue.Reach N q n) : ∃ cs, QueueInv N q cs ∧ cs.length = n := by
  induction h with
  | init hwf hinit =>
    obtain ⟨q1, h1, hI⟩ := Queue_init_spec _ hwf
    rw [hinit] at h1
    obtain rfl := Option.some.inj h1
    exact ⟨[], hI, rfl⟩
  | @enqueue q q' n v st _ hop ih =>
    obtain ⟨cs, hI, hn⟩ := ih
    by_cases hlen : cs.length < N
    · obtain ⟨idx, q'', h', hI'⟩ := Queue_enqueue_spec hN hI hlen v
      rw [hop] at h'
      obtain ⟨rfl, rfl⟩ := Prod.mk.inj (Option.some.inj h')
      exact ⟨_, hI', by simp [hn]⟩
    · have hfull : q.pool.top_free = 0 := hI.1.full_iff.2 (by have := hI.size_le; omega)
      rw [Queue_enqueue_full N q v hfull] at hop
      obtain ⟨rfl, rfl⟩ := Prod.mk.inj (Option.some.inj hop)
      exact ⟨cs, hI, by simp [hn]⟩
  | @dequeue q q' n o st _ hop ih =>
    obtain ⟨cs, hI, hn⟩ := ih
    cases cs with
    | nil =>
      rw [Queue_dequeue_empty hI] at hop
      obtain ⟨rfl, h2⟩ := Prod.mk.inj (Option.some.inj hop)
      obtain ⟨_, rfl⟩ := Prod.mk.inj h2
      exact ⟨[], hI, by simpa using hn⟩
    | cons c cs =>
      obtain ⟨q'', h', hI', _⟩ := Queue_dequeue_spec hN hI
      rw [hop] at h'
      obtain ⟨rfl, h2⟩ := Prod.mk.inj (Option.some.inj h')
      obtain ⟨_, rfl⟩ := Prod.mk.inj h2
      exact ⟨cs, hI', by simp at hn ⊢; omega⟩
  | @peek q q' n o st _ hop ih =>
    obtain ⟨cs, hI, hn⟩ := ih
    cases cs with
    | nil =>
      rw [Queue_peek_empty hI] at hop
      obtain ⟨rfl, _⟩ := Prod.mk.inj (Option.some.inj hop)
      exact ⟨[], hI, hn⟩
    | cons c cs =>
      rw [Queue_peek_spec hN hI] at hop
      obtain ⟨rfl, _⟩ := Prod.mk.inj (Option.some.inj hop)
      exact ⟨_, hI, hn⟩

/-- Every reachable stack satisfies the invariant, for a chain with as many
cells as the stack holds elements. -/
theorem Stack.Reach.stackInv {N : Nat} (hN : N ≤ SIZE_MAX) {s : Stack} {n : Nat}
    (h : Stack.Reach N s n) : ∃ cs, Inv N SIZE_MAX s.pool s.top cs ∧ cs.length = n := by
  induction h with
  | init hwf hinit =>
    obtain ⟨s1, h1, hI⟩ := Stack_init_spec _ hwf
    rw [hinit] at h1
    obtain rfl := Option.some.inj h1
    exact ⟨[], hI, rfl⟩
  | @push s s' n v st _ hop ih =>
    obtain ⟨cs, hI, hn⟩ := ih
    by_cases hlen : cs.length < N
    · obtain ⟨idx, s'', h', hI'⟩ := Stack_push_spec hI hlen v
      rw [hop] at h'
      obtain ⟨rfl, rfl⟩ := Prod.mk.inj (Option.some.inj h')
      exact ⟨_, hI', by simp [hn]⟩
    · have hfull : s.pool.top_free = 0 := hI.full_iff.2 (by have := hI.length_le; omega)
      rw [Stack_push_full N s v hfull] at hop
      obtain ⟨rfl, rfl⟩ := Prod.mk.inj (Option.some.inj hop)
      exact ⟨cs, hI, by simp [hn]⟩
  | @pop s s' n o st _ hop ih =>
    obtain ⟨cs, hI, hn⟩ := ih
    cases cs with
    | nil =>
      rw [Stack_pop_empty hI] at hop
      obtain ⟨rfl, h2⟩ := Prod.mk.inj (Option.some.inj hop)
      obtain ⟨_, rfl⟩ := Prod.mk.inj h2
      exact ⟨[], hI, by simpa using hn⟩
    | cons c cs =>
      obtain ⟨s'', h', hI', _⟩ := Stack_pop_spec hN hI
      rw [hop] at h'
      obtain ⟨rfl, h2⟩ := Prod.mk.inj (Option.some.inj h')
      obtain ⟨_, rfl⟩ := Prod.mk.inj h2
      exact ⟨cs, hI', by simp at hn ⊢; omega⟩
  | @peek s s' n o st _ hop ih =>
    obtain ⟨cs, hI, hn⟩ := ih
    cases cs with
    | nil =>
      rw [Stack_peek_empty hI] at hop
      obtain ⟨rfl, _⟩ := Prod.mk.inj (Option.some.inj hop)
      exact ⟨[], hI, hn⟩
    | cons c cs =>
      rw [Stack_peek_spec hN hI] at hop
      obtain ⟨rfl, _⟩ := Prod.mk.inj (Option.some.inj hop)
      exact ⟨_, hI, hn⟩

theorem main_queue_init_reach : Queue.Reach 10 main_queue_init 0 :=
  @Queue.Reach.init 10 (Queue.zero 10) main_queue_init (by decide) (by decide)

theorem main_queue_1_reach : Queue.Reach 10 main_queue_1 1 :=
  @Queue.Reach.enqueue 10 main_queue_init main_queue_1 0 d1_1 0 main_queue_init_reach
    (by decide)

theorem main_queue_2_reach : Queue.Reach 10 main_queue_2 2 :=
  @Queue.Reach.enqueue 10 main_queue_1 main_queue_2 1 d2_2 0 main_queue_1_reach (by decide)

theorem main_queue_3_reach : Queue.Reach 10 main_queue_3 3 :=
  @Queue.Reach.enqueue 10 main_queue_2 main_queue_3 2 d3_3 0 main_queue_2_reach (by decide)

theorem main_stack_init_reach : Stack.Reach 10 main_stack_init 0 :=
  @Stack.Reach.init 10 (Stack.zero 10) main_stack_init (by decide) (by decide)

theorem main_stack_1_reach : Stack.Reach 10 main_stack_1 1 :=
  @Stack.Reach.push 10 main_stack_init main_stack_1 0 d10_5 0 main_stack_init_reach (by decide)

theorem main_stack_2_reach : Stack.Reach 10 main_stack_2 2 :=
  @Stack.Reach.push 10 main_stack_1 main_stack_2 1 d20_5 0 main_stack_1_reach (by decide)

/-- C7 (peek contract).  For a reachable queue holding `n` elements and a
reachable stack holding `m` elements (capacity `N`, a `size_t`): `Queue_peek`
(resp. `Stack_peek`) returns the structure exactly as it was; its status is
nonzero exactly when the structure holds no element, and then it is `-1` and
nothing is stored; with status `0` it stores the very value that
`Queue_dequeue` (resp. `Stack_pop`), called on the same structure, stores with
status `0`. -/
theorem C7_peek (N : Nat) (hN : N ≤ SIZE_MAX) (q : Queue) (n : Nat) (s : Stack) (m : Nat)
    (hq : Queue.Reach N q n) (hs : Stack.Reach N s m) :
    (∃ o st, Queue_peek N q = some (q, o, st) ∧ (st ≠ 0 ↔ n = 0) ∧
      (st ≠ 0 → st = -1 ∧ o = none) ∧
      (st = 0 → ∃ v q', o = some v ∧ Queue_dequeue N q = some (q', some v, 0))) ∧
    (∃ o st, Stack_peek N s = some (s, o, st) ∧ (st ≠ 0 ↔ m = 0) ∧
      (st ≠ 0 → st = -1 ∧ o = none) ∧
      (st = 0 → ∃ v s', o = some v ∧ Stack_pop N s = some (s', some v, 0))) := by
  constructor
  · obtain ⟨cs, hI, hn⟩ := hq.queueInv hN
    cases cs with
    | nil =>
      refine ⟨none, -1, Queue_peek_empty hI, ?_, fun _ => ⟨rfl, rfl⟩, fun h => absurd h (by decide)⟩
      simp only [List.length_nil] at hn
      simp [hn.symm]
    | cons c cs =>
      obtain ⟨q', hd, _⟩ := Queue_dequeue_spec hN hI
      refine ⟨some c.2, 0, Queue_peek_spec hN hI, ?_, fun h => absurd rfl h,
        fun _ => ⟨c.2, q', rfl, hd⟩⟩
      simp only [List.length_cons] at hn
      simp only [ne_eq, not_true_eq_false, false_iff]
      omega
  · obtain ⟨cs, hI, hn⟩ := hs.stackInv hN
    cases cs with
    | nil =>
      refine ⟨none, -1, Stack_peek_empty hI, ?_, fun _ => ⟨rfl, rfl⟩, fun h => absurd h (by decide)⟩
      simp only [List.length_nil] at hn
      simp [hn.symm]
    | cons c cs =>
      obtain ⟨s', hd, _⟩ := Stack_pop_spec hN hI
      refine ⟨some c.2, 0, Stack_peek_spec hN hI, ?_, fun h => absurd rfl h,
        fun _ => ⟨c.2, s', rfl, hd⟩⟩
      simp only [List.length_cons] at hn
      simp only [ne_eq, not_true_eq_false, false_iff]
      omega

/-- C7 on the runs of `main`: the queue after enqueueing 1.1, 2.2, 3.3 and the
stack after pushing 10.5, 20.5. -/
theorem C7_peek_witness :
    (∃ o st, Queue_peek 10 main_queue_3 = some (main_queue_3, o, st) ∧ (st ≠ 0 ↔ 3 = 0) ∧
      (st ≠ 0 → st = -1 ∧ o = none) ∧
      (st = 0 → ∃ v q', o = some v ∧ Queue_dequeue 10 main_queue_3 = some (q', some v, 0))) ∧
    (∃ o st, Stack_peek 10 main_stack_2 = some (main_stack_2, o, st) ∧ (st ≠ 0 ↔ 2 = 0) ∧
      (st ≠ 0 → st = -1 ∧ o = none) ∧
      (st = 0 → ∃ v s', o = some v ∧ Stack_pop 10 main_stack_2 = some (s', some v, 0))) :=
  C7_peek 10 (by decide) main_queue_3 3 main_stack_2 2 main_queue_3_reach main_stack_2_reach

/-- The peeks of `main`: 1.1 at the front of the queue, 20.5 on top of the stack. -/
theorem peek_main :
    Queue_peek 10 main_queue_3 = some (main_queue_3, some d1_1, 0) ∧
    Stack_peek 10 main_stack_2 = some (main_stack_2, some d20_5, 0) := by
  decide

theorem full_list_2_reach : LinkedList.Reach 2 full_list_2 :=
  @LinkedList.Reach.pushBack 2 full_list_1 full_list_2 d2_2 0
    (@LinkedList.Reach.pushBack 2 full_list_0 full_list_1 d1_1 0
      (@LinkedList.Reach.init 2 full_list_raw full_list_0 0 (by decide) (by decide))
      (by decide))
    (by decide)

theorem full_queue_2_reach : Queue.Reach 2 full_queue_2 2 :=
  @Queue.Reach.enqueue 2 full_queue_1 full_queue_2 1 d2_2 0
    (@Queue.Reach.enqueue 2 full_queue_0 full_queue_1 0 d1_1 0
      (@Queue.Reach.init 2 (Queue.zero 2) full_queue_0 (by decide) (by decide))
      (by decide))
    (by decide)

theorem full_stack_2_reach : Stack.Reach 2 full_stack_2 2 :=
  @Stack.Reach.push 2 full_stack_1 full_stack_2 1 d20_5 0
    (@Stack.Reach.push 2 full_stack_0 full_stack_1 0 d10_5 0
      (@Stack.Reach.init 2 (Stack.zero 2) full_stack_0 (by decide) (by decide))
      (by decide))
    (by decide)

/-- C8 (atomic on CapacityExceeded).  A reachable list whose traversal has `N`
elements, and a reachable queue and a reachable stack holding `N` elements
(capacity `N`, a `size_t`), have `top_free = 0`; `LinkedList_pushFront`,
`LinkedList_pushBack`, `Queue_enqueue` and `Stack_push` then report status `-1`
and return the structure (head, tail or top, and the whole pool) exactly as it
was. -/
theorem C8_full_insert_atomic (N : Nat) (hN : N ≤ SIZE_MAX) (l : LinkedList) (xs : List F64)
    (q : Queue) (s : Stack) (v : F64)
    (hl : LinkedList.Reach N l) (ht : Traversal N l xs) (hxs : xs.length = N)
    (hq : Queue.Reach N q N) (hs : Stack.Reach N s N) :
    (l.pool.top_free = 0 ∧ LinkedList_pushFront N l v = some (l, -1) ∧
      LinkedList_pushBack N l v = some (l, -1)) ∧
    (q.pool.top_free = 0 ∧ Queue_enqueue N q v = some (q, -1)) ∧
    (s.pool.top_free = 0 ∧ Stack_push N s v = some (s, -1)) := by
  obtain ⟨cs, hI, rfl⟩ := hl.inv_of_traversal ht
  rw [List.length_map] at hxs
  have h1 : l.pool.top_free = 0 := hI.1.full_iff.2 hxs
  obtain ⟨cq, hIq, hnq⟩ := hq.queueInv hN
  have h2 : q.pool.top_free = 0 := hIq.1.full_iff.2 hnq
  obtain ⟨cst, hIs, hns⟩ := hs.stackInv hN
  have h3 : s.pool.top_free = 0 := hIs.full_iff.2 hns
  exact ⟨⟨h1, LinkedList_pushFront_full N l v h1, LinkedList_pushBack_full N l v h1⟩,
    ⟨h2, Queue_enqueue_full N q v h2⟩, ⟨h3, Stack_push_full N s v h3⟩⟩

/-- C8 on the full structures of capacity 2. -/
theorem C8_full_insert_atomic_witness :
    (full_list_2.pool.top_free = 0 ∧
      LinkedList_pushFront 2 full_list_2 d3_3 = some (full_list_2, -1) ∧
      LinkedList_pushBack 2 full_list_2 d3_3 = some (full_list_2, -1)) ∧
    (full_queue_2.pool.top_free = 0 ∧ Queue_enqueue 2 full_queue_2 d3_3 = some (full_queue_2, -1)) ∧
    (full_stack_2.pool.top_free = 0 ∧ Stack_push 2 full_stack_2 d3_3 = some (full_stack_2, -1)) :=
  C8_full_insert_atomic 2 (by decide) full_list_2 [d1_1, d2_2] full_queue_2 full_stack_2 d3_3
    full_list_2_reach ⟨3, by decide⟩ (by decide) full_queue_2_reach full_stack_2_reach

theorem NodePool_allocateN_full (N : Nat) (p : NodePool) (h : p.top_free = 0) (k : Nat) :
    NodePool_allocateN N p k = some (p, List.replicate k (none, -1)) := by
  induction k with
  | zero => rfl
  | succ k ih => simp [NodePool_allocateN, NodePool_allocate_full N p h, ih, List.replicate_succ]

/-- On a pool whose free stack is as `NodePool_init` left it, with `j` entries
remaining, `j` calls of `NodePool_allocate` hand out `N - j, ..., N - 1`. -/
theorem NodePool_allocateN_run (N : Nat) :
    ∀ (j : Nat) (p : NodePool), p.WF N → p.top_free = j → j ≤ N →
      (∀ i, i < N → p.free_stack[i]? = some (N - i - 1)) →
      ∃ p', NodePool_allocateN N p j
          = some (p', (List.range' (N - j) j).map (fun h => (some h, 0))) ∧
        p'.top_free = 0 := by
  intro j
  induction j with
  | zero => intro p _ htop _ _; exact ⟨p, rfl, htop⟩
  | succ j ih =>
    intro p hwf htop hle hfs
    have hj : j < N := by omega
    have hidx : N - j - 1 < N := by omega
    have ha : NodePool_allocate N p
        = some ({ p with top_free := j, is_free := p.is_free.set (N - j - 1) false },
                some (N - j - 1), 0) := by
      simp [NodePool_allocate, htop, rd_of_lt _ hj, hfs j hj, wr_of_lt _ hidx hwf.2.2.1]
    obtain ⟨p', hrun, htop'⟩ :=
      ih { p with top_free := j, is_free := p.is_free.set (N - j - 1) false }
        ⟨hwf.1, hwf.2.1, by simp [hwf.2.2.1], hwf.2.2.2⟩ rfl (by omega) hfs
    refine ⟨p', ?_, htop'⟩
    have hs : N - (j + 1) + 1 = N - j := by omega
    simp [NodePool_allocateN, ha, hrun, List.range'_succ, hs]
    omega

/-- C9 (capacity bound).  On a pool set up by `NodePool_init` with capacity
`N`, the first `N` calls of `NodePool_allocate` report status `0` and store
pairwise distinct handles below `N`; however many further calls follow, each
reports status `-1`, stores nothing, and the pool stays as the `N`-th call left
it. -/
theorem C9_capacity_bound (N : Nat) (p0 : NodePool) (hwf : p0.WF N) :
    ∃ (p1 pN : NodePool) (hs : List Nat), NodePool_init N p0 = some p1 ∧
      NodePool_allocateN N p1 N = some (pN, hs.map (fun h => (some h, 0))) ∧
      hs.length = N ∧ hs.Nodup ∧ (∀ h ∈ hs, h < N) ∧
      ∀ k, NodePool_allocateN N pN k = some (pN, List.replicate k (none, -1)) := by
  obtain ⟨p1, hinit, hinv, htop, _, _, _, hfs⟩ := NodePool_init_spec N p0 hwf
  obtain ⟨pN, hrun, htop'⟩ := NodePool_allocateN_run N N p1 hinv.wf htop (Nat.le_refl N) hfs
  refine ⟨p1, pN, List.range' (N - N) N, hinit, hrun, by simp, List.nodup_range' _ _, ?_,
    NodePool_allocateN_full N pN htop'⟩
  intro h hh
  rw [List.mem_range'_1] at hh
  omega

/-- C9 on a pool of capacity 3. -/
theorem C9_capacity_bound_witness :
    ∃ (p1 pN : NodePool) (hs : List Nat), NodePool_init 3 (Stack.zero 3).pool = some p1 ∧
      NodePool_allocateN 3 p1 3 = some (pN, hs.map (fun h => (some h, 0))) ∧
      hs.length = 3 ∧ hs.Nodup ∧ (∀ h ∈ hs, h < 3) ∧
      ∀ k, NodePool_allocateN 3 pN k = some (pN, List.replicate k (none, -1)) :=
  C9_capacity_bound 3 (Stack.zero 3).pool (by decide)

theorem LinkedList_pushBackAll_spec {N : Nat} (vs : List F64) :
    ∀ (l : LinkedList) (cs : List (Nat × F64)), ListInv N l cs →
      cs.length + vs.length ≤ N →
      ∃ l' cs', LinkedList_pushBackAll N l vs = some (l', List.replicate vs.length 0) ∧
        ListInv N l' cs' ∧ cs'.map Prod.snd = cs.map Prod.snd ++ vs := by
  induction vs with
  | nil => intro l cs hI _; exact ⟨l, cs, rfl, hI, by simp⟩
  | cons v vs ih =>
    intro l cs hI hlen
    simp only [List.length_cons] at hlen
    obtain ⟨idx, l1, hpush, hI1⟩ := LinkedList_pushBack_spec hI (by omega) v
    obtain ⟨l2, cs2, hall, hI2, hvals⟩ :=
      ih l1 _ hI1 (by simp only [List.length_append, List.length_cons, List.length_nil]; omega)
    refine ⟨l2, cs2, ?_, hI2, ?_⟩
    · simp [LinkedList_pushBackAll, hpush, hall, List.replicate_succ]
    · rw [hvals]; simp

theorem LinkedList_popFrontN_spec {N : Nat} (cs : List (Nat × F64)) :
    ∀ l : LinkedList, ListInv N l cs →
      ∃ l', LinkedList_popFrontN N l cs.length = some (l', cs.map (fun c => (some c.2, 0))) ∧
        ListInv N l' [] := by
  induction cs with
  | nil => intro l hI; exact ⟨l, rfl, hI⟩
  | cons c cs ih =>
    intro l hI
    obtain ⟨l1, hpop, hI1, _⟩ := LinkedList_popFront_spec hI
    obtain ⟨l2, hrest, hI2⟩ := ih l1 hI1
    exact ⟨l2, by simp [LinkedList_popFrontN, hpop, hrest], hI2⟩

theorem length_eq_of_map_snd {cs : List (Nat × F64)} {vs : List F64}
    (h : cs.map Prod.snd = vs) : cs.length = vs.length := by
  have := congrArg List.length h
  simpa using this

/-- C10, amended (idempotent emptiness).  Take a reachable list with traversal
`xs`, a reachable queue holding `n` elements and a reachable stack holding `m`
elements (capacity `N`, a `size_t`).  Removing that many elements by `popFront`,
`dequeue`, `pop` succeeds each time (status `0`), and afterwards: one more
removal reports status `-1` and changes nothing; `head` and `tail` of the list
are `N`, while `head` and `tail` of the queue and `top` of the stack are
`SIZE_MAX`, the empty link of those two structures; and any `N` insertions in a
row succeed while one more reports status `-1`. -/
theorem C10_idempotent_emptiness (N : Nat) (hN : N ≤ SIZE_MAX) (l : LinkedList)
    (xs : List F64) (q : Queue) (n : Nat) (s : Stack) (m : Nat)
    (hl : LinkedList.Reach N l) (ht : Traversal N l xs)
    (hq : Queue.Reach N q n) (hs : Stack.Reach N s m) :
    (∃ l', LinkedList_popFrontN N l xs.length = some (l', xs.map (fun x => (some x, 0))) ∧
      LinkedList_popFront N l' = some (l', none, -1) ∧ l'.head = N ∧ l'.tail = N ∧
      ∀ (vs : List F64) (v : F64), vs.length = N →
        ∃ l'', LinkedList_pushBackAll N l' vs = some (l'', List.replicate N 0) ∧
          LinkedList_pushBack N l'' v = some (l'', -1)) ∧
    (∃ q' rs, Queue_dequeueN N q n = some (q', rs) ∧ rs.length = n ∧ (∀ r ∈ rs, r.2 = 0) ∧
      Queue_dequeue N q' = some (q', none, -1) ∧ q'.head = SIZE_MAX ∧ q'.tail = SIZE_MAX ∧
      ∀ (vs : List F64) (v : F64), vs.length = N →
        ∃ q'', Queue_enqueueAll N q' vs = some (q'', List.replicate N 0) ∧
          Queue_enqueue N q'' v = some (q'', -1)) ∧
    (∃ s' rs, Stack_popN N s m = some (s', rs) ∧ rs.length = m ∧ (∀ r ∈ rs, r.2 = 0) ∧
      Stack_pop N s' = some (s', none, -1) ∧ s'.top = SIZE_MAX ∧
      ∀ (vs : List F64) (v : F64), vs.length = N →
        ∃ s'', Stack_pushAll N s' vs = some (s'', List.replicate N 0) ∧
          Stack_push N s'' v = some (s'', -1)) := by
  refine ⟨?_, ?_, ?_⟩
  · obtain ⟨cs, hI, rfl⟩ := hl.inv_of_traversal ht
    obtain ⟨l', hpop, hI'⟩ := LinkedList_popFrontN_spec cs l hI
    refine ⟨l', ?_, LinkedList_popFront_empty hI', hI'.1.chain, hI'.2, ?_⟩
    · rw [List.length_map, hpop]
      simp [List.map_map, Function.comp_def]
    · intro vs v hvs
      obtain ⟨l'', cs'', hall, hI'', hvals⟩ :=
        LinkedList_pushBackAll_spec vs l' [] hI' (by simp [hvs])
      have hlen : cs''.length = N := by
        rw [length_eq_of_map_snd hvals]; simp [hvs]
      rw [hvs] at hall
      exact ⟨l'', hall, LinkedList_pushBack_full N l'' v (hI''.1.full_iff.2 hlen)⟩
  · obtain ⟨cs, hI, rfl⟩ := hq.queueInv hN
    obtain ⟨q', hdeq, hI'⟩ := Queue_dequeueN_spec hN cs q hI
    refine ⟨q', _, hdeq, by simp, ?_, Queue_dequeue_empty hI', hI'.1.chain, hI'.2, ?_⟩
    · intro r hr
      obtain ⟨c, _, rfl⟩ := List.mem_map.1 hr
      rfl
    · intro vs v hvs
      obtain ⟨q'', cs'', hall, hI'', hvals⟩ :=
        Queue_enqueueAll_spec hN vs q' [] hI' (by simp [hvs])
      have hlen : cs''.length = N := by
        rw [length_eq_of_map_snd hvals]; simp [hvs]
      rw [hvs] at hall
      exact ⟨q'', hall, Queue_enqueue_full N q'' v (hI''.1.full_iff.2 hlen)⟩
  · obtain ⟨cs, hI, rfl⟩ := hs.stackInv hN
    obtain ⟨s', hpop, hI'⟩ := Stack_popN_spec hN cs s hI
    refine ⟨s', _, hpop, by simp, ?_, Stack_pop_empty hI', hI'.chain, ?_⟩
    · intro r hr
      obtain ⟨c, _, rfl⟩ := List.mem_map.1 hr
      rfl
    · intro vs v hvs
      obtain ⟨s'', cs'', hall, hI'', hvals⟩ :=
        Stack_pushAll_spec vs s' [] hI' (by simp [hvs])
      have hlen : cs''.length = N := by
        rw [length_eq_of_map_snd hvals]; simp [hvs]
      rw [hvs] at hall
      exact ⟨s'', hall, Stack_push_full N s'' v (hI''.full_iff.2 hlen)⟩

/-- C10, amended, on the structures of the three `main` programs. -/
theorem C10_idempotent_emptiness_witness :
    (∃ l', LinkedList_popFrontN 10 main_list_3 [d0_5, d1_1, d2_2].length
          = some (l', [d0_5, d1_1, d2_2].map (fun x => (some x, 0))) ∧
      LinkedList_popFront 10 l' = some (l', none, -1) ∧ l'.head = 10 ∧ l'.tail = 10 ∧
      ∀ (vs : List F64) (v : F64), vs.length = 10 →
        ∃ l'', LinkedList_pushBackAll 10 l' vs = some (l'', List.replicate 10 0) ∧
          LinkedList_pushBack 10 l'' v = some (l'', -1)) ∧
    (∃ q' rs, Queue_dequeueN 10 main_queue_3 3 = some (q', rs) ∧ rs.length = 3 ∧
      (∀ r ∈ rs, r.2 = 0) ∧
      Queue_dequeue 10 q' = some (q', none, -1) ∧ q'.head = SIZE_MAX ∧ q'.tail = SIZE_MAX ∧
      ∀ (vs : List F64) (v : F64), vs.length = 10 →
        ∃ q'', Queue_enqueueAll 10 q' vs = some (q'', List.replicate 10 0) ∧
          Queue_enqueue 10 q'' v = some (q'', -1)) ∧
    (∃ s' rs, Stack_popN 10 main_stack_2 2 = some (s', rs) ∧ rs.length = 2 ∧
      (∀ r ∈ rs, r.2 = 0) ∧
      Stack_pop 10 s' = some (s', none, -1) ∧ s'.top = SIZE_MAX ∧
      ∀ (vs : List F64) (v : F64), vs.length = 10 →
        ∃ s'', Stack_pushAll 10 s' vs = some (s'', List.replicate 10 0) ∧
          Stack_push 10 s'' v = some (s'', -1)) :=
  C10_idempotent_emptiness 10 (by decide) main_list_3 [d0_5, d1_1, d2_2] main_queue_3 3
    main_stack_2 2 main_list_3_reach ⟨4, by decide⟩ main_queue_3_reach main_stack_2_reach

/-! ## Reachable pools: partition, handle uniqueness, deallocate, bounds -/

/-- The flag of a slot inside a pool of extent `N` is there to be read. -/
theorem NodePool_bad_some {N : Nat} {p : NodePool} (hwf : p.WF N) (idx : Nat) :
    ∃ b, NodePool_bad N p idx = some b := by
  by_cases h : idx < N
  · rw [NodePool_bad_of_lt p h]
    exact getElem?_some_of_lt h hwf.2.2.1
  · exact ⟨true, NodePool_bad_of_ge p (by omega)⟩

theorem NodePool_setData_bad {N : Nat} {p : NodePool} {idx : Nat} (v : F64)
    (h : NodePool_bad N p idx = some true) : NodePool_setData N p idx v = some (p, -1) := by
  simp [NodePool_setData, h]

theorem NodePool_setNext_bad {N : Nat} {p : NodePool} {idx : Nat} (nx : Nat)
    (h : NodePool_bad N p idx = some true) : NodePool_setNext N p idx nx = some (p, -1) := by
  simp [NodePool_setNext, h]

/-- In range and not bad means in use. -/
theorem NodePool_bad_false {N : Nat} {p : NodePool} {idx : Nat}
    (h : NodePool_bad N p idx = some false) : idx < N ∧ p.is_free[idx]? = some false := by
  by_cases hlt : idx < N
  · rw [NodePool_bad_of_lt p hlt] at h
    exact ⟨hlt, h⟩
  · rw [NodePool_bad_of_ge p (by omega)] at h
    exact absurd (Option.some.inj h) (by decide)

theorem PoolInv.allocate {N : Nat} {p p' : NodePool} {o : Option Nat} {st : Int}
    (hp : PoolInv N p) (h : NodePool_allocate N p = some (p', o, st)) : PoolInv N p' := by
  by_cases htop : p.top_free = 0
  · rw [NodePool_allocate_full N p htop] at h
    obtain ⟨rfl, _⟩ := Prod.mk.inj (Option.some.inj h)
    exact hp
  · obtain ⟨idx, _, _, _, ha, hinv⟩ := NodePool_allocate_spec hp htop
    rw [ha] at h
    obtain ⟨rfl, _⟩ := Prod.mk.inj (Option.some.inj h)
    exact hinv

theorem PoolInv.deallocate {N : Nat} {p p' : NodePool} {idx : Nat} {st : Int}
    (hp : PoolInv N p) (h : NodePool_deallocate N p idx = some (p', st)) : PoolInv N p' := by
  obtain ⟨b, hb⟩ := NodePool_bad_some hp.wf idx
  cases b with
  | true =>
    rw [NodePool_deallocate_bad hb] at h
    obtain ⟨rfl, _⟩ := Prod.mk.inj (Option.some.inj h)
    exact hp
  | false =>
    obtain ⟨hlt, hu⟩ := NodePool_bad_false hb
    obtain ⟨_, hd, hinv⟩ := NodePool_deallocate_spec hp hlt hu
    rw [hd] at h
    obtain ⟨rfl, _⟩ := Prod.mk.inj (Option.some.inj h)
    exact hinv

theorem PoolInv.setData {N : Nat} {p p' : NodePool} {idx : Nat} {v : F64} {st : Int}
    (hp : PoolInv N p) (h : NodePool_setData N p idx v = some (p', st)) : PoolInv N p' := by
  obtain ⟨b, hb⟩ := NodePool_bad_some hp.wf idx
  cases b with
  | true =>
    rw [NodePool_setData_bad v hb] at h
    obtain ⟨rfl, _⟩ := Prod.mk.inj (Option.some.inj h)
    exact hp
  | false =>
    obtain ⟨hlt, hu⟩ := NodePool_bad_false hb
    rw [NodePool_setData_used hp.wf hlt hu v] at h
    obtain ⟨rfl, _⟩ := Prod.mk.inj (Option.some.inj h)
    have hwf := hp.wf
    exact hp.of_same ⟨by simp [hwf.1], hwf.2.1, hwf.2.2.1, hwf.2.2.2⟩ rfl rfl rfl

theorem PoolInv.setNext {N : Nat} {p p' : NodePool} {idx nx : Nat} {st : Int}
    (hp : PoolInv N p) (h : NodePool_setNext N p idx nx = some (p', st)) : PoolInv N p' := by
  obtain ⟨b, hb⟩ := NodePool_bad_some hp.wf idx
  cases b with
  | true =>
    rw [NodePool_setNext_bad nx hb] at h
    obtain ⟨rfl, _⟩ := Prod.mk.inj (Option.some.inj h)
    exact hp
  | false =>
    obtain ⟨hlt, hu⟩ := NodePool_bad_false hb
    rw [NodePool_setNext_used hp.wf hlt hu nx] at h
    obtain ⟨rfl, _⟩ := Prod.mk.inj (Option.some.inj h)
    have hwf := hp.wf
    exact hp.of_same ⟨hwf.1, by simp [hwf.2.1], hwf.2.2.1, hwf.2.2.2⟩ rfl rfl rfl

/-- Every reachable pool satisfies the pool invariant. -/
theorem NodePool.Reach.poolInv {N : Nat} {p : NodePool} (h : NodePool.Reach N p) :
    PoolInv N p := by
  induction h with
  | init hwf hinit =>
    obtain ⟨q, hq, hinv, _⟩ := NodePool_init_spec N _ hwf
    rw [hinit] at hq
    obtain rfl := Option.some.inj hq
    exact hinv
  | allocate _ hop ih => exact ih.allocate hop
  | deallocate _ hop ih => exact ih.deallocate hop
  | setData _ hop ih => exact ih.setData hop
  | setNext _ hop ih => exact ih.setNext hop

/-- Counting the entries equal to `b` of a list of flags through their indices. -/
theorem length_filter_range_eq_count (b : Bool) (fs : List Bool) :
    ((List.range fs.length).filter (fun h => decide (fs[h]? = some b))).length
      = fs.count b := by
  induction fs using List.reverseRecOn with
  | nil => rfl
  | append_singleton fs x ih =>
    rw [List.length_append, List.length_singleton, List.range_succ, List.filter_append,
      List.length_append, List.count_append]
    have h1 : (List.range fs.length).filter (fun h => decide ((fs ++ [x])[h]? = some b))
        = (List.range fs.length).filter (fun h => decide (fs[h]? = some b)) := by
      apply List.filter_congr
      intro h hh
      rw [List.getElem?_append_left (List.mem_range.1 hh)]
    rw [h1, ih]
    congr 1
    by_cases hx : x = b
    · subst hx; simp
    · have hx' : ¬ (x == b) = true := by simpa using hx
      simp [hx, List.count_singleton, hx']

theorem count_true_add_count_false (fs : List Bool) :
    fs.count true + fs.count false = fs.length := by
  induction fs with
  | nil => rfl
  | cons x fs ih =>
    cases x <;> simp [List.count_cons] <;> omega

/-- In a pool that satisfies the invariant, the used slots and the free stack
add up to the capacity. -/
theorem PoolInv.count_used {N : Nat} {p : NodePool} (hp : PoolInv N p) :
    p.is_free.count false + p.top_free = N := by
  obtain ⟨⟨h1, h2, h3, h4⟩, hle, hnd, hmem⟩ := hp
  have hperm : (p.free_stack.take p.top_free).Perm
      ((List.range p.is_free.length).filter (fun h => decide (p.is_free[h]? = some true))) := by
    refine (List.perm_ext_iff_of_nodup hnd ((List.nodup_range _).filter _)).2 (fun a => ?_)
    rw [hmem, List.mem_filter, List.mem_range, h3]
    simp
  have hlen := hperm.length_eq
  rw [length_filter_range_eq_count, List.length_take, h4] at hlen
  have htot := count_true_add_count_false p.is_free
  omega

theorem pool3_init_reach : NodePool.Reach 3 pool3_init :=
  @NodePool.Reach.init 3 (Stack.zero 3).pool pool3_init (by decide) (by decide)

theorem pool3_one_reach : NodePool.Reach 3 pool3_one :=
  @NodePool.Reach.allocate 3 pool3_init pool3_one (some 0) 0 pool3_init_reach (by decide)

/-- C11 (free/used partition).  In every pool reachable from `NodePool_init` by
calls of allocate, deallocate, setData and setNext (any arguments, any status):
`top_free ≤ N`; the first `top_free` entries of `free_stack` contain no handle
twice and are exactly the handles below `N` whose slot is flagged free; and the
number of slots flagged used plus `top_free` is `N`. -/
theorem C11_free_used_partition (N : Nat) (p : NodePool) (hr : NodePool.Reach N p) :
    p.top_free ≤ N ∧ (p.free_stack.take p.top_free).length = p.top_free ∧
    (p.free_stack.take p.top_free).Nodup ∧
    (∀ h, h ∈ p.free_stack.take p.top_free ↔ (h < N ∧ p.is_free[h]? = some true)) ∧
    p.is_free.count false + p.top_free = N := by
  have hp := hr.poolInv
  refine ⟨hp.top_le, ?_, hp.nodup, hp.mem_iff, hp.count_used⟩
  rw [List.length_take, hp.wf.2.2.2]
  exact Nat.min_eq_left hp.top_le

/-- C11 on the pool of capacity 3 with one slot handed out. -/
theorem C11_free_used_partition_witness :
    pool3_one.top_free ≤ 3 ∧ (pool3_one.free_stack.take pool3_one.top_free).length
      = pool3_one.top_free ∧
    (pool3_one.free_stack.take pool3_one.top_free).Nodup ∧
    (∀ h, h ∈ pool3_one.free_stack.take pool3_one.top_free ↔
      (h < 3 ∧ pool3_one.is_free[h]? = some true)) ∧
    pool3_one.is_free.count false + pool3_one.top_free = 3 :=
  C11_free_used_partition 3 pool3_one pool3_one_reach

/-- C12 (handle uniqueness).  On every reachable pool `NodePool_allocate`
returns a result; when its status is `0` the handle it stores is below `N`, its
slot was flagged free before the call and is flagged used after it; so the
handle differs from every slot in use before the call, and those slots stay in
use. -/
theorem C12_handle_uniqueness (N : Nat) (p : NodePool) (hr : NodePool.Reach N p) :
    ∃ p' o st, NodePool_allocate N p = some (p', o, st) ∧
      (st = 0 → ∃ h, o = some h ∧ h < N ∧ p.is_free[h]? = some true ∧
        p'.is_free[h]? = some false ∧
        ∀ h', p.is_free[h']? = some false → h' ≠ h ∧ p'.is_free[h']? = some false) := by
  have hp := hr.poolInv
  by_cases htop : p.top_free = 0
  · exact ⟨p, none, -1, NodePool_allocate_full N p htop, fun h => absurd h (by decide)⟩
  · obtain ⟨idx, hlt, hfree, _, ha, _⟩ := NodePool_allocate_spec hp htop
    refine ⟨_, some idx, 0, ha, fun _ => ⟨idx, rfl, hlt, hfree, ?_, ?_⟩⟩
    · simp [List.getElem?_set, hp.wf.2.2.1, hlt]
    · intro h' hu
      have hne : h' ≠ idx := by
        rintro rfl
        rw [hfree] at hu
        exact absurd (Option.some.inj hu) (by decide)
      refine ⟨hne, ?_⟩
      simp only
      rw [List.getElem?_set_ne (fun e => hne e.symm)]
      exact hu

/-- C12 on the pool of capacity 3 with one slot handed out. -/
theorem C12_handle_uniqueness_witness :
    ∃ p' o st, NodePool_allocate 3 pool3_one = some (p', o, st) ∧
      (st = 0 → ∃ h, o = some h ∧ h < 3 ∧ pool3_one.is_free[h]? = some true ∧
        p'.is_free[h]? = some false ∧
        ∀ h', pool3_one.is_free[h']? = some false → h' ≠ h ∧ p'.is_free[h']? = some false) :=
  C12_handle_uniqueness 3 pool3_one pool3_one_reach

/-- C13 (deallocate contract).  On every reachable pool and for every handle
`h`, `NodePool_deallocate(h)` returns a result; its status is nonzero exactly
when `h ≥ N` or slot `h` is flagged free, and then it is `-1` and the pool is
returned as it was; with status `0` slot `h` is flagged free, `top_free` has
grown by one, `h` is the new top entry of the free stack (no handle being on it
twice), the entries below and the flags of the other slots are as before, and
`data` and `next` are untouched. -/
theorem C13_deallocate_contract (N : Nat) (p : NodePool) (h : Nat)
    (hr : NodePool.Reach N p) :
    ∃ p' st, NodePool_deallocate N p h = some (p', st) ∧
      (st ≠ 0 ↔ (N ≤ h ∨ p.is_free[h]? = some true)) ∧
      (st ≠ 0 → st = -1 ∧ p' = p) ∧
      (st = 0 → p'.is_free[h]? = some true ∧ p'.top_free = p.top_free + 1 ∧
        p'.free_stack[p.top_free]? = some h ∧
        p'.free_stack.take p.top_free = p.free_stack.take p.top_free ∧
        (p'.free_stack.take p'.top_free).Nodup ∧
        (∀ j, j ≠ h → p'.is_free[j]? = p.is_free[j]?) ∧
        p'.data = p.data ∧ p'.next = p.next) := by
  have hp := hr.poolInv
  obtain ⟨b, hb⟩ := NodePool_bad_some hp.wf h
  cases b with
  | true =>
    refine ⟨p, -1, NodePool_deallocate_bad hb, ?_, fun _ => ⟨rfl, rfl⟩,
      fun e => absurd e (by decide)⟩
    refine ⟨fun _ => ?_, fun _ => by decide⟩
    by_cases hlt : h < N
    · rw [NodePool_bad_of_lt p hlt] at hb
      exact Or.inr hb
    · exact Or.inl (by omega)
  | false =>
    obtain ⟨hlt, hu⟩ := NodePool_bad_false hb
    obtain ⟨htop, hd, hinv⟩ := NodePool_deallocate_spec hp hlt hu
    refine ⟨_, 0, hd, ?_, fun e => absurd rfl e, fun _ => ⟨?_, rfl, ?_, ?_, hinv.nodup, ?_, rfl, rfl⟩⟩
    · refine ⟨fun e => absurd rfl e, ?_⟩
      rintro (hge | hfree)
      · omega
      · rw [hu] at hfree
        exact absurd (Option.some.inj hfree) (by decide)
    · simp [List.getElem?_set, hp.wf.2.2.1, hlt]
    · simp [List.getElem?_set, hp.wf.2.2.2, htop]
    · exact take_set_self _ _ _
    · intro j hj
      simp only
      rw [List.getElem?_set_ne (fun e => hj e.symm)]

/-- C13 on the pool of capacity 3 with slot 0 handed out: `deallocate(0)`. -/
theorem C13_deallocate_contract_witness :
    ∃ p' st, NodePool_deallocate 3 pool3_one 0 = some (p', st) ∧
      (st ≠ 0 ↔ (3 ≤ 0 ∨ pool3_one.is_free[0]? = some true)) ∧
      (st ≠ 0 → st = -1 ∧ p' = pool3_one) ∧
      (st = 0 → p'.is_free[0]? = some true ∧ p'.top_free = pool3_one.top_free + 1 ∧
        p'.free_stack[pool3_one.top_free]? = some 0 ∧
        p'.free_stack.take pool3_one.top_free = pool3_one.free_stack.take pool3_one.top_free ∧
        (p'.free_stack.take p'.top_free).Nodup ∧
        (∀ j, j ≠ 0 → p'.is_free[j]? = pool3_one.is_free[j]?) ∧
        p'.data = pool3_one.data ∧ p'.next = pool3_one.next) :=
  C13_deallocate_contract 3 pool3_one 0 pool3_one_reach

/-- The three outcomes of `NodePool_deallocate` on the pool of capacity 3 with
slot 0 handed out: a handle outside the pool, a free slot, the slot in use. -/
theorem deallocate_pool3 :
    NodePool_deallocate 3 pool3_one 3 = some (pool3_one, -1) ∧
    NodePool_deallocate 3 pool3_one 1 = some (pool3_one, -1) ∧
    NodePool_deallocate 3 pool3_one 0 = some (pool3_init, 0) := by
  decide

/-- C20 (array accesses stay in bounds).  On every reachable pool: when
`top_free` is not zero, the index `top_free - 1` that `NodePool_allocate` reads
is below `N` and the handle found there is below `N`, so the call returns a
result; and for every handle, the validity test of `NodePool_deallocate` has a
result, `top_free < N` holds whenever the test passes, and the call returns a
result. -/
theorem C20_in_bounds (N : Nat) (p : NodePool) (hr : NodePool.Reach N p) :
    (p.top_free ≠ 0 → p.top_free - 1 < N ∧
      ∃ idx, rd N p.free_stack (p.top_free - 1) = some idx ∧ idx < N ∧
        (wr N p.is_free idx false).isSome = true) ∧
    (NodePool_allocate N p).isSome = true ∧
    ∀ h, (NodePool_bad N p h).isSome = true ∧
      (NodePool_bad N p h = some false → p.top_free < N ∧
        (wr N p.is_free h true).isSome = true ∧
        (wr N p.free_stack p.top_free h).isSome = true) ∧
      (NodePool_deallocate N p h).isSome = true := by
  have hp := hr.poolInv
  have hwf := hp.wf
  refine ⟨?_, ?_, ?_⟩
  · intro htop
    obtain ⟨idx, hlt, _, hidx, _, _⟩ := NodePool_allocate_spec hp htop
    have : p.top_free - 1 < N := by have := hp.top_le; omega
    exact ⟨this, idx, by rw [rd_of_lt _ this]; exact hidx, hlt,
      by rw [wr_of_lt _ hlt hwf.2.2.1]; rfl⟩
  · by_cases htop : p.top_free = 0
    · rw [NodePool_allocate_full N p htop]; rfl
    · obtain ⟨idx, _, _, _, ha, _⟩ := NodePool_allocate_spec hp htop
      rw [ha]; rfl
  · intro h
    obtain ⟨b, hb⟩ := NodePool_bad_some hwf h
    refine ⟨by rw [hb]; rfl, ?_, ?_⟩
    · intro hf
      obtain ⟨hlt, hu⟩ := NodePool_bad_false hf
      obtain ⟨htop, _, _⟩ := NodePool_deallocate_spec hp hlt hu
      exact ⟨htop, by rw [wr_of_lt _ hlt hwf.2.2.1]; rfl,
        by rw [wr_of_lt _ htop hwf.2.2.2]; rfl⟩
    · cases b with
      | true => rw [NodePool_deallocate_bad hb]; rfl
      | false =>
        obtain ⟨hlt, hu⟩ := NodePool_bad_false hb
        obtain ⟨_, hd, _⟩ := NodePool_deallocate_spec hp hlt hu
        rw [hd]; rfl

/-- C20 on the pool of capacity 3 with one slot handed out. -/
theorem C20_in_bounds_witness :
    (pool3_one.top_free ≠ 0 → pool3_one.top_free - 1 < 3 ∧
      ∃ idx, rd 3 pool3_one.free_stack (pool3_one.top_free - 1) = some idx ∧ idx < 3 ∧
        (wr 3 pool3_one.is_free idx false).isSome = true) ∧
    (NodePool_allocate 3 pool3_one).isSome = true ∧
    ∀ h, (NodePool_bad 3 pool3_one h).isSome = true ∧
      (NodePool_bad 3 pool3_one h = some false → pool3_one.top_free < 3 ∧
        (wr 3 pool3_one.is_free h true).isSome = true ∧
        (wr 3 pool3_one.free_stack pool3_one.top_free h).isSome = true) ∧
      (NodePool_deallocate 3 pool3_one h).isSome = true :=
  C20_in_bounds 3 pool3_one pool3_one_reach

/-! ## Status codes, empty links, and the order of the free stack -/

/-- C14, counterexample.  On the pool of capacity 3 with slot 0 handed out,
`NodePool_deallocate` gives the very same result (status `-1`, pool untouched)
for handle 3, which is outside the pool, and for handle 1, which is free; and
`LinkedList_removeValue(1.1)` reports the same status `-1` on the empty list of
`main` and on the list of `main` that holds only 2.2. -/
theorem C14_status_not_discriminated :
    NodePool_deallocate 3 pool3_one 3 = NodePool_deallocate 3 pool3_one 1 ∧
    (NodePool_deallocate 3 pool3_one 3).map Prod.snd = some (-1) ∧
    (LinkedList_removeValue 10 11 main_list_init d1_1).map Prod.snd = some (-1) ∧
    (LinkedList_removeValue 10 11 main_list_5 d1_1).map Prod.snd = some (-1) ∧
    LinkedList_printList 10 11 main_list_init = some [] ∧
    LinkedList_printList 10 11 main_list_5 = some [d2_2] := by
  decide

/-- C14, amended.  Every failure is reported by the one status `-1`:
`NodePool_deallocate` returns status `-1` and the pool as it was both for a
handle `h ≥ N` and for a handle `h' < N` whose slot is free; and
`LinkedList_removeValue` returns status `-1` and the list as it was both on a
reachable empty list and on a reachable list whose elements are all not `==`
to the value. -/
theorem C14_single_failure_status (N : Nat) (p : NodePool) (h h' : Nat)
    (l l' : LinkedList) (xs : List F64) (v : F64) (fuel : Nat)
    (hh : N ≤ h) (hh' : h' < N) (hfree : p.is_free[h']? = some true)
    (hl : LinkedList.Reach N l) (hl0 : Traversal N l [])
    (hl' : LinkedList.Reach N l') (ht : Traversal N l' xs)
    (hno : ∀ x ∈ xs, F64.eq x v = false) (hf : xs.length < fuel) :
    NodePool_deallocate N p h = some (p, -1) ∧
    NodePool_deallocate N p h' = some (p, -1) ∧
    LinkedList_removeValue N fuel l v = some (l, -1) ∧
    LinkedList_removeValue N fuel l' v = some (l', -1) := by
  refine ⟨NodePool_deallocate_bad (NodePool_bad_of_ge p hh),
    NodePool_deallocate_bad (by rw [NodePool_bad_of_lt p hh']; exact hfree), ?_, ?_⟩
  · obtain ⟨cs, hI, hcs⟩ := hl.inv_of_traversal hl0
    have : cs = [] := by simpa using hcs
    subst this
    have hhead : l.head = N := hI.1.chain
    simp [LinkedList_removeValue, hhead]
  · obtain ⟨cs, hI, rfl⟩ := hl'.inv_of_traversal ht
    refine LinkedList_removeValue_none hI (by simpa using hf) ?_
    intro c hc
    exact hno c.2 (List.mem_map.2 ⟨c, hc, rfl⟩)

/-- C14, amended, on the lists of `main` (empty after `LinkedList_init`; holding
2.2 in slot 2 at the end) and the pool of the latter, where slot 0 is free. -/
theorem C14_single_failure_status_witness :
    NodePool_deallocate 10 main_list_5.pool 10 = some (main_list_5.pool, -1) ∧
    NodePool_deallocate 10 main_list_5.pool 0 = some (main_list_5.pool, -1) ∧
    LinkedList_removeValue 10 11 main_list_init d1_1 = some (main_list_init, -1) ∧
    LinkedList_removeValue 10 11 main_list_5 d1_1 = some (main_list_5, -1) :=
  C14_single_failure_status 10 main_list_5.pool 10 0 main_list_init main_list_5 [d2_2] d1_1 11
    (by decide) (by decide) (by decide) main_list_init_reach ⟨1, by decide⟩
    main_list_5_reach ⟨2, by decide⟩ (by decide) (by decide)

/-- C16, counterexample.  On the pool of capacity 3 set up by `NodePool_init`
the top entry of the free stack is handle 0, and three calls of
`NodePool_allocate` hand out 0, 1, 2, not 2, 1, 0. -/
theorem C16_order_is_ascending :
    NodePool_init 3 (Stack.zero 3).pool = some pool3_init ∧
    pool3_init.free_stack[pool3_init.top_free - 1]? = some 0 ∧
    (NodePool_allocateN 3 pool3_init 3).map Prod.snd
      = some [(some 0, 0), (some 1, 0), (some 2, 0)] ∧
    (NodePool_allocateN 3 pool3_init 3).map Prod.snd
      ≠ some [(some 2, 0), (some 1, 0), (some 0, 0)] := by
  decide

/-- C16, amended.  After `NodePool_init` on a pool of capacity `N`, `top_free`
is `N` and entry `j` of the free stack is `N - 1 - j`: handle `N - 1` is at the
bottom and handle `0` on top, so `N` calls of `NodePool_allocate` in a row
report status `0` and hand out `0, 1, ..., N - 1` in that order. -/
theorem C16_initial_free_stack_order (N : Nat) (p0 : NodePool) (hwf : p0.WF N) :
    ∃ p1 pN, NodePool_init N p0 = some p1 ∧ p1.top_free = N ∧
      (∀ j, j < N → p1.free_stack[j]? = some (N - 1 - j)) ∧
      NodePool_allocateN N p1 N = some (pN, (List.range N).map (fun h => (some h, 0))) := by
  obtain ⟨p1, hinit, hinv, htop, _, _, _, hfs⟩ := NodePool_init_spec N p0 hwf
  obtain ⟨pN, hrun, _⟩ := NodePool_allocateN_run N N p1 hinv.wf htop (Nat.le_refl N) hfs
  refine ⟨p1, pN, hinit, htop, ?_, ?_⟩
  · intro j hj
    rw [hfs j hj]
    congr 1
    omega
  · rw [hrun, Nat.sub_self, List.range_eq_range']

/-- C16, amended, on a pool of capacity 3. -/
theorem C16_initial_free_stack_order_witness :
    ∃ p1 pN, NodePool_init 3 (Stack.zero 3).pool = some p1 ∧ p1.top_free = 3 ∧
      (∀ j, j < 3 → p1.free_stack[j]? = some (3 - 1 - j)) ∧
      NodePool_allocateN 3 p1 3 = some (pN, (List.range 3).map (fun h => (some h, 0))) :=
  C16_initial_free_stack_order 3 (Stack.zero 3).pool (by decide)

theorem firstHandle_lt_or_nil {N : Nat} (nil : Nat) {cs : List (Nat × F64)}
    (hlt : ∀ h ∈ cs.map Prod.fst, h < N) :
    firstHandle nil cs < N ∨ firstHandle nil cs = nil := by
  cases cs with
  | nil => exact Or.inr rfl
  | cons c cs => exact Or.inl (hlt c.1 (by simp))

theorem lastHandle_lt_or_nil {N : Nat} (nil : Nat) {cs : List (Nat × F64)}
    (hlt : ∀ h ∈ cs.map Prod.fst, h < N) :
    lastHandle nil cs < N ∨ lastHandle nil cs = nil := by
  rcases List.eq_nil_or_concat cs with rfl | ⟨pre, t, rfl⟩
  · exact Or.inr rfl
  · rw [List.concat_eq_append, lastHandle_snoc]
    exact Or.inl (hlt t.1 (by simp))

/-- Every link of a chain leads to a slot of the chain or is the empty link. -/
theorem Chain.links {N nil : Nat} {p : NodePool} (cs : List (Nat × F64)) :
    ∀ a, Chain p a cs nil → (∀ h ∈ cs.map Prod.fst, h < N) →
      ∀ c ∈ cs, ∃ nx, p.next[c.1]? = some nx ∧ (nx < N ∨ nx = nil) := by
  induction cs with
  | nil => intro a _ _ c hc; exact absurd hc (List.not_mem_nil c)
  | cons d cs ih =>
    intro a hch hlt c hc
    obtain ⟨_, _, n, hn, hrest⟩ := hch
    have hlt' : ∀ h ∈ cs.map Prod.fst, h < N := fun h hh =>
      hlt h (by simp only [List.map_cons, List.mem_cons]; exact Or.inr hh)
    rcases List.mem_cons.1 hc with rfl | hc
    · refine ⟨n, hn, ?_⟩
      rw [hrest.start]
      exact firstHandle_lt_or_nil nil hlt'
    · exact ih n hrest hlt' c hc

/-- The last cell of a non-empty chain carries the closing link. -/
theorem Chain.last_link {nil : Nat} {p : NodePool} {a : Nat} {cs : List (Nat × F64)}
    (h : Chain p a cs nil) (hne : cs ≠ []) : p.next[lastHandle nil cs]? = some nil := by
  rcases List.eq_nil_or_concat cs with rfl | ⟨pre, t, rfl⟩
  · exact absurd rfl hne
  · rw [List.concat_eq_append] at h ⊢
    rw [lastHandle_snoc]
    obtain ⟨m, _, hlast⟩ := (Chain.append pre [t] a).1 h
    obtain ⟨_, _, n, hn, hend⟩ := hlast
    have : n = nil := hend
    rw [← this]
    exact hn

/-- C15, counterexample.  With capacity 10, `Queue_init` and `Stack_init` leave
`head`, `tail` and `top` at `SIZE_MAX`, which is not 10 and not in `[0, 10]`. -/
theorem C15_queue_stack_use_size_max :
    Queue_init 10 (Queue.zero 10) = some main_queue_init ∧
    Stack_init 10 (Stack.zero 10) = some main_stack_init ∧
    main_queue_init.head ≠ 10 ∧ ¬ main_queue_init.head ≤ 10 ∧
    main_queue_init.tail ≠ 10 ∧ ¬ main_queue_init.tail ≤ 10 ∧
    main_stack_init.top ≠ 10 ∧ ¬ main_stack_init.top ≤ 10 := by
  decide

/-- C15, amended.  The handle meaning "no slot" is `N` for the list and
`SIZE_MAX` for queue and stack (capacity `N`, a `size_t`).  Right after init,
`head` and `tail` of the list are `N`, and `head`, `tail` of the queue and `top`
of the stack are `SIZE_MAX`.  In every reachable list, `head`, `tail` and the
`next` link of every slot of the chain are at most `N`; in every reachable queue
and stack, `head`, `tail`, `top` and the `next` link of every slot of the chain
are below `N` or equal to `SIZE_MAX`. -/
theorem C15_empty_links (N : Nat) (hN : N ≤ SIZE_MAX) (l0 : LinkedList) (q0 : Queue)
    (s0 : Stack) (l : LinkedList) (q : Queue) (n : Nat) (s : Stack) (m : Nat)
    (hl0 : l0.pool.WF N) (hq0 : q0.pool.WF N) (hs0 : s0.pool.WF N)
    (hl : LinkedList.Reach N l) (hq : Queue.Reach N q n) (hs : Stack.Reach N s m) :
    (∃ l1, LinkedList_init N l0 = some (l1, 0) ∧ l1.head = N ∧ l1.tail = N) ∧
    (∃ q1, Queue_init N q0 = some q1 ∧ q1.head = SIZE_MAX ∧ q1.tail = SIZE_MAX) ∧
    (∃ s1, Stack_init N s0 = some s1 ∧ s1.top = SIZE_MAX) ∧
    (l.head ≤ N ∧ l.tail ≤ N ∧
      ∃ cs, (∀ fuel, cs.length < fuel → LinkedList_cells N fuel l = some cs) ∧
        ∀ c ∈ cs, ∃ nx, l.pool.next[c.1]? = some nx ∧ nx ≤ N) ∧
    ((q.head < N ∨ q.head = SIZE_MAX) ∧ (q.tail < N ∨ q.tail = SIZE_MAX) ∧
      ∃ cs, Chain q.pool q.head cs SIZE_MAX ∧ cs.length = n ∧
        ∀ c ∈ cs, ∃ nx, q.pool.next[c.1]? = some nx ∧ (nx < N ∨ nx = SIZE_MAX)) ∧
    ((s.top < N ∨ s.top = SIZE_MAX) ∧
      ∃ cs, Chain s.pool s.top cs SIZE_MAX ∧ cs.length = m ∧
        ∀ c ∈ cs, ∃ nx, s.pool.next[c.1]? = some nx ∧ (nx < N ∨ nx = SIZE_MAX)) := by
  refine ⟨?_, ?_, ?_, ?_, ?_, ?_⟩
  · obtain ⟨l1, h1, hI⟩ := LinkedList_init_spec l0 hl0
    exact ⟨l1, h1, hI.1.chain, hI.2⟩
  · obtain ⟨q1, h1, hI⟩ := Queue_init_spec q0 hq0
    exact ⟨q1, h1, hI.1.chain, hI.2⟩
  · obtain ⟨s1, h1, hI⟩ := Stack_init_spec s0 hs0
    exact ⟨s1, h1, hI.chain⟩
  · obtain ⟨cs, hI⟩ := hl.listInv
    have hlt : ∀ h ∈ cs.map Prod.fst, h < N := fun h hh => hI.1.handle_lt hh
    refine ⟨?_, ?_, cs, fun fuel hf => LinkedList_cells_spec hI hf, ?_⟩
    · rw [hI.1.chain.start]
      rcases firstHandle_lt_or_nil N hlt with h | h <;> omega
    · rw [hI.2]
      rcases lastHandle_lt_or_nil N hlt with h | h <;> omega
    · intro c hc
      obtain ⟨nx, hnx, hr⟩ := Chain.links cs l.head hI.1.chain hlt c hc
      exact ⟨nx, hnx, by rcases hr with h | h <;> omega⟩
  · obtain ⟨cs, hI, hlen⟩ := hq.queueInv hN
    have hlt : ∀ h ∈ cs.map Prod.fst, h < N := fun h hh => hI.1.handle_lt hh
    refine ⟨?_, ?_, cs, hI.1.chain, hlen, Chain.links cs q.head hI.1.chain hlt⟩
    · rw [hI.1.chain.start]
      exact firstHandle_lt_or_nil SIZE_MAX hlt
    · rw [hI.2]
      exact lastHandle_lt_or_nil SIZE_MAX hlt
  · obtain ⟨cs, hI, hlen⟩ := hs.stackInv hN
    have hlt : ∀ h ∈ cs.map Prod.fst, h < N := fun h hh => hI.handle_lt hh
    refine ⟨?_, cs, hI.chain, hlen, Chain.links cs s.top hI.chain hlt⟩
    rw [hI.chain.start]
    exact firstHandle_lt_or_nil SIZE_MAX hlt

/-- C15, amended, on the structures of the three `main` programs. -/
theorem C15_empty_links_witness :
    (∃ l1, LinkedList_init 10 main_list_raw = some (l1, 0) ∧ l1.head = 10 ∧ l1.tail = 10) ∧
    (∃ q1, Queue_init 10 (Queue.zero 10) = some q1 ∧ q1.head = SIZE_MAX ∧
      q1.tail = SIZE_MAX) ∧
    (∃ s1, Stack_init 10 (Stack.zero 10) = some s1 ∧ s1.top = SIZE_MAX) ∧
    (main_list_3.head ≤ 10 ∧ main_list_3.tail ≤ 10 ∧
      ∃ cs, (∀ fuel, cs.length < fuel → LinkedList_cells 10 fuel main_list_3 = some cs) ∧
        ∀ c ∈ cs, ∃ nx, main_list_3.pool.next[c.1]? = some nx ∧ nx ≤ 10) ∧
    ((main_queue_3.head < 10 ∨ main_queue_3.head = SIZE_MAX) ∧
      (main_queue_3.tail < 10 ∨ main_queue_3.tail = SIZE_MAX) ∧
      ∃ cs, Chain main_queue_3.pool main_queue_3.head cs SIZE_MAX ∧ cs.length = 3 ∧
        ∀ c ∈ cs, ∃ nx, main_queue_3.pool.next[c.1]? = some nx ∧
          (nx < 10 ∨ nx = SIZE_MAX)) ∧
    ((main_stack_2.top < 10 ∨ main_stack_2.top = SIZE_MAX) ∧
      ∃ cs, Chain main_stack_2.pool main_stack_2.top cs SIZE_MAX ∧ cs.length = 2 ∧
        ∀ c ∈ cs, ∃ nx, main_stack_2.pool.next[c.1]? = some nx ∧
          (nx < 10 ∨ nx = SIZE_MAX)) :=
  C15_empty_links 10 (by decide) main_list_raw (Queue.zero 10) (Stack.zero 10) main_list_3
    main_queue_3 3 main_stack_2 2 (by decide) (by decide) (by decide) main_list_3_reach
    main_queue_3_reach main_stack_2_reach

/-- C17 (LinkedList chain invariant).  In every reachable list, with `cs` the
cells that following `next` from `head` visits: `head = N` iff `cs` is empty iff
`tail = N`; the handles of `cs` are pairwise distinct; there are at most `N` of
them; and when `cs` is not empty, `tail` is the last handle visited (after
`cs.length - 1 ≤ N - 1` steps) and its `next` link is `N`. -/
theorem C17_chain_invariant (N : Nat) (l : LinkedList) (hr : LinkedList.Reach N l) :
    ∃ cs, (∀ fuel, cs.length < fuel → LinkedList_cells N fuel l = some cs) ∧
      (l.head = N ↔ cs = []) ∧ (l.tail = N ↔ cs = []) ∧
      (cs.map Prod.fst).Nodup ∧ cs.length ≤ N ∧
      (cs ≠ [] → (cs.map Prod.fst)[cs.length - 1]? = some l.tail ∧
        cs.length - 1 ≤ N - 1 ∧ l.pool.next[l.tail]? = some N) := by
  obtain ⟨cs, hI⟩ := hr.listInv
  have hlt : ∀ h ∈ cs.map Prod.fst, h < N := fun h hh => hI.1.handle_lt hh
  refine ⟨cs, fun fuel hf => LinkedList_cells_spec hI hf, hI.1.empty_iff (Nat.le_refl N), ?_,
    hI.1.nodup, hI.cells_le, ?_⟩
  · rw [hI.2]
    exact lastHandle_eq_nil_iff (Nat.le_refl N) hlt
  · intro hne
    refine ⟨?_, by have := hI.cells_le; omega, ?_⟩
    · rw [hI.2]
      rcases List.eq_nil_or_concat cs with rfl | ⟨pre, t, rfl⟩
      · exact absurd rfl hne
      · rw [List.concat_eq_append, lastHandle_snoc, List.map_append,
          List.getElem?_append_right (by simp)]
        simp
    · rw [hI.2]
      exact hI.1.chain.last_link hne

/-- C17 on the list of `main` holding 0.5, 1.1, 2.2. -/
theorem C17_chain_invariant_witness :
    ∃ cs, (∀ fuel, cs.length < fuel → LinkedList_cells 10 fuel main_list_3 = some cs) ∧
      (main_list_3.head = 10 ↔ cs = []) ∧ (main_list_3.tail = 10 ↔ cs = []) ∧
      (cs.map Prod.fst).Nodup ∧ cs.length ≤ 10 ∧
      (cs ≠ [] → (cs.map Prod.fst)[cs.length - 1]? = some main_list_3.tail ∧
        cs.length - 1 ≤ 10 - 1 ∧ main_list_3.pool.next[main_list_3.tail]? = some 10) :=
  C17_chain_invariant 10 main_list_3 main_list_3_reach

/-- The chain of the list of `main` holding 0.5, 1.1, 2.2: slots 1, 0, 2. -/
theorem cells_main :
    LinkedList_cells 10 11 main_list_3 = some [(1, d0_5), (0, d1_1), (2, d2_2)] := by
  decide

/-! ## No slot leak; insertion and capacity -/

/-- A slot below `N` that is not on the chain is flagged free. -/
theorem Inv.free_of_not_mem {N nil : Nat} {p : NodePool} {head : Nat}
    {cs : List (Nat × F64)} (hI : Inv N nil p head cs) {h : Nat} (hlt : h < N)
    (hnot : h ∉ cs.map Prod.fst) : p.is_free[h]? = some true := by
  obtain ⟨b, hb⟩ := getElem?_some_of_lt hlt hI.pool.wf.2.2.1
  cases b with
  | true => exact hb
  | false => exact absurd ((hI.used h).2 ⟨hlt, hb⟩) hnot

/-- C18 (no slot leak).  In every reachable list, with `cs` the cells of the
chain from `head`: the slots flagged used are exactly the handles of `cs`; the
number of elements plus `top_free` is `N`; a `LinkedList_popFront` with status
`0` returns the old head slot to the free stack (flagged free, listed among the
free slots, `top_free` one higher); and a `LinkedList_removeValue` with status
`0` returns a slot of the chain to the free stack in the same way. -/
theorem C18_no_slot_leak (N : Nat) (l : LinkedList) (hr : LinkedList.Reach N l) :
    ∃ cs, (∀ fuel, cs.length < fuel → LinkedList_cells N fuel l = some cs) ∧
      (∀ h, (h < N ∧ l.pool.is_free[h]? = some false) ↔ h ∈ cs.map Prod.fst) ∧
      cs.length + l.pool.top_free = N ∧ cs.length = N - l.pool.top_free ∧
      (∀ l' o, LinkedList_popFront N l = some (l', o, 0) →
        l'.pool.top_free = l.pool.top_free + 1 ∧ l.head ∈ cs.map Prod.fst ∧
        l'.pool.is_free[l.head]? = some true ∧
        l.head ∈ l'.pool.free_stack.take l'.pool.top_free) ∧
      (∀ fuel l' v, LinkedList_removeValue N fuel l v = some (l', 0) →
        l'.pool.top_free = l.pool.top_free + 1 ∧
        ∃ h ∈ cs.map Prod.fst, l'.pool.is_free[h]? = some true ∧
          h ∈ l'.pool.free_stack.take l'.pool.top_free) := by
  obtain ⟨cs, hI⟩ := hr.listInv
  have hcount := hI.1.count
  refine ⟨cs, fun fuel hf => LinkedList_cells_spec hI hf, fun h => (hI.1.used h).symm,
    by omega, by omega, ?_, ?_⟩
  · intro l' o hpop
    cases cs with
    | nil =>
      rw [LinkedList_popFront_empty hI] at hpop
      have := (Prod.mk.inj (Prod.mk.inj (Option.some.inj hpop)).2).2
      exact absurd this (by decide)
    | cons c cs =>
      obtain ⟨l'', h', hI', hhead, hlt, hfree, hcnt⟩ := LinkedList_popFront_spec hI
      rw [hpop] at h'
      obtain ⟨rfl, _⟩ := Prod.mk.inj (Option.some.inj h')
      rw [hhead]
      exact ⟨hcnt, by simp, hfree, (hI'.1.pool.mem_iff c.1).2 ⟨hlt, hfree⟩⟩
  · intro fuel l' v hrem
    have hbig := LinkedList_removeValue_mono (Nat.le_max_left fuel (cs.length + 1)) hrem
    have hf : cs.length < max fuel (cs.length + 1) := by omega
    rcases split_first v cs with hno | ⟨pre, c, post, rfl, hno, hyes⟩
    · rw [LinkedList_removeValue_none hI hf hno] at hbig
      have := (Prod.mk.inj (Option.some.inj hbig)).2
      exact absurd this (by decide)
    · have hf' : pre.length < max fuel ((pre ++ c :: post).length + 1) := by
        simp only [List.length_append, List.length_cons] at hf ⊢
        omega
      obtain ⟨l'', h', hI', hcnt⟩ := LinkedList_removeValue_found hI hf' hno hyes
      rw [hbig] at h'
      obtain ⟨rfl, _⟩ := Prod.mk.inj (Option.some.inj h')
      have hmem : c.1 ∈ (pre ++ c :: post).map Prod.fst := by simp
      have hlt : c.1 < N := hI.1.handle_lt hmem
      have hnot : c.1 ∉ (pre ++ post).map Prod.fst := by
        have hnd := hI.1.nodup
        simp only [List.map_append, List.map_cons] at hnd ⊢
        have h1 := List.nodup_append.1 hnd
        have h2 := List.nodup_cons.1 h1.2.1
        intro hc
        rcases List.mem_append.1 hc with hc | hc
        · exact h1.2.2 hc (List.mem_cons_self _ _)
        · exact h2.1 hc
      have hfree := hI'.1.free_of_not_mem hlt hnot
      exact ⟨hcnt, c.1, hmem, hfree, (hI'.1.pool.mem_iff c.1).2 ⟨hlt, hfree⟩⟩

/-- C18 on the list of `main` holding 0.5, 1.1, 2.2. -/
theorem C18_no_slot_leak_witness :
    ∃ cs, (∀ fuel, cs.length < fuel → LinkedList_cells 10 fuel main_list_3 = some cs) ∧
      (∀ h, (h < 10 ∧ main_list_3.pool.is_free[h]? = some false) ↔ h ∈ cs.map Prod.fst) ∧
      cs.length + main_list_3.pool.top_free = 10 ∧
      cs.length = 10 - main_list_3.pool.top_free ∧
      (∀ l' o, LinkedList_popFront 10 main_list_3 = some (l', o, 0) →
        l'.pool.top_free = main_list_3.pool.top_free + 1 ∧
        main_list_3.head ∈ cs.map Prod.fst ∧
        l'.pool.is_free[main_list_3.head]? = some true ∧
        main_list_3.head ∈ l'.pool.free_stack.take l'.pool.top_free) ∧
      (∀ fuel l' v, LinkedList_removeValue 10 fuel main_list_3 v = some (l', 0) →
        l'.pool.top_free = main_list_3.pool.top_free + 1 ∧
        ∃ h ∈ cs.map Prod.fst, l'.pool.is_free[h]? = some true ∧
          h ∈ l'.pool.free_stack.take l'.pool.top_free) :=
  C18_no_slot_leak 10 main_list_3 main_list_3_reach

/-- C19 (insertion succeeds exactly when not full).  In every reachable list,
with `cs` the cells of the chain: `LinkedList_pushFront` and
`LinkedList_pushBack` return a result whose status is `0` exactly when the list
holds fewer than `N` elements; with status `0` the new traversal is the old one
with the value added in front (resp. at the back), and otherwise the status is
`-1` and the list is returned as it was.  And whenever `NodePool_allocate`
reports status `0` with handle `idx`, the calls that follow it inside the two
functions all report status `0`: `setData(idx)`, `setNext(idx, head)`,
`setNext(idx, N)` and, on a non-empty list, `setNext(tail, idx)`. -/
theorem C19_insert_iff_not_full (N : Nat) (l : LinkedList) (v : F64)
    (hr : LinkedList.Reach N l) :
    ∃ cs, (∀ fuel, cs.length < fuel → LinkedList_cells N fuel l = some cs) ∧
      (∃ l' st, LinkedList_pushFront N l v = some (l', st) ∧ (st = 0 ↔ cs.length < N) ∧
        (st = 0 → ∀ fuel, cs.length + 1 < fuel →
          LinkedList_printList N fuel l' = some (v :: cs.map Prod.snd)) ∧
        (st ≠ 0 → st = -1 ∧ l' = l)) ∧
      (∃ l' st, LinkedList_pushBack N l v = some (l', st) ∧ (st = 0 ↔ cs.length < N) ∧
        (st = 0 → ∀ fuel, cs.length + 1 < fuel →
          LinkedList_printList N fuel l' = some (cs.map Prod.snd ++ [v])) ∧
        (st ≠ 0 → st = -1 ∧ l' = l)) ∧
      (∀ p1 idx, NodePool_allocate N l.pool = some (p1, some idx, 0) →
        ∃ p2 p3 p3', NodePool_setData N p1 idx v = some (p2, 0) ∧
          NodePool_setNext N p2 idx l.head = some (p3, 0) ∧
          NodePool_setNext N p2 idx N = some (p3', 0) ∧
          (l.head ≠ N → ∃ p4, NodePool_setNext N p3' l.tail idx = some (p4, 0))) := by
  obtain ⟨cs, hI⟩ := hr.listInv
  refine ⟨cs, fun fuel hf => LinkedList_cells_spec hI hf, ?_, ?_, ?_⟩
  · by_cases hlen : cs.length < N
    · obtain ⟨idx, l', hp, hI'⟩ := LinkedList_pushFront_spec hI hlen v
      refine ⟨l', 0, hp, ⟨fun _ => hlen, fun _ => rfl⟩, fun _ fuel hf => ?_,
        fun e => absurd rfl e⟩
      rw [LinkedList_printList_spec hI' (by simpa using hf)]
      rfl
    · have hfull : l.pool.top_free = 0 := hI.1.full_iff.2 (by have := hI.cells_le; omega)
      refine ⟨l, -1, LinkedList_pushFront_full N l v hfull, ?_, fun e => absurd e (by decide),
        fun _ => ⟨rfl, rfl⟩⟩
      exact ⟨fun e => absurd e (by decide), fun e => absurd e hlen⟩
  · by_cases hlen : cs.length < N
    · obtain ⟨idx, l', hp, hI'⟩ := LinkedList_pushBack_spec hI hlen v
      refine ⟨l', 0, hp, ⟨fun _ => hlen, fun _ => rfl⟩, fun _ fuel hf => ?_,
        fun e => absurd rfl e⟩
      rw [LinkedList_printList_spec hI' (by simpa using hf)]
      simp
    · have hfull : l.pool.top_free = 0 := hI.1.full_iff.2 (by have := hI.cells_le; omega)
      refine ⟨l, -1, LinkedList_pushBack_full N l v hfull, ?_, fun e => absurd e (by decide),
        fun _ => ⟨rfl, rfl⟩⟩
      exact ⟨fun e => absurd e (by decide), fun e => absurd e hlen⟩
  · intro p1 idx halloc
    have hlen : cs.length < N := by
      by_contra hc
      have hfull : l.pool.top_free = 0 := hI.1.full_iff.2 (by have := hI.cells_le; omega)
      rw [NodePool_allocate_full N l.pool hfull] at halloc
      have := (Prod.mk.inj (Prod.mk.inj (Option.some.inj halloc)).2).2
      exact absurd this (by decide)
    obtain ⟨i1, a1, a2, a3, ha, hd, hn, _, _⟩ := hI.1.insert_front hlen v
    obtain ⟨i2, b1, b2, b3, hb, hd', hn', _, _, hne⟩ := hI.1.insert_back hlen v
    rw [halloc] at ha hb
    obtain ⟨rfl, hx⟩ := Prod.mk.inj (Option.some.inj ha)
    obtain rfl := Option.some.inj (Prod.mk.inj hx).1
    obtain ⟨rfl, hy⟩ := Prod.mk.inj (Option.some.inj hb)
    obtain rfl := Option.some.inj (Prod.mk.inj hy).1
    rw [hd] at hd'
    obtain ⟨rfl, _⟩ := Prod.mk.inj (Option.some.inj hd')
    refine ⟨a2, a3, b3, hd, hn, hn', fun hhead => ?_⟩
    have hcs : cs ≠ [] := fun e => hhead ((hI.1.empty_iff (Nat.le_refl N)).2 e)
    obtain ⟨p4, h4, _⟩ := hne hcs
    rw [← hI.2] at h4
    exact ⟨p4, h4⟩

/-- C19 on the list of `main` holding 0.5, 1.1, 2.2. -/
theorem C19_insert_iff_not_full_witness :
    ∃ cs, (∀ fuel, cs.length < fuel → LinkedList_cells 10 fuel main_list_3 = some cs) ∧
      (∃ l' st, LinkedList_pushFront 10 main_list_3 d3_3 = some (l', st) ∧
        (st = 0 ↔ cs.length < 10) ∧
        (st = 0 → ∀ fuel, cs.length + 1 < fuel →
          LinkedList_printList 10 fuel l' = some (d3_3 :: cs.map Prod.snd)) ∧
        (st ≠ 0 → st = -1 ∧ l' = main_list_3)) ∧
      (∃ l' st, LinkedList_pushBack 10 main_list_3 d3_3 = some (l', st) ∧
        (st = 0 ↔ cs.length < 10) ∧
        (st = 0 → ∀ fuel, cs.length + 1 < fuel →
          LinkedList_printList 10 fuel l' = some (cs.map Prod.snd ++ [d3_3])) ∧
        (st ≠ 0 → st = -1 ∧ l' = main_list_3)) ∧
      (∀ p1 idx, NodePool_allocate 10 main_list_3.pool = some (p1, some idx, 0) →
        ∃ p2 p3 p3', NodePool_setData 10 p1 idx d3_3 = some (p2, 0) ∧
          NodePool_setNext 10 p2 idx main_list_3.head = some (p3, 0) ∧
          NodePool_setNext 10 p2 idx 10 = some (p3', 0) ∧
          (main_list_3.head ≠ 10 →
            ∃ p4, NodePool_setNext 10 p3' main_list_3.tail idx = some (p4, 0))) :=
  C19_insert_iff_not_full 10 main_list_3 d3_3 main_list_3_reach

/-- C10, counterexample.  With capacity 10, removing all three elements of the
queue of `main` (three dequeues with status `0`) leaves `head` and `tail` at
`SIZE_MAX`, and removing both elements of the stack of `main` (two pops with
status `0`) leaves `top` at `SIZE_MAX`; `SIZE_MAX` is not 10, the value that
stands for "no slot" in a structure of capacity 10 according to the claim, and
is not in `[0, 10]`. -/
theorem C10_drained_links_are_size_max :
    (Queue_dequeueN 10 main_queue_3 3).map (fun r => (r.1.head, r.1.tail, r.2))
      = some (SIZE_MAX, SIZE_MAX, [(some d1_1, 0), (some d2_2, 0), (some d3_3, 0)]) ∧
    (Stack_popN 10 main_stack_2 2).map (fun r => (r.1.top, r.2))
      = some (SIZE_MAX, [(some d20_5, 0), (some d10_5, 0)]) ∧
    SIZE_MAX ≠ 10 ∧ ¬ SIZE_MAX ≤ 10 := by
  refine ⟨by decide, by decide, by decide, by decide⟩

end HPDS
